import Mathlib

/-! The textimg compositor (`image/image.go`).

A shallow embedding of the rendering engine of textimg: the `Image` state, the
two-pass `Draw` protocol (whole-canvas fill, background pass, foreground pass),
the animation slicer and the scaler, followed by theorems about them.

Conventions of the embedding.

* Go `int` is the 64-bit `int` of the common platforms.  A value is an `Int`,
  and every `+`, `-` and `*` of the source is followed by `wrap64`, the
  reduction to the two's-complement range; `/` on `int` is truncated division
  (`Int.tdiv`) and a zero divisor is a run-time panic, which is an explicit
  outcome here.  The narrowing conversion `fixed.Int26_6(...)` (an `int32`)
  wraps explicitly as well.
* `float64` arithmetic is exact IEEE-754 binary64 round-to-nearest-even on the
  values the source computes (`float64(n) * 1.2`, `float64(n) / 1.2`,
  `0.75 * float64(n)`, `float64(n) * 0.9`).  The conversion `int(...)` truncates
  toward zero; outside the range of `int` its result is the most negative
  `int`, as on amd64.
* An `*image.RGBA` is a bounds rectangle and a pixel map; `Set` outside the
  bounds is ignored and `At` outside the bounds is the zero color, as in Go.
  `image.NewRGBA` panics for a rectangle with a negative side or a pixel buffer
  longer than the runtime allocates; an allocation that the runtime accepts is
  taken to be served.
* Libraries outside the repository (go-runewidth, cutter, x/image font and
  scaling, file access) and the helpers of the package that live in other files
  (`isLinefeed`, `isEmoji`) are the fields of `Env`.
-/

namespace Textimg

/-! ## Colors, points, rectangles, canvases -/

/-- Go `error` values, kept opaque: only their identity matters. -/
structure Error where
  msg : String
deriving DecidableEq, Repr

/-- The struct `color.RGBA` of `image/color` (and the repository's own
`color.RGBA`, which has the same underlying type): four `uint8` channels. -/
structure Color where
  R : Fin 256
  G : Fin 256
  B : Fin 256
  A : Fin 256
deriving DecidableEq, Repr

/-- The zero value `color.RGBA{}`. -/
def Color.zero : Color := ⟨0, 0, 0, 0⟩

/-- The result of an `int` operation on a 64-bit platform: the mathematical
result reduced to the two's-complement range from `-2 ^ 63` to `2 ^ 63 - 1`. -/
def wrap64 (v : Int) : Int :=
  (v + 9223372036854775808) % 18446744073709551616 - 9223372036854775808

/-- The struct `image.Point`. -/
structure Point where
  X : Int
  Y : Int
deriving DecidableEq, Repr

/-- The struct `image.Rectangle`: `Min` inclusive, `Max` exclusive. -/
structure Rectangle where
  Min : Point
  Max : Point
deriving DecidableEq, Repr

/-- The function `image.Rect`: the coordinates are swapped where necessary so
that the rectangle is well formed. -/
def Rect (x0 y0 x1 y1 : Int) : Rectangle :=
  let xa := if x0 > x1 then x1 else x0
  let xb := if x0 > x1 then x0 else x1
  let ya := if y0 > y1 then y1 else y0
  let yb := if y0 > y1 then y0 else y1
  ⟨⟨xa, ya⟩, ⟨xb, yb⟩⟩

/-- The method `Rectangle.Dx`. -/
def Rectangle.Dx (r : Rectangle) : Int := wrap64 (r.Max.X - r.Min.X)

/-- The method `Rectangle.Dy`. -/
def Rectangle.Dy (r : Rectangle) : Int := wrap64 (r.Max.Y - r.Min.Y)

/-- The method `Rectangle.Add`: translation by a point. -/
def Rectangle.Add (r : Rectangle) (p : Point) : Rectangle :=
  ⟨⟨wrap64 (r.Min.X + p.X), wrap64 (r.Min.Y + p.Y)⟩,
    ⟨wrap64 (r.Max.X + p.X), wrap64 (r.Max.Y + p.Y)⟩⟩

/-- The method `Point.In`. -/
def Point.In (p : Point) (r : Rectangle) : Bool :=
  decide (r.Min.X ≤ p.X) && decide (p.X < r.Max.X) &&
    decide (r.Min.Y ≤ p.Y) && decide (p.Y < r.Max.Y)

/-- The struct `image.RGBA`, with the pixel buffer seen as a map from
coordinates to colors. -/
structure Canvas where
  Rect : Rectangle
  Pix : Int → Int → Color

/-- The function `image.NewRGBA`: every pixel is the zero color.  `none` is the
panic of the function: `pixelBufferLength` panics when a side of the rectangle
is negative or `4 * Dx * Dy` overflows, and `make` panics for a length above
`2 ^ 48` bytes, the most that the runtime allocates on a 64-bit platform. -/
def NewRGBA (r : Rectangle) : Option Canvas :=
  if r.Dx < 0 ∨ r.Dy < 0 ∨ 281474976710656 < 4 * r.Dx * r.Dy then none
  else some ⟨r, fun _ _ => Color.zero⟩

/-- The method `RGBA.Bounds`. -/
def Canvas.Bounds (m : Canvas) : Rectangle := m.Rect

/-- The method `RGBA.At`: the zero color outside the bounds. -/
def Canvas.At (m : Canvas) (x y : Int) : Color :=
  if Point.In ⟨x, y⟩ m.Rect then m.Pix x y else Color.zero

/-- The method `RGBA.Set`: a write outside the bounds is ignored. -/
def Canvas.Set (m : Canvas) (x y : Int) (c : Color) : Canvas :=
  if Point.In ⟨x, y⟩ m.Rect then
    { m with Pix := fun x1 y1 => if x1 = x ∧ y1 = y then c else m.Pix x1 y1 }
  else m

/-- The values taken by the variable of `for v := lo; v < hi; v++`. -/
def intRange (lo hi : Int) : List Int :=
  (List.range (hi - lo).toNat).map (fun (k : Nat) => lo + (k : Int))

/-- One channel of `draw.Over` between two `*image.RGBA` (`drawCopyOver` of
`image/draw`): `uint8((d*a/m + s*0x101) >> 8)` with `m = 0xffff` and
`a = (m - sa*0x101) * 0x101`. -/
def overChannel (s sa d : Fin 256) : Fin 256 :=
  Fin.ofNat ((d.val * ((65535 - sa.val * 257) * 257) / 65535 + s.val * 257) / 256)

/-- The operator `draw.Over` on one pixel: source `s` over destination `d`. -/
def over (s d : Color) : Color :=
  ⟨overChannel s.R s.A d.R, overChannel s.G s.A d.G, overChannel s.B s.A d.B,
    overChannel s.A s.A d.A⟩

/-- The call `draw.Draw(dst, r, src, sp, draw.Over)` for two distinct
`*image.RGBA`: `r` is clipped to the bounds of `dst` and to those of `src`
moved by `r.Min - sp`, and every pixel of the clipped rectangle is composited. -/
def drawOver (dst : Canvas) (r : Rectangle) (src : Canvas) (sp : Point) : Canvas :=
  { dst with
    Pix := fun x y =>
      if Point.In ⟨x, y⟩ r && Point.In ⟨x, y⟩ dst.Rect &&
          Point.In ⟨x - r.Min.X + sp.X, y - r.Min.Y + sp.Y⟩ src.Rect then
        over (src.Pix (x - r.Min.X + sp.X) (y - r.Min.Y + sp.Y)) (dst.Pix x y)
      else dst.Pix x y }

/-! ## `float64` arithmetic -/

/-- Loop of `bitLen`: counts the halvings of `n` until zero. -/
def bitLenAux : Nat → Nat → Nat → Nat
  | 0, _, acc => acc
  | f + 1, n, acc => if n = 0 then acc else bitLenAux f (n / 2) (acc + 1)

/-- Number of binary digits of `n`. -/
def bitLen (n : Nat) : Nat := bitLenAux n n 0

/-- Nearest natural number to `p / q`, ties to the even one. -/
def roundHalfEven (p q : Nat) : Nat :=
  let d := p / q
  let r := p % q
  if 2 * r < q then d
  else if q < 2 * r then d + 1
  else if d % 2 = 0 then d else d + 1

/-- A finite `float64`, as the dyadic rational `num / den` with a sign. -/
structure Float64 where
  neg : Bool
  num : Nat
  den : Nat
deriving DecidableEq, Repr

/-- Rounding of the rational `p / q` to the nearest `float64` (53-bit mantissa,
ties to even).  The exponent range is not bounded: every value the source
computes from an `int` is far from overflow and from the subnormal range. -/
def roundToFloat64 (neg : Bool) (p q : Nat) : Float64 :=
  if p = 0 then ⟨neg, 0, 1⟩ else
  let s0 := bitLen p - (bitLen q + 53)
  let u0 := (bitLen q + 53) - bitLen p
  let big : Bool := decide (q * 2 ^ s0 * 2 ^ 53 ≤ p * 2 ^ u0)
  let u := if big then u0 - 1 else u0
  let s := if big && decide (u0 = 0) then s0 + 1 else s0
  ⟨neg, roundHalfEven (p * 2 ^ u) (q * 2 ^ s) * 2 ^ s, 2 ^ u⟩

/-- The conversion `float64(n)` of an `int`. -/
def Float64.ofInt (n : Int) : Float64 := roundToFloat64 (decide (n < 0)) n.natAbs 1

/-- The product `a * b` of two `float64`. -/
def Float64.mul (a b : Float64) : Float64 :=
  roundToFloat64 (xor a.neg b.neg) (a.num * b.num) (a.den * b.den)

/-- The quotient `a / b` of two `float64`, for `b` not zero. -/
def Float64.div (a b : Float64) : Float64 :=
  roundToFloat64 (xor a.neg b.neg) (a.num * b.den) (a.den * b.num)

/-- The integer part of a `float64`, toward zero. -/
def Float64.trunc (a : Float64) : Int :=
  if a.neg then -((a.num / a.den : Nat) : Int) else ((a.num / a.den : Nat) : Int)

/-- The conversion `int(f)`: truncation toward zero.  For a value outside the
range of `int` the language leaves the result to the implementation; it is the
most negative `int`, the result of the conversion instruction of amd64. -/
def Float64.toInt (a : Float64) : Int :=
  if -9223372036854775808 ≤ a.trunc ∧ a.trunc < 9223372036854775808 then a.trunc
  else -9223372036854775808

/-- The constant `1.2` as a `float64`. -/
def f64_1_2 : Float64 := roundToFloat64 false 12 10

/-- The constant `0.75` as a `float64`. -/
def f64_0_75 : Float64 := roundToFloat64 false 75 100

/-- The constant `0.9` as a `float64`. -/
def f64_0_9 : Float64 := roundToFloat64 false 9 10

/-- Go integer division: `none` is the run-time panic on a zero divisor.  The
quotient of the most negative `int` by -1 wraps. -/
def goDiv (a b : Int) : Option Int := if b = 0 then none else some (wrap64 (Int.tdiv a b))

/-- The conversion `fixed.Int26_6(v)` of an `int` to an `int32`. -/
def Int26_6 (v : Int) : Int := (v + 2147483648) % 4294967296 - 2147483648

/-- The method `Int26_6.Floor`: an arithmetic shift right by 6. -/
def floor26_6 (v : Int) : Int := v / 64

/-! ## Tokens and external capabilities -/

/-- Modelled from the spec: the type `token.Kind` of the repository's `token`
package, whose declaration is not in this file.  A token is a color directive
or a text run; `KindOther` stands for every other integer value, which the
`switch` of `Draw` skips. -/
inductive Kind where
  | KindColor
  | KindText
  | KindOther (n : Nat)
deriving DecidableEq, Repr

/-- Modelled from the spec: the type `token.ColorType` of the repository's
`token` package, whose declaration is not in this file: the seven directive
kinds named by `updateColor`; `ColorTypeOther` stands for every other integer
value. -/
inductive ColorType where
  | ColorTypeBold
  | ColorTypeReset
  | ColorTypeResetForeground
  | ColorTypeResetBackground
  | ColorTypeReverse
  | ColorTypeForeground
  | ColorTypeBackground
  | ColorTypeOther (n : Nat)
deriving DecidableEq, Repr

/-- Modelled from the spec: the struct `token.Token`, with the four fields
`Draw` reads.  `Text` is the sequence of runes that `range t.Text` yields. -/
structure Token where
  Kind : Kind
  ColorType : ColorType
  Color : Color
  Text : List Char
deriving DecidableEq, Repr

/-- The type `token.Tokens`. -/
abbrev Tokens := List Token

/-- A `font.Face`, kept opaque. -/
structure Face where
  id : Nat
deriving DecidableEq, Repr

/-- The struct `font.Drawer` as `newDrawer` fills it: `Src` is the uniform
image of one color, `Dot` is in 26.6 fixed point. -/
structure Drawer where
  Dst : Canvas
  Src : Color
  Face : Face
  Dot : Point

/-- What the file takes from outside: the rune-width library, the two helpers
of the package defined in other files, file access and decoding, font metrics
and glyph rasterisation, resampling, and cropping.  The three pixel producers
return the new pixel map of the destination, whose bounds they cannot change. -/
structure Env where
  /-- The function `runewidth.RuneWidth`. -/
  RuneWidth : Char → Int
  /-- The function `runewidth.StringWidth`. -/
  StringWidth : List Char → Int
  /-- The helper `isLinefeed` of the package. -/
  isLinefeed : Char → Bool
  /-- The helper `isEmoji` of the package: rune and emoji directory to `(ok, path)`. -/
  isEmoji : Char → String → Bool × String
  /-- The call `os.Open(path)`: its error, if any. -/
  osOpen : String → Option Error
  /-- The call `image.Decode` on the opened file at the path. -/
  imageDecode : String → Except Error Canvas
  /-- The value `Face.Metrics().Ascent.Floor()`. -/
  AscentFloor : Face → Int
  /-- The value `Face.Metrics().Descent.Floor()`. -/
  DescentFloor : Face → Int
  /-- The method `Drawer.DrawString` on the string of one rune: the pixels of `Dst` afterwards. -/
  DrawString : Drawer → Char → Int → Int → Color
  /-- The call `xdraw.ApproxBiLinear.Scale(dst, r, src, src.Bounds(), draw.Over, nil)`. -/
  ApproxBiLinear : Canvas → Rectangle → Canvas → Int → Int → Color
  /-- The call `xdraw.CatmullRom.Scale(dst, dst.Bounds(), src, src.Bounds(), draw.Over, nil)`. -/
  CatmullRom : Canvas → Canvas → Int → Int → Color
  /-- The call `cutter.Crop` with mode `TopLeft` and option `Copy`: image, width, height, anchor. -/
  Crop : Canvas → Int → Int → Point → Except Error Canvas

/-! ## The `Image` state -/

/-- The struct `Image`. -/
structure Image where
  image : Canvas
  animationImages : List Canvas
  x : Int
  y : Int
  foregroundColor : Color
  backgroundColor : Color
  defaultForegroundColor : Color
  defaultBackgroundColor : Color
  fontSize : Int
  fontFace : Face
  emojiFontFace : Face
  charWidth : Int
  charHeight : Int
  emojiDir : String
  useEmoji : Bool
  lineCount : Int
  useAnimation : Bool
  animationLineCount : Int
  animationImageFlameHeight : Int
  resizeWidth : Int
  resizeHeight : Int
  delay : Int

/-- The struct `ImageParam`. -/
structure ImageParam where
  BaseWidth : Int
  BaseHeight : Int
  ForegroundColor : Color
  BackgroundColor : Color
  FontSize : Int
  FontFace : Face
  EmojiFontFace : Face
  EmojiDir : String
  UseEmoji : Bool
  UseAnimation : Bool
  AnimationLineCount : Int
  ResizeWidth : Int
  ResizeHeight : Int
  Delay : Int

/-- How a call ends: normally with a nil error, with an error, or in a panic. -/
inductive Outcome where
  | ok
  | err (e : Error)
  | panic
deriving DecidableEq, Repr

/-- What stops a pass of `Draw` before its last rune: the error that `draw`
returned, or a run-time panic. -/
inductive Failure where
  | err (e : Error)
  | panic
deriving DecidableEq, Repr

/-- The function `newImage`; `none` is the panic of `image.NewRGBA`. -/
def newImage (w h : Int) : Option Canvas := NewRGBA (Rect 0 0 w h)

/-- The function `NewImage`; `none` is a panic: an integer division by zero in
the computation of the frame height, or the panic of `newImage`. -/
def NewImage (p : ImageParam) : Option Image :=
  let charWidth := Int.tdiv p.FontSize 2
  let charHeight := ((Float64.ofInt p.FontSize).mul f64_1_2).toInt
  let imageWidth := wrap64 (p.BaseWidth * charWidth)
  let imageHeight := ((Float64.ofInt (wrap64 (p.BaseHeight * charHeight))).div f64_1_2).toInt
  let flame : Option Int :=
    if p.UseAnimation then
      (goDiv p.BaseHeight p.AnimationLineCount).bind (fun n => goDiv imageHeight n)
    else some 0
  flame.bind fun animationImageFlameHeight =>
    (newImage imageWidth imageHeight).map fun image =>
      { image := image
        animationImages := []
        x := 0
        y := 0
        foregroundColor := p.ForegroundColor
        backgroundColor := p.BackgroundColor
        defaultForegroundColor := p.ForegroundColor
        defaultBackgroundColor := p.BackgroundColor
        fontSize := p.FontSize
        fontFace := p.FontFace
        emojiFontFace := p.EmojiFontFace
        charWidth := charWidth
        charHeight := charHeight
        emojiDir := p.EmojiDir
        useEmoji := p.UseEmoji
        lineCount := 0
        useAnimation := p.UseAnimation
        animationLineCount := p.AnimationLineCount
        animationImageFlameHeight := animationImageFlameHeight
        resizeWidth := p.ResizeWidth
        resizeHeight := p.ResizeHeight
        delay := p.Delay }

/-- The nested loop `for x := x0; x < x1; x++ { for y := y0; y < y1; y++ { Set(x, y, c) } }`
shared by `drawBackgroundAll` and `drawBackground`. -/
def fillLoop (m : Canvas) (x0 x1 y0 y1 : Int) (c : Color) : Canvas :=
  (intRange x0 x1).foldl
    (fun m x => (intRange y0 y1).foldl (fun m y => m.Set x y c) m) m

/-- The method `drawBackgroundAll`. -/
def Image.drawBackgroundAll (i : Image) : Image :=
  let bounds := i.image.Bounds.Max
  let width := bounds.X
  let height := bounds.Y
  { i with image := fillLoop i.image 0 width 0 height i.defaultBackgroundColor }

/-- The method `resetColor`. -/
def Image.resetColor (i : Image) : Image :=
  { i with foregroundColor := i.defaultForegroundColor
           backgroundColor := i.defaultBackgroundColor }

/-- The method `updateColor`. -/
def Image.updateColor (i : Image) (t : ColorType) (col : Color) : Image :=
  match t with
  | .ColorTypeBold => i
  | .ColorTypeReset => i.resetColor
  | .ColorTypeResetForeground => { i with foregroundColor := i.defaultForegroundColor }
  | .ColorTypeResetBackground => { i with backgroundColor := i.defaultBackgroundColor }
  | .ColorTypeReverse =>
    { i with foregroundColor := i.backgroundColor, backgroundColor := i.foregroundColor }
  | .ColorTypeForeground => { i with foregroundColor := col }
  | .ColorTypeBackground => { i with backgroundColor := col }
  | .ColorTypeOther _ => i

/-- The method `resetPosition`. -/
def Image.resetPosition (i : Image) : Image :=
  { i with x := 0, y := 0, lineCount := 0 }

/-- The method `newDrawer`. -/
def Image.newDrawer (i : Image) (f : Face) : Drawer :=
  let x := i.x
  let y := wrap64 (wrap64 (i.y + i.charHeight) - Int.tdiv i.charHeight 5)
  { Dst := i.image, Src := i.foregroundColor, Face := f
    Dot := ⟨Int26_6 (wrap64 (x * 64)), Int26_6 (wrap64 (y * 64))⟩ }

/-- The method `drawRune`. -/
def Image.drawRune (env : Env) (i : Image) (r : Char) (f : Face) : Image :=
  let d := i.newDrawer f
  { i with image := { i.image with Pix := env.DrawString d r } }

/-- The method `drawEmoji`: the error of `os.Open` or of `image.Decode`, the
panic of `image.NewRGBA`, or the state with the emoji composited. -/
def Image.drawEmoji (env : Env) (i : Image) (_r : Char) (path : String) : Except Failure Image :=
  match env.osOpen path with
  | some e => .error (.err e)
  | none =>
    match env.imageDecode path with
    | .error e => .error (.err e)
    | .ok emoji =>
      let d := i.newDrawer i.fontFace
      let size :=
        ((Float64.ofInt (wrap64 (env.AscentFloor d.Face + env.DescentFloor d.Face))).mul
          f64_0_9).toInt
      let rect := Rect 0 0 size size
      match NewRGBA rect with
      | none => .error .panic
      | some dst =>
        let dst := { dst with Pix := env.ApproxBiLinear dst rect emoji }
        let p : Point :=
          ⟨floor26_6 d.Dot.X, wrap64 (floor26_6 d.Dot.Y - env.AscentFloor d.Face)⟩
        .ok { i with image := drawOver i.image (rect.Add p) dst ⟨0, 0⟩ }

/-- The method `draw`. -/
def Image.draw (env : Env) (i : Image) (r : Char) : Except Failure Image :=
  match env.isEmoji r i.emojiDir with
  | (true, emojiPath) =>
    if i.useEmoji then .ok (i.drawRune env r i.emojiFontFace)
    else i.drawEmoji env r emojiPath
  | (false, _) => .ok (i.drawRune env r i.fontFace)

/-- The method `drawBackground`. -/
def Image.drawBackground (env : Env) (i : Image) (s : List Char) : Image :=
  let tw := env.StringWidth s
  let width := wrap64 (tw * i.charWidth)
  let height := i.charHeight
  let posX := i.x
  let posY := i.y
  { i with
    image :=
      (fillLoop i.image posX (wrap64 (posX + width)) posY (wrap64 (posY + height))
        i.backgroundColor) }

/-- The method `moveRight`. -/
def Image.moveRight (env : Env) (i : Image) (r : Char) : Image :=
  { i with x := wrap64 (i.x + wrap64 (env.RuneWidth r * i.charWidth)) }

/-- The method `moveDown`. -/
def Image.moveDown (i : Image) : Image :=
  { i with x := 0
           y := wrap64 (i.y + (f64_0_75.mul (Float64.ofInt i.charHeight)).toInt)
           lineCount := wrap64 (i.lineCount + 1) }

/-- The function `scale`; `none` is the panic of `newImage`. -/
def scale (env : Env) (img : Canvas) (w h : Int) : Option Canvas :=
  (newImage w h).map fun dst => { dst with Pix := env.CatmullRom dst img }

/-- The method `newScaledImage`. -/
def Image.newScaledImage (env : Env) (i : Image) : Option Canvas :=
  if i.resizeWidth = 0 ∧ i.resizeHeight = 0 then some i.image
  else Textimg.scale env i.image i.resizeWidth i.resizeHeight

/-- The loop of `Image.scale` over the frames; `none` is a panic. -/
def scaleAll (env : Env) (w h : Int) : List Canvas → Option (List Canvas)
  | [] => some []
  | img :: rest =>
    match Textimg.scale env img w h with
    | none => none
    | some dst => (scaleAll env w h rest).map (fun l => dst :: l)

/-- The method `Image.scale`; `none` is a panic. -/
def Image.scale (env : Env) (i : Image) : Option Image :=
  if i.resizeWidth = 0 ∧ i.resizeHeight = 0 then some i
  else
    match i.newScaledImage env with
    | none => none
    | some m =>
      let i1 := { i with image := m }
      (scaleAll env i1.resizeWidth i1.resizeHeight i1.animationImages).map
        (fun l => { i1 with animationImages := l })

/-- The body of the loop of `setAnimationFlames`, over the remaining values of
`rc`. -/
def flamesLoop (env : Env) (w h : Int) : List Int → Image → Image × Outcome
  | [], i => (i, .ok)
  | rc :: rest, i =>
    let pt : Point := ⟨0, wrap64 (rc * h)⟩
    match env.Crop i.image w h pt with
    | .error e => (i, .err e)
    | .ok cimg =>
      match NewRGBA ⟨⟨0, 0⟩, ⟨w, h⟩⟩ with
      | none => (i, .panic)
      | some dist =>
        let dist := drawOver dist dist.Bounds cimg pt
        flamesLoop env w h rest { i with animationImages := i.animationImages ++ [dist] }

/-- The method `setAnimationFlames`; a zero frame height is a division by zero. -/
def Image.setAnimationFlames (env : Env) (i : Image) : Image × Outcome :=
  if i.useAnimation then
    let b := i.image.Bounds.Max
    let w := b.X
    let h := i.animationImageFlameHeight
    match goDiv b.Y i.animationImageFlameHeight with
    | none => (i, .panic)
    | some max => flamesLoop env w h (intRange 0 max) i
  else (i, .ok)

/-! ## The two passes and `Draw` -/

/-- The inner loop of the background pass over the runes of one text run. -/
def bgRunes (env : Env) : List Char → Image → Image
  | [], i => i
  | r :: rs, i =>
    if env.isLinefeed r then bgRunes env rs i.moveDown
    else bgRunes env rs (i.moveRight env r)

/-- One iteration of the first loop of `Draw`. -/
def bgToken (env : Env) (i : Image) (t : Token) : Image :=
  match t.Kind with
  | .KindColor => i.updateColor t.ColorType t.Color
  | .KindText => bgRunes env t.Text (i.drawBackground env t.Text)
  | .KindOther _ => i

/-- The first loop of `Draw`: the background pass. -/
def backgroundPass (env : Env) (tokens : Tokens) (i : Image) : Image :=
  tokens.foldl (bgToken env) i

/-- The inner loop of the foreground pass over the runes of one text run; it
stops at the first rune whose `draw` returns an error or panics. -/
def fgRunes (env : Env) : List Char → Image → Image × Option Failure
  | [], i => (i, none)
  | r :: rs, i =>
    if env.isLinefeed r then fgRunes env rs i.moveDown
    else
      match i.draw env r with
      | .error e => (i, some e)
      | .ok i1 => fgRunes env rs (i1.moveRight env r)

/-- One iteration of the second loop of `Draw`. -/
def fgToken (env : Env) (i : Image) (t : Token) : Image × Option Failure :=
  match t.Kind with
  | .KindColor => (i.updateColor t.ColorType t.Color, none)
  | .KindText => fgRunes env t.Text i
  | .KindOther _ => (i, none)

/-- The second loop of `Draw`: the foreground pass, with its early return. -/
def foregroundPass (env : Env) : Tokens → Image → Image × Option Failure
  | [], i => (i, none)
  | t :: ts, i =>
    match fgToken env i t with
    | (i1, some e) => (i1, some e)
    | (i1, none) => foregroundPass env ts i1

/-- The state of `Draw` when its second loop starts: whole-canvas fill,
background pass, `resetColor`, `resetPosition`. -/
def afterBackground (env : Env) (tokens : Tokens) (i : Image) : Image :=
  ((backgroundPass env tokens i.drawBackgroundAll).resetColor).resetPosition

/-- The method `Draw`: the final state of the receiver and how the call ends. -/
def Image.Draw (env : Env) (i : Image) (tokens : Tokens) : Image × Outcome :=
  match foregroundPass env tokens (afterBackground env tokens i) with
  | (i1, some (.err e)) => (i1, .err e)
  | (i1, some .panic) => (i1, .panic)
  | (i1, none) =>
    match i1.setAnimationFlames env with
    | (i2, .err e) => (i2, .err e)
    | (i2, .panic) => (i2, .panic)
    | (i2, .ok) =>
      match i2.scale env with
      | none => (i2, .panic)
      | some i3 => (i3, .ok)

/-! ## Vocabulary of the statements and example inputs -/

/-- The values of the Go type `int` on a 64-bit platform. -/
def IsInt (v : Int) : Prop := -9223372036854775808 ≤ v ∧ v < 9223372036854775808

/-- The value of a `float64` as a rational number, up to its sign. -/
def Float64.val (f : Float64) : ℚ := (f.num : ℚ) / (f.den : ℚ)

/-- The vertical advance of `moveDown` for the cell height `ch`. -/
def linePitch (ch : Int) : Int := (f64_0_75.mul (Float64.ofInt ch)).toInt

/-- An environment for the examples: every rune but the line feed is one cell
wide, a string is as wide as its runes together, no rune is an emoji, glyph
drawing and resampling leave the destination as it is, and cropping copies the
requested region. -/
def demoEnv : Env where
  RuneWidth := fun r => if r = Char.ofNat 10 then 0 else 1
  StringWidth := fun s => (s.map (fun r => if r = Char.ofNat 10 then (0 : Int) else 1)).sum
  isLinefeed := fun r => decide (r = Char.ofNat 10)
  isEmoji := fun _ _ => (false, "")
  osOpen := fun _ => none
  imageDecode := fun _ => .error ⟨"not an image"⟩
  AscentFloor := fun _ => 0
  DescentFloor := fun _ => 0
  DrawString := fun d _ => d.Dst.Pix
  ApproxBiLinear := fun dst _ _ => dst.Pix
  CatmullRom := fun dst _ => dst.Pix
  Crop := fun img w h pt => .ok ⟨⟨pt, ⟨pt.X + w, pt.Y + h⟩⟩, img.Pix⟩

/-- Opaque black. -/
def black : Color := ⟨0, 0, 0, 255⟩

/-- Opaque white. -/
def white : Color := ⟨255, 255, 255, 255⟩

/-- Opaque red. -/
def red : Color := ⟨255, 0, 0, 255⟩

/-- Parameters with the given grid and font size, white on black, no
animation and no rescaling. -/
def demoParam (baseWidth baseHeight fontSize : Int) : ImageParam where
  BaseWidth := baseWidth
  BaseHeight := baseHeight
  ForegroundColor := white
  BackgroundColor := black
  FontSize := fontSize
  FontFace := ⟨0⟩
  EmojiFontFace := ⟨1⟩
  EmojiDir := ""
  UseEmoji := false
  UseAnimation := false
  AnimationLineCount := 0
  ResizeWidth := 0
  ResizeHeight := 0
  Delay := 0

/-- A text token. -/
def textToken (s : List Char) : Token := ⟨.KindText, .ColorTypeBold, Color.zero, s⟩

/-- A color directive. -/
def colorToken (t : ColorType) (c : Color) : Token := ⟨.KindColor, t, c, []⟩

/-- Every pixel inside the bounds of the canvas of `i` has the color `c`, which
is also the current background color. -/
def Painted (c : Color) (i : Image) : Prop :=
  i.backgroundColor = c ∧
    ∀ x y, Point.In ⟨x, y⟩ i.image.Rect = true → i.image.Pix x y = c

/-- The image that `NewImage` returns for parameters on which it does not panic. -/
def built (p : ImageParam) (h : (NewImage p).isSome = true) : Image := (NewImage p).get h

/-- The statement that, on the image built from `p`, a token stream without
color directives leaves every pixel of the canvas at the default background
color once the whole-canvas fill and the background pass are done. -/
def TextOnlyFill (env : Env) (p : ImageParam) (tokens : Tokens) : Prop :=
  ∀ i, NewImage p = some i → (∀ t ∈ tokens, t.Kind ≠ .KindColor) →
    ∀ x y, Point.In ⟨x, y⟩ (backgroundPass env tokens i.drawBackgroundAll).image.Bounds = true →
      (backgroundPass env tokens i.drawBackgroundAll).image.At x y = p.BackgroundColor

/-- A property of the state that no step of the two passes of `Draw` breaks. -/
structure PassStable (env : Env) (P : Image → Prop) : Prop where
  updateColor : ∀ i t c, P i → P (i.updateColor t c)
  resetColor : ∀ i, P i → P i.resetColor
  resetPosition : ∀ i, P i → P i.resetPosition
  moveDown : ∀ i, P i → P i.moveDown
  moveRight : ∀ i r, P i → P (i.moveRight env r)
  setImage : ∀ (i : Image) (m : Canvas), P i → P { i with image := m }

/-- A property of the state that no elementary operation of `Draw` breaks. -/
structure Stable (env : Env) (P : Image → Prop) extends PassStable env P : Prop where
  setFlames : ∀ (i : Image) (l : List Canvas), P i → P { i with animationImages := l }

/-- Two states with the same cursor, line count and cell size. -/
def SameCursor (i j : Image) : Prop :=
  i.x = j.x ∧ i.y = j.y ∧ i.lineCount = j.lineCount ∧
    i.charWidth = j.charWidth ∧ i.charHeight = j.charHeight

/-- Two states with the same current and default colors. -/
def SameColors (i j : Image) : Prop :=
  i.foregroundColor = j.foregroundColor ∧ i.backgroundColor = j.backgroundColor ∧
    i.defaultForegroundColor = j.defaultForegroundColor ∧
    i.defaultBackgroundColor = j.defaultBackgroundColor

/-- A property of the state kept by every step inside a pass of `Draw`: color
directives, cursor moves, and writes to the pixels of the canvas. -/
structure StepStable (env : Env) (P : Image → Prop) : Prop where
  updateColor : ∀ i t c, P i → P (i.updateColor t c)
  moveDown : ∀ i, P i → P i.moveDown
  moveRight : ∀ i r, P i → P (i.moveRight env r)
  setPix : ∀ (i : Image) (pix : Int → Int → Color),
    P i → P { i with image := { i.image with Pix := pix } }

/-- The statement that `NewImage` on `p` gives the cell size `cw` by `ch` and a
canvas `w` pixels wide and `h` pixels high. -/
def BuildsGeometry (p : ImageParam) (cw ch w h : Int) : Prop :=
  ∀ i, NewImage p = some i →
    i.charWidth = cw ∧ i.charHeight = ch ∧ i.image.Bounds.Dx = w ∧ i.image.Bounds.Dy = h

/-- The statement that the drawer of `i` has its dot, in 26.6 fixed point, at
the pixel `(bx, by)`. -/
def BaselineAt (i : Image) (f : Face) (bx bY : Int) : Prop :=
  (i.newDrawer f).Dot = ⟨bx * 64, bY * 64⟩

/-- The statement that `Image.scale` leaves `i` as it is for the target (0, 0)
and otherwise gives the main canvas and every frame exactly the target width
and height, keeping the number of frames. -/
def ScalesExactly (env : Env) (i : Image) : Prop :=
  (i.resizeWidth = 0 ∧ i.resizeHeight = 0 → i.scale env = some i) ∧
  (¬ (i.resizeWidth = 0 ∧ i.resizeHeight = 0) →
    ∃ j, i.scale env = some j ∧
      (j.image.Bounds.Dx = i.resizeWidth ∧ j.image.Bounds.Dy = i.resizeHeight) ∧
      j.animationImages.length = i.animationImages.length ∧
      ∀ m ∈ j.animationImages,
        m.Bounds.Dx = i.resizeWidth ∧ m.Bounds.Dy = i.resizeHeight)

/-- Parameters of a 2 by 1 grid with font size 2 and the given scale target. -/
def resizeParam (w h : Int) : ImageParam :=
  { demoParam 2 1 2 with ResizeWidth := w, ResizeHeight := h }

/-- The canvas that `image.NewRGBA` returns when it does not panic. -/
def blankCanvas (r : Rectangle) : Canvas := ⟨r, fun _ _ => Color.zero⟩

/-- The canvas that `scale` returns for the image `img` and the target `w` by
`h` when it does not panic: the bounds `image.Rect(0, 0, w, h)` with the pixels
of the resampling. -/
def scaledTo (env : Env) (w h : Int) (img : Canvas) : Canvas :=
  { blankCanvas (Rect 0 0 w h) with Pix := env.CatmullRom (blankCanvas (Rect 0 0 w h)) img }

/-- The side of the square to which `drawEmoji` rescales an emoji image, for the
primary font face `f`: `int(float64(Ascent.Floor() + Descent.Floor()) * 0.9)`. -/
def emojiSize (env : Env) (f : Face) : Int :=
  ((Float64.ofInt (wrap64 (env.AscentFloor f + env.DescentFloor f))).mul f64_0_9).toInt

/-- The point of the canvas at which `drawEmoji` puts the top-left corner of an
emoji image: the dot of the drawer, in whole pixels, moved up by the ascent. -/
def emojiOrigin (env : Env) (i : Image) : Point :=
  ⟨floor26_6 (i.newDrawer i.fontFace).Dot.X,
    wrap64 (floor26_6 (i.newDrawer i.fontFace).Dot.Y - env.AscentFloor i.fontFace)⟩

/-- What stops glyph drawing for the rune `r`: only a rune that maps to an emoji
resource can fail, when emoji are not drawn with the emoji font: with the error
of `os.Open`, else with the error of `image.Decode`, else with the panic of
`image.NewRGBA` on the square of the rescaled emoji. -/
def glyphFailure (env : Env) (emojiDir : String) (useEmoji : Bool) (face : Face) (r : Char) :
    Option Failure :=
  if (env.isEmoji r emojiDir).1 = true ∧ useEmoji = false then
    match env.osOpen (env.isEmoji r emojiDir).2 with
    | some e => some (.err e)
    | none =>
      match env.imageDecode (env.isEmoji r emojiDir).2 with
      | .error e => some (.err e)
      | .ok _ =>
        if (NewRGBA (Rect 0 0 (emojiSize env face) (emojiSize env face))).isSome then none
        else some .panic
  else none

/-- The runes on which the foreground pass calls `draw`, in stream order: the
runes of the text runs that are not line breaks. -/
def glyphRunes (env : Env) : Tokens → List Char
  | [] => []
  | t :: ts =>
    (match t.Kind with
      | .KindText => t.Text.filter (fun r => !env.isLinefeed r)
      | _ => []) ++ glyphRunes env ts

/-- An environment in which the star U+2605 maps to an emoji resource that
cannot be opened, and which is like `demoEnv` otherwise. -/
def starEnv : Env :=
  { demoEnv with
    isEmoji := fun r dir => (decide (r = Char.ofNat 9733), dir ++ "/2605.png")
    osOpen := fun _ => some ⟨"open: no such file"⟩ }

/-- An environment in which the star U+2605 maps to an emoji resource that
decodes to one red pixel, the primary face has the ascent 2 and the descent 0,
and resampling fills the destination with the pixel (0, 0) of the source; it
is like `demoEnv` otherwise. -/
def emojiEnv : Env :=
  { demoEnv with
    isEmoji := fun r dir => (decide (r = Char.ofNat 9733), dir ++ "/2605.png")
    imageDecode := fun _ => .ok ⟨⟨⟨0, 0⟩, ⟨1, 1⟩⟩, fun _ _ => red⟩
    AscentFloor := fun _ => 2
    ApproxBiLinear := fun _ _ src _ _ => src.Pix 0 0 }

/-- What the slicer needs from `cutter.Crop` (mode `TopLeft`, option `Copy`) on
the canvas `img`: a request that lies inside the bounds of the canvas succeeds,
and the result shows, at every point of the requested rectangle, the pixel of
the canvas. -/
def CropCopies (env : Env) (img : Canvas) : Prop :=
  ∀ (w h : Int) (pt : Point), 0 ≤ w → 0 ≤ h →
    img.Bounds.Min.X ≤ pt.X → pt.X + w ≤ img.Bounds.Max.X →
    img.Bounds.Min.Y ≤ pt.Y → pt.Y + h ≤ img.Bounds.Max.Y →
    ∃ c, env.Crop img w h pt = .ok c ∧
      ∀ x y, pt.X ≤ x → x < pt.X + w → pt.Y ≤ y → y < pt.Y + h → c.At x y = img.At x y

/-- The frame that one iteration of the loop builds from the cropped image. -/
def flameOf (w h : Int) (cimg : Canvas) (pt : Point) : Canvas :=
  drawOver (blankCanvas ⟨⟨0, 0⟩, ⟨w, h⟩⟩) (blankCanvas ⟨⟨0, 0⟩, ⟨w, h⟩⟩).Bounds cimg pt

/-- Parameters of a 2 by 2 grid with font size 4 (a canvas of 4 by 6 pixels) and
animation with one line per frame (frames 3 pixels high). -/
def animParam : ImageParam :=
  { demoParam 2 2 4 with UseAnimation := true, AnimationLineCount := 1 }

/-- The statement that `setAnimationFlames` ends without error and appends
`floor(H / h)` frames, each as wide as the canvas and `h` high, for the canvas
of `i`, of height `H`, and its frame height `h`. -/
def SlicesCanvas (env : Env) (i : Image) : Prop :=
  ∃ frames : List Canvas,
    i.setAnimationFlames env =
      ({ i with animationImages := i.animationImages ++ frames }, .ok) ∧
    (frames.length : Int) = i.image.Bounds.Dy / i.animationImageFlameHeight ∧
    ∀ f ∈ frames,
      f.Bounds.Dx = i.image.Bounds.Dx ∧ f.Bounds.Dy = i.animationImageFlameHeight

/-- Parameters of a grid of -2 by 2 cells with font size 4 and animation with one
line per frame. -/
def flippedAnimParam : ImageParam := { animParam with BaseWidth := -2 }

/-- The display width of all runes of the text runs of a stream, line breaks
included. -/
def streamWidth (env : Env) : Tokens → Int
  | [] => 0
  | t :: ts =>
    (match t.Kind with
      | .KindText => (t.Text.map env.RuneWidth).sum
      | _ => 0) + streamWidth env ts

/-- The number of line breaks in the text runs of a stream. -/
def lineBreaks (env : Env) : Tokens → Nat
  | [] => 0
  | t :: ts =>
    (match t.Kind with
      | .KindText => (t.Text.filter env.isLinefeed).length
      | _ => 0) + lineBreaks env ts

/-- The cursor of `i`, with the cell size `cw` by `ch`, is not left of or above
the origin and leaves room for runes of total display width `W` and for `L`
line breaks and one more row of cells: neither `x + W * cw` nor
`y + L * pitch + ch` overflows `int`. -/
def Room (cw ch W : Int) (L : Nat) (i : Image) : Prop :=
  i.charWidth = cw ∧ i.charHeight = ch ∧ 0 ≤ i.x ∧ 0 ≤ i.y ∧
    i.x + W * cw < 9223372036854775808 ∧
    i.y + (L : Int) * linePitch ch + ch < 9223372036854775808

/-- The statement that `moveRight(r)` adds `RuneWidth(r) * cellWidth` to `x`. -/
def MoveRightAdds (env : Env) (i : Image) (r : Char) : Prop :=
  (i.moveRight env r).x = i.x + env.RuneWidth r * i.charWidth

/-- Parameters of an empty grid with the font size 7000000000000000000: the
cells are 3500000000000000000 wide and 8400000000000000000 high, and the line
pitch is 6300000000000000000. -/
def hugeCellParam : ImageParam := demoParam 0 0 7000000000000000000

/-- The statement that `moveDown` puts `x` at 0, adds the floor of three
quarters of the cell height to `y`, adds 1 to the line count and changes
nothing else. -/
def MoveDownFloor (i : Image) : Prop :=
  i.moveDown =
    { i with x := 0, y := i.y + 3 * i.charHeight / 4, lineCount := i.lineCount + 1 }

/-- The statement that `drawBackground(s)` sets every in-canvas pixel of the
rectangle `[x, x + StringWidth(s) * cellWidth)` by `[y, y + cellHeight)` to the
current background color and leaves every other pixel as it was. -/
def PaintsRectangle (env : Env) (i : Image) (s : List Char) : Prop :=
  ∀ x y, (i.drawBackground env s).image.At x y =
    if (i.x ≤ x ∧ x < i.x + env.StringWidth s * i.charWidth) ∧
        (i.y ≤ y ∧ y < i.y + i.charHeight) ∧ Point.In ⟨x, y⟩ i.image.Bounds = true then
      i.backgroundColor
    else i.image.At x y

/-- Parameters with cells of `2 ^ 61 + 1` by 5534023222112865280 pixels (font
size `2 ^ 62 + 2`) and a grid whose products with the cell size wrap to a canvas
of 1 by 853 pixels. -/
def wideCellParam : ImageParam :=
  demoParam (-2305843009213693951) 9007199254740987 4611686018427387906

/-- The pixel `(x, y)` is out of reach of every rectangle painted from the
cursor of `i` on: the cursor is to its right on the row `y0`, or below it. -/
def Passed (cw ch x y y0 : Int) (i : Image) : Prop :=
  i.charWidth = cw ∧ i.charHeight = ch ∧ ((x < i.x ∧ i.y = y0) ∨ y < i.y)

/-- The statement that, once the background pass is over, every in-canvas pixel
of the cell of every rune that is not a line break holds the background color
that was current when the text run of the rune began.  The cell has its
top-left corner at the cursor `(j.x, j.y)` at which the foreground pass draws
the rune. -/
def GlyphCellsPainted (env : Env) (p : ImageParam) (tokens : Tokens) : Prop :=
  ∀ i, NewImage p = some i →
    ∀ (pre : Tokens) (t : Token) (post : Tokens) (s1 : List Char) (r : Char) (s2 : List Char)
      (j : Image),
      tokens = pre ++ t :: post → t.Kind = .KindText → t.Text = s1 ++ r :: s2 →
      env.isLinefeed r = false →
      foregroundPass env (pre ++ [{ t with Text := s1 }]) (afterBackground env tokens i) =
        (j, none) →
      ∀ x y, (j.x ≤ x ∧ x < j.x + env.RuneWidth r * j.charWidth) →
        (j.y ≤ y ∧ y < j.y + j.charHeight) →
        Point.In ⟨x, y⟩ (backgroundPass env tokens i.drawBackgroundAll).image.Bounds = true →
        (backgroundPass env tokens i.drawBackgroundAll).image.At x y =
          (backgroundPass env pre i.drawBackgroundAll).backgroundColor

/-- The stream set-foreground `c`, text "A", reset-foreground (with a payload
`d` that is not read), text "B". -/
def foregroundDemo (c d : Color) : Tokens :=
  [colorToken .ColorTypeForeground c, textToken [Char.ofNat 65],
    colorToken .ColorTypeResetForeground d, textToken [Char.ofNat 66]]

/-- An environment in which drawing a glyph puts one pixel of the source color
of the drawer on the row 0, in the column of the dot, and which is like
`demoEnv` otherwise. -/
def inkEnv : Env :=
  { demoEnv with
    DrawString := fun d _ x y =>
      if x = floor26_6 d.Dot.X ∧ y = 0 then d.Src else d.Dst.Pix x y }

/-- Parameters of a grid of 1 by `2 ^ 62` cells with font size 4 and animation
with one line per frame: the product of the grid height and the cell height, 4,
is `2 ^ 64`, which is 0 as an `int`. -/
def wrappedAnimParam : ImageParam :=
  { demoParam 1 4611686018427387904 4 with UseAnimation := true, AnimationLineCount := 1 }

/-- Parameters of a grid of 1 by -4 cells with font size 4 and animation with -2
lines per frame. -/
def negAnimParam : ImageParam :=
  { demoParam 1 (-4) 4 with UseAnimation := true, AnimationLineCount := -2 }

/-- The statement that, with animation on, `n = BaseHeight / AnimationLineCount`
at least 1 and the canvas that `NewImage` builds for `p` at least `n` pixels
high, a `Draw` of `tokens` that ends without error leaves at least `n` frames,
and exactly `n` when the height of the canvas is a multiple of `n`. -/
def FramesAtLeast (env : Env) (p : ImageParam) (tokens : Tokens) : Prop :=
  ∀ i n, NewImage p = some i → p.UseAnimation = true →
    goDiv p.BaseHeight p.AnimationLineCount = some n → 1 ≤ n → n ≤ i.image.Bounds.Dy →
    (i.Draw env tokens).2 = .ok →
    n ≤ ((i.Draw env tokens).1.animationImages.length : Int) ∧
    (i.image.Bounds.Dy % n = 0 →
      ((i.Draw env tokens).1.animationImages.length : Int) = n)

/-! ## Canvas lemmas -/

/-! ## The 64-bit `int` -/

theorem wrap64_of_fits (v : Int) (h : IsInt v) : wrap64 v = v := by
  unfold IsInt at h
  unfold wrap64
  omega

theorem wrap64_isInt (v : Int) : IsInt (wrap64 v) := by
  unfold IsInt wrap64
  omega

theorem wrap64_add_wrap64 (a b : Int) : wrap64 (a + wrap64 b) = wrap64 (a + b) := by
  unfold wrap64
  omega

theorem toInt_isInt (f : Float64) : IsInt f.toInt := by
  unfold Float64.toInt IsInt
  split
  · assumption
  · omega

theorem toInt_of_fits (f : Float64) (h : IsInt f.trunc) : f.toInt = f.trunc := by
  unfold Float64.toInt
  unfold IsInt at h
  rw [if_pos h]


/-! ## The rounding of `float64` -/

theorem roundToFloat64_neg (neg : Bool) (p q : Nat) : (roundToFloat64 neg p q).neg = neg := by
  unfold roundToFloat64
  split <;> rfl

theorem bitLenAux_ge_acc (f n acc : Nat) : acc ≤ bitLenAux f n acc := by
  induction f generalizing n acc with
  | zero => exact le_refl _
  | succ f ih =>
    unfold bitLenAux
    split
    · exact le_refl _
    · exact le_trans (Nat.le_succ acc) (ih _ _)

theorem bitLenAux_le (f n acc k : Nat) (hf : n ≤ f) (hk : n < 2 ^ k) :
    bitLenAux f n acc ≤ acc + k := by
  induction f generalizing n acc k with
  | zero =>
    unfold bitLenAux
    omega
  | succ f ih =>
    unfold bitLenAux
    split
    · omega
    · rename_i hn
      cases k with
      | zero =>
        simp only [Nat.pow_zero] at hk
        omega
      | succ k =>
        have h2 : n / 2 < 2 ^ k := by
          rw [Nat.pow_succ] at hk
          omega
        have := ih (n / 2) (acc + 1) k (by omega) h2
        omega

theorem bitLenAux_gt (f n acc k : Nat) (hf : n ≤ f) (hk : 2 ^ k ≤ n) :
    acc + k < bitLenAux f n acc := by
  induction f generalizing n acc k with
  | zero =>
    have := Nat.two_pow_pos k
    omega
  | succ f ih =>
    have hpos := Nat.two_pow_pos k
    unfold bitLenAux
    split
    · omega
    · cases k with
      | zero =>
        have := bitLenAux_ge_acc f (n / 2) (acc + 1)
        omega
      | succ k =>
        have h2 : 2 ^ k ≤ n / 2 := by
          rw [Nat.pow_succ] at hk
          omega
        have := ih (n / 2) (acc + 1) k (by omega) h2
        omega

theorem bitLen_le (n k : Nat) (hk : n < 2 ^ k) : bitLen n ≤ k := by
  have := bitLenAux_le n n 0 k (le_refl _) hk
  unfold bitLen
  omega

theorem bitLen_gt (n k : Nat) (hk : 2 ^ k ≤ n) : k < bitLen n := by
  have := bitLenAux_gt n n 0 k (le_refl _) hk
  unfold bitLen
  omega

/-- A positive number lies between the two powers of two that its number of
binary digits names. -/
theorem bitLen_bounds (n : Nat) (hn : 0 < n) :
    1 ≤ bitLen n ∧ 2 ^ (bitLen n - 1) ≤ n ∧ n < 2 ^ bitLen n := by
  have h1 : 0 < bitLen n := bitLen_gt n 0 (by simpa using hn)
  refine ⟨h1, ?_, ?_⟩
  · by_contra hlt
    have hlt2 : n < 2 ^ (bitLen n - 1) := by omega
    have := bitLen_le n (bitLen n - 1) hlt2
    omega
  · by_contra hge
    have hge2 : 2 ^ bitLen n ≤ n := by omega
    have := bitLen_gt n (bitLen n) hge2
    omega

theorem roundHalfEven_lower (P Q : Nat) (hQ : 0 < Q) :
    2 * P ≤ 2 * (roundHalfEven P Q * Q) + Q := by
  have h := Nat.div_add_mod P Q
  have hr := Nat.mod_lt P hQ
  have hc : Q * (P / Q) = P / Q * Q := Nat.mul_comm _ _
  have hs : (P / Q + 1) * Q = P / Q * Q + Q := Nat.succ_mul _ _
  unfold roundHalfEven
  dsimp only
  split
  · omega
  · split
    · omega
    · split
      · omega
      · omega

theorem roundHalfEven_exact (P Q : Nat) (hQ : 0 < Q) (hd : Q ∣ P) :
    roundHalfEven P Q = P / Q := by
  have hr : P % Q = 0 := Nat.mod_eq_zero_of_dvd hd
  unfold roundHalfEven
  dsimp only
  rw [hr]
  simp [hQ]

/-- The result of a rounding: the mantissa is the quotient of the scaled
operands, rounded half to even, and the scaling puts that quotient at or above
`2 ^ 52`. -/
theorem roundToFloat64_shape (neg : Bool) (p q : Nat) (hp : 0 < p) (hq : 0 < q) :
    ∃ u s : Nat,
      roundToFloat64 neg p q =
        ⟨neg, roundHalfEven (p * 2 ^ u) (q * 2 ^ s) * 2 ^ s, 2 ^ u⟩ ∧
      q * 2 ^ s * 2 ^ 52 ≤ p * 2 ^ u ∧
      (bitLen p < bitLen q + 53 → s = 0 ∧ bitLen q + 52 ≤ bitLen p + u) := by
  obtain ⟨hp1, hp2, hp3⟩ := bitLen_bounds p hp
  obtain ⟨hq1, hq2, hq3⟩ := bitLen_bounds q hq
  have hp0 : p ≠ 0 := by omega
  unfold roundToFloat64
  rw [if_neg hp0]
  dsimp only
  by_cases hcase : bitLen q + 53 ≤ bitLen p
  · -- the quotient is large: the denominator is scaled
    have hu0 : bitLen q + 53 - bitLen p = 0 := by omega
    rw [hu0]
    by_cases hbig : q * 2 ^ (bitLen p - (bitLen q + 53)) * 2 ^ 53 ≤ p * 2 ^ 0
    · refine ⟨0, bitLen p - (bitLen q + 53) + 1, ?_, ?_, fun h => by omega⟩
      · have hb := hbig
        simp only [Nat.pow_zero, Nat.mul_one, Nat.reducePow] at hb
        simp [hb]
      · have e : q * 2 ^ (bitLen p - (bitLen q + 53) + 1) * 2 ^ 52 =
            q * 2 ^ (bitLen p - (bitLen q + 53)) * 2 ^ 53 := by
          rw [Nat.pow_succ]
          ring
        rw [e]
        exact hbig
    · refine ⟨0, bitLen p - (bitLen q + 53), ?_, ?_, fun h => by omega⟩
      · have hb := hbig
        simp only [Nat.pow_zero, Nat.mul_one, Nat.reducePow] at hb
        simp [hb]
      · have e1 : q * 2 ^ (bitLen p - (bitLen q + 53)) * 2 ^ 52 ≤
            2 ^ bitLen q * 2 ^ (bitLen p - (bitLen q + 53)) * 2 ^ 52 :=
          Nat.mul_le_mul_right _ (Nat.mul_le_mul_right _ (le_of_lt hq3))
        have e2 : 2 ^ bitLen q * 2 ^ (bitLen p - (bitLen q + 53)) * 2 ^ 52 =
            2 ^ (bitLen p - 1) := by
          rw [← Nat.pow_add, ← Nat.pow_add]
          congr 1
          omega
        rw [e2] at e1
        simp only [Nat.pow_zero, Nat.mul_one]
        exact le_trans e1 hp2
  · -- the quotient is small: the numerator is scaled
    have hs0 : bitLen p - (bitLen q + 53) = 0 := by omega
    have hune : bitLen q + 53 - bitLen p ≠ 0 := by omega
    rw [hs0]
    by_cases hbig : q * 2 ^ 0 * 2 ^ 53 ≤ p * 2 ^ (bitLen q + 53 - bitLen p)
    · refine ⟨bitLen q + 53 - bitLen p - 1, 0, ?_, ?_, fun h => ⟨rfl, by omega⟩⟩
      · have hb := hbig
        simp only [Nat.pow_zero, Nat.mul_one, Nat.reducePow] at hb
        simp [hb, hune]
      · have e : p * 2 ^ (bitLen q + 53 - bitLen p) =
            p * 2 ^ (bitLen q + 53 - bitLen p - 1) * 2 := by
          have : bitLen q + 53 - bitLen p = bitLen q + 53 - bitLen p - 1 + 1 := by omega
          conv => lhs; rw [this, Nat.pow_succ]
          ring
        rw [e] at hbig
        simp only [Nat.pow_zero, Nat.mul_one] at hbig ⊢
        omega
    · refine ⟨bitLen q + 53 - bitLen p, 0, ?_, ?_, fun h => ⟨rfl, by omega⟩⟩
      · have hb := hbig
        simp only [Nat.pow_zero, Nat.mul_one, Nat.reducePow] at hb
        simp [hb]
      · have e1 : q * 2 ^ 52 ≤ 2 ^ bitLen q * 2 ^ 52 := Nat.mul_le_mul_right _ (le_of_lt hq3)
        have e2 : 2 ^ (bitLen p - 1) * 2 ^ (bitLen q + 53 - bitLen p) ≤
            p * 2 ^ (bitLen q + 53 - bitLen p) := Nat.mul_le_mul_right _ hp2
        have e3 : 2 ^ (bitLen p - 1) * 2 ^ (bitLen q + 53 - bitLen p) =
            2 ^ bitLen q * 2 ^ 52 := by
          rw [← Nat.pow_add, ← Nat.pow_add]
          congr 1
          omega
        rw [e3] at e2
        simp only [Nat.pow_zero, Nat.mul_one]
        exact le_trans e1 e2

/-- Rounding loses at most one part in `2 ^ 53`, from below. -/
theorem roundToFloat64_lower (neg : Bool) (p q : Nat) (hp : 0 < p) (hq : 0 < q) :
    0 < (roundToFloat64 neg p q).den ∧
    p * (roundToFloat64 neg p q).den * 9007199254740991 ≤
      (roundToFloat64 neg p q).num * q * 9007199254740992 := by
  obtain ⟨u, s, hr, hscale, _⟩ := roundToFloat64_shape neg p q hp hq
  rw [hr]
  dsimp only
  have hQ : 0 < q * 2 ^ s := Nat.mul_pos hq (Nat.two_pow_pos s)
  have hl := roundHalfEven_lower (p * 2 ^ u) (q * 2 ^ s) hQ
  refine ⟨Nat.two_pow_pos u, ?_⟩
  have e : roundHalfEven (p * 2 ^ u) (q * 2 ^ s) * 2 ^ s * q =
      roundHalfEven (p * 2 ^ u) (q * 2 ^ s) * (q * 2 ^ s) := by ring
  rw [e]
  have h52 : (2 : Nat) ^ 52 = 4503599627370496 := by norm_num
  rw [h52] at hscale
  generalize roundHalfEven (p * 2 ^ u) (q * 2 ^ s) * (q * 2 ^ s) = X at hl ⊢
  generalize p * 2 ^ u = P at hl hscale ⊢
  generalize q * 2 ^ s = Q at hl hscale
  omega

theorem natAbs_cast_rat (n : Int) (hn : 0 ≤ n) : ((n.natAbs : ℕ) : ℚ) = (n : ℚ) := by
  rw [Nat.cast_natAbs, abs_of_nonneg hn]

theorem roundToFloat64_val_lower (neg : Bool) (p q : Nat) (hp : 0 < p) (hq : 0 < q) :
    ((p : ℚ) / (q : ℚ)) * (9007199254740991 / 9007199254740992) ≤
      (roundToFloat64 neg p q).val := by
  obtain ⟨hden, h⟩ := roundToFloat64_lower neg p q hp hq
  unfold Float64.val
  have hq2 : (0 : ℚ) < (q : ℚ) := by exact_mod_cast hq
  have hd2 : (0 : ℚ) < ((roundToFloat64 neg p q).den : ℚ) := by exact_mod_cast hden
  rw [div_mul_div_comm, div_le_div_iff₀ (by positivity) hd2]
  have h2 : ((p * (roundToFloat64 neg p q).den * 9007199254740991 : ℕ) : ℚ) ≤
      (((roundToFloat64 neg p q).num * q * 9007199254740992 : ℕ) : ℚ) := by
    exact_mod_cast h
  push_cast at h2
  linarith

theorem trunc_ge (f : Float64) (hneg : f.neg = false) (hden : 0 < f.den) (k : Nat)
    (hk : (k : ℚ) ≤ f.val) : (k : Int) ≤ f.trunc := by
  unfold Float64.trunc
  rw [hneg]
  simp only [Bool.false_eq_true, if_false]
  have hd2 : (0 : ℚ) < (f.den : ℚ) := by exact_mod_cast hden
  unfold Float64.val at hk
  rw [le_div_iff₀ hd2] at hk
  have h2 : k * f.den ≤ f.num := by exact_mod_cast hk
  have h3 : k ≤ f.num / f.den := (Nat.le_div_iff_mul_le hden).2 h2
  exact_mod_cast h3

theorem f64_1_2_eq : f64_1_2 = ⟨false, 5404319552844595, 4503599627370496⟩ := by
  decide

theorem f64_0_75_eq : f64_0_75 = ⟨false, 6755399441055744, 9007199254740992⟩ := by
  decide

theorem ofInt_lower (n : Int) (hn : 0 < n) :
    (Float64.ofInt n).neg = false ∧ 0 < (Float64.ofInt n).den ∧
      (n : ℚ) * (9007199254740991 / 9007199254740992) ≤ (Float64.ofInt n).val := by
  have hpos : 0 < n.natAbs := Int.natAbs_pos.2 (by omega)
  have hcast : ((n.natAbs : ℕ) : ℚ) = (n : ℚ) := natAbs_cast_rat n (by omega)
  unfold Float64.ofInt
  refine ⟨?_, (roundToFloat64_lower _ _ 1 hpos (by decide)).1, ?_⟩
  · rw [roundToFloat64_neg]
    simp
    omega
  · have h := roundToFloat64_val_lower (decide (n < 0)) n.natAbs 1 hpos (by decide)
    rw [hcast] at h
    simpa using h

/-- From a lower bound on the value to a positive numerator. -/
theorem num_pos_of_val (f : Float64) (h : 0 < f.val) : 0 < f.num := by
  unfold Float64.val at h
  by_contra h0
  have : f.num = 0 := by omega
  rw [this] at h
  simp at h

/-- The cell height is at least the font size. -/
theorem charHeight_ge (F : Int) (hF : 0 < F) :
    F ≤ ((Float64.ofInt F).mul f64_1_2).trunc := by
  obtain ⟨an, ad, av⟩ := ofInt_lower F hF
  have hFq : (0 : ℚ) < (F : ℚ) := by exact_mod_cast hF
  have hnum : 0 < (Float64.ofInt F).num := num_pos_of_val _ (by
    have : (0 : ℚ) < (F : ℚ) * (9007199254740991 / 9007199254740992) := by positivity
    linarith)
  have hmul : (Float64.ofInt F).mul f64_1_2 =
      roundToFloat64 false ((Float64.ofInt F).num * 5404319552844595)
        ((Float64.ofInt F).den * 4503599627370496) := by
    unfold Float64.mul
    rw [f64_1_2_eq, an]
    rfl
  have hp : 0 < (Float64.ofInt F).num * 5404319552844595 := Nat.mul_pos hnum (by decide)
  have hq : 0 < (Float64.ofInt F).den * 4503599627370496 := Nat.mul_pos ad (by decide)
  have hv := roundToFloat64_val_lower false _ _ hp hq
  obtain ⟨hden, _⟩ := roundToFloat64_lower false _ _ hp hq
  have hadq : (0 : ℚ) < ((Float64.ofInt F).den : ℚ) := by exact_mod_cast ad
  have hval : (F : ℚ) ≤ (roundToFloat64 false ((Float64.ofInt F).num * 5404319552844595)
      ((Float64.ofInt F).den * 4503599627370496)).val := by
    refine le_trans ?_ hv
    unfold Float64.val at av
    push_cast
    have e : ((Float64.ofInt F).num : ℚ) * 5404319552844595 /
        (((Float64.ofInt F).den : ℚ) * 4503599627370496) =
        ((Float64.ofInt F).num : ℚ) / ((Float64.ofInt F).den : ℚ) *
          (5404319552844595 / 4503599627370496) := by
      field_simp
    rw [e]
    have h1 : (F : ℚ) * (9007199254740991 / 9007199254740992) *
        (5404319552844595 / 4503599627370496) * (9007199254740991 / 9007199254740992) ≤
        ((Float64.ofInt F).num : ℚ) / ((Float64.ofInt F).den : ℚ) *
          (5404319552844595 / 4503599627370496) * (9007199254740991 / 9007199254740992) := by
      gcongr
    have h2 : (F : ℚ) ≤ (F : ℚ) * (9007199254740991 / 9007199254740992) *
        (5404319552844595 / 4503599627370496) * (9007199254740991 / 9007199254740992) := by
      have : (1 : ℚ) ≤ 9007199254740991 / 9007199254740992 *
          (5404319552844595 / 4503599627370496) * (9007199254740991 / 9007199254740992) := by
        norm_num
      nlinarith
    linarith
  rw [hmul]
  have hcast : ((F.natAbs : ℕ) : ℚ) = (F : ℚ) := natAbs_cast_rat F (by omega)
  have hk := trunc_ge _ (roundToFloat64_neg _ _ _) hden F.natAbs (by rw [hcast]; exact hval)
  have : ((F.natAbs : ℕ) : ℤ) = F := Int.natAbs_of_nonneg (by omega)
  omega

/-- The canvas height is at least the number of rows of the grid, for a cell
height of 2 or more. -/
theorem imageHeight_ge (BH ch : Int) (hBH : 0 < BH) (hch : 2 ≤ ch) :
    BH ≤ ((Float64.ofInt (BH * ch)).div f64_1_2).trunc := by
  have hM : 0 < BH * ch := Int.mul_pos hBH (by omega)
  obtain ⟨an, ad, av⟩ := ofInt_lower (BH * ch) hM
  have hMq : (2 : ℚ) * (BH : ℚ) ≤ ((BH * ch : ℤ) : ℚ) := by
    have h1 : (2 : ℤ) * BH ≤ BH * ch := by nlinarith
    exact_mod_cast h1
  have hBq : (0 : ℚ) < (BH : ℚ) := by exact_mod_cast hBH
  have hnum : 0 < (Float64.ofInt (BH * ch)).num := num_pos_of_val _ (by
    have : (0 : ℚ) < ((BH * ch : ℤ) : ℚ) * (9007199254740991 / 9007199254740992) := by
      have : (0 : ℚ) < ((BH * ch : ℤ) : ℚ) := by linarith
      positivity
    linarith)
  have hdiv : (Float64.ofInt (BH * ch)).div f64_1_2 =
      roundToFloat64 false ((Float64.ofInt (BH * ch)).num * 4503599627370496)
        ((Float64.ofInt (BH * ch)).den * 5404319552844595) := by
    unfold Float64.div
    rw [f64_1_2_eq, an]
    rfl
  have hp : 0 < (Float64.ofInt (BH * ch)).num * 4503599627370496 :=
    Nat.mul_pos hnum (by decide)
  have hq : 0 < (Float64.ofInt (BH * ch)).den * 5404319552844595 := Nat.mul_pos ad (by decide)
  have hv := roundToFloat64_val_lower false _ _ hp hq
  obtain ⟨hden, _⟩ := roundToFloat64_lower false _ _ hp hq
  have hadq : (0 : ℚ) < ((Float64.ofInt (BH * ch)).den : ℚ) := by exact_mod_cast ad
  have hval : (BH : ℚ) ≤ (roundToFloat64 false
      ((Float64.ofInt (BH * ch)).num * 4503599627370496)
      ((Float64.ofInt (BH * ch)).den * 5404319552844595)).val := by
    refine le_trans ?_ hv
    unfold Float64.val at av
    push_cast
    have e : ((Float64.ofInt (BH * ch)).num : ℚ) * 4503599627370496 /
        (((Float64.ofInt (BH * ch)).den : ℚ) * 5404319552844595) =
        ((Float64.ofInt (BH * ch)).num : ℚ) / ((Float64.ofInt (BH * ch)).den : ℚ) *
          (4503599627370496 / 5404319552844595) := by
      field_simp
    rw [e]
    have h1 : ((BH * ch : ℤ) : ℚ) * (9007199254740991 / 9007199254740992) *
        (4503599627370496 / 5404319552844595) * (9007199254740991 / 9007199254740992) ≤
        ((Float64.ofInt (BH * ch)).num : ℚ) / ((Float64.ofInt (BH * ch)).den : ℚ) *
          (4503599627370496 / 5404319552844595) * (9007199254740991 / 9007199254740992) := by
      gcongr
    have h2 : (2 : ℚ) * (BH : ℚ) * (9007199254740991 / 9007199254740992) *
        (4503599627370496 / 5404319552844595) * (9007199254740991 / 9007199254740992) ≤
        ((BH * ch : ℤ) : ℚ) * (9007199254740991 / 9007199254740992) *
        (4503599627370496 / 5404319552844595) * (9007199254740991 / 9007199254740992) := by
      gcongr
    have h3 : (BH : ℚ) ≤ (2 : ℚ) * (BH : ℚ) * (9007199254740991 / 9007199254740992) *
        (4503599627370496 / 5404319552844595) * (9007199254740991 / 9007199254740992) := by
      have : (1 : ℚ) ≤ 2 * (9007199254740991 / 9007199254740992) *
          (4503599627370496 / 5404319552844595) * (9007199254740991 / 9007199254740992) := by
        norm_num
      nlinarith
    linarith
  rw [hdiv]
  have hcast : ((BH.natAbs : ℕ) : ℚ) = (BH : ℚ) := natAbs_cast_rat BH (by omega)
  have hk := trunc_ge _ (roundToFloat64_neg _ _ _) hden BH.natAbs (by rw [hcast]; exact hval)
  have : ((BH.natAbs : ℕ) : ℤ) = BH := Int.natAbs_of_nonneg (by omega)
  omega

/-! ## Exact products by 0.75 -/

theorem bitLen_one : bitLen 1 = 1 := by decide

theorem ofInt_exact (n : Nat) (hn : 0 < n) (hlt : n < 2 ^ 53) :
    ∃ u : Nat, Float64.ofInt (n : Int) = ⟨false, n * 2 ^ u, 2 ^ u⟩ := by
  have hL := bitLen_le n 53 hlt
  obtain ⟨u, s, hr, _, hs⟩ := roundToFloat64_shape (decide ((n : Int) < 0)) n 1 hn (by decide)
  obtain ⟨hs0, _⟩ := hs (by rw [bitLen_one]; omega)
  subst hs0
  refine ⟨u, ?_⟩
  unfold Float64.ofInt
  rw [Int.natAbs_ofNat, hr]
  have hneg : decide ((n : Int) < 0) = false := by
    simp
  rw [hneg]
  have hex := roundHalfEven_exact (n * 2 ^ u) (1 * 2 ^ 0) (by decide) (by simp)
  rw [hex]
  simp

theorem mul_0_75_exact (n u : Nat) (hn : 0 < n) (hlt : n < 2 ^ 51) :
    (f64_0_75.mul ⟨false, n * 2 ^ u, 2 ^ u⟩).trunc = ((3 * n / 4 : Nat) : Int) := by
  have hp : 0 < 6755399441055744 * (n * 2 ^ u) :=
    Nat.mul_pos (by decide) (Nat.mul_pos hn (Nat.two_pow_pos u))
  have hq : 0 < 9007199254740992 * 2 ^ u := Nat.mul_pos (by decide) (Nat.two_pow_pos u)
  have hmul : f64_0_75.mul ⟨false, n * 2 ^ u, 2 ^ u⟩ =
      roundToFloat64 false (6755399441055744 * (n * 2 ^ u)) (9007199254740992 * 2 ^ u) := by
    unfold Float64.mul
    rw [f64_0_75_eq]
    rfl
  have hqpow : 9007199254740992 * 2 ^ u = 2 ^ (53 + u) := by
    rw [Nat.pow_add]
  have hLq : 53 + u < bitLen (9007199254740992 * 2 ^ u) :=
    bitLen_gt _ _ (by rw [hqpow])
  have hLp : bitLen (6755399441055744 * (n * 2 ^ u)) ≤ 104 + u := by
    apply bitLen_le
    have h1 : 6755399441055744 * n < 2 ^ 104 := by
      have e51 : (2 : Nat) ^ 51 = 2251799813685248 := by norm_num
      have e104 : (2 : Nat) ^ 104 = 20282409603651670423947251286016 := by norm_num
      rw [e51] at hlt
      rw [e104]
      omega
    have h3 : 6755399441055744 * (n * 2 ^ u) = 6755399441055744 * n * 2 ^ u := by ring
    rw [h3, Nat.pow_add]
    exact (Nat.mul_lt_mul_right (Nat.two_pow_pos u)).2 h1
  obtain ⟨w, s, hr, _, hs⟩ := roundToFloat64_shape false _ _ hp hq
  obtain ⟨hs0, hw⟩ := hs (by omega)
  subst hs0
  obtain ⟨v, rfl⟩ : ∃ v, w = v + 2 := ⟨w - 2, by omega⟩
  have hfac : 6755399441055744 * (n * 2 ^ u) * 2 ^ (v + 2) =
      3 * n * 2 ^ v * (9007199254740992 * 2 ^ u * 2 ^ 0) := by
    rw [Nat.pow_add]
    ring
  have hex := roundHalfEven_exact (6755399441055744 * (n * 2 ^ u) * 2 ^ (v + 2))
    (9007199254740992 * 2 ^ u * 2 ^ 0) (by simp) (by rw [hfac]; exact Dvd.intro_left _ rfl)
  rw [hmul, hr, hex, hfac, Nat.mul_div_cancel _ (by simp)]
  unfold Float64.trunc
  simp only [Bool.false_eq_true, if_false, Nat.pow_zero, Nat.mul_one]
  have hden : 2 ^ (v + 2) = 4 * 2 ^ v := by
    rw [Nat.pow_add]
    ring
  rw [hden, Nat.mul_div_mul_right _ _ (Nat.two_pow_pos v)]

theorem pitch_exact (ch : Int) (h0 : 0 ≤ ch) (hlt : ch < 2251799813685248) :
    (f64_0_75.mul (Float64.ofInt ch)).trunc = 3 * ch / 4 := by
  by_cases hz : ch = 0
  · subst hz
    decide
  · obtain ⟨n, rfl⟩ : ∃ n : Nat, ch = (n : Int) := ⟨ch.natAbs, (Int.natAbs_of_nonneg h0).symm⟩
    have hn : 0 < n := by omega
    have hn51 : n < 2 ^ 51 := by
      have : (2 : Nat) ^ 51 = 2251799813685248 := by norm_num
      omega
    have hn53 : n < 2 ^ 53 := lt_trans hn51 (by norm_num)
    obtain ⟨u, hu⟩ := ofInt_exact n hn hn53
    rw [hu, mul_0_75_exact n u hn hn51]
    push_cast
    rfl

/-! ## Upper bounds of the roundings -/

theorem roundHalfEven_upper (P Q : Nat) (hQ : 0 < Q) :
    2 * (roundHalfEven P Q * Q) ≤ 2 * P + Q := by
  have h := Nat.div_add_mod P Q
  have hr := Nat.mod_lt P hQ
  have hc : Q * (P / Q) = P / Q * Q := Nat.mul_comm _ _
  have hs : (P / Q + 1) * Q = P / Q * Q + Q := Nat.succ_mul _ _
  unfold roundHalfEven
  dsimp only
  split
  · omega
  · split
    · omega
    · split
      · omega
      · omega

/-- Rounding adds at most one part in `2 ^ 53`. -/
theorem roundToFloat64_upper (neg : Bool) (p q : Nat) (hp : 0 < p) (hq : 0 < q) :
    (roundToFloat64 neg p q).num * q * 9007199254740992 ≤
      p * (roundToFloat64 neg p q).den * 9007199254740993 := by
  obtain ⟨u, s, hr, hscale, _⟩ := roundToFloat64_shape neg p q hp hq
  rw [hr]
  dsimp only
  have hQ : 0 < q * 2 ^ s := Nat.mul_pos hq (Nat.two_pow_pos s)
  have hl := roundHalfEven_upper (p * 2 ^ u) (q * 2 ^ s) hQ
  have e : roundHalfEven (p * 2 ^ u) (q * 2 ^ s) * 2 ^ s * q =
      roundHalfEven (p * 2 ^ u) (q * 2 ^ s) * (q * 2 ^ s) := by ring
  rw [e]
  have h52 : (2 : Nat) ^ 52 = 4503599627370496 := by norm_num
  rw [h52] at hscale
  generalize roundHalfEven (p * 2 ^ u) (q * 2 ^ s) * (q * 2 ^ s) = X at hl ⊢
  generalize p * 2 ^ u = P at hl hscale ⊢
  generalize q * 2 ^ s = Q at hl hscale
  omega

theorem roundToFloat64_val_upper (neg : Bool) (p q : Nat) (hp : 0 < p) (hq : 0 < q) :
    (roundToFloat64 neg p q).val ≤
      ((p : ℚ) / (q : ℚ)) * (9007199254740993 / 9007199254740992) := by
  obtain ⟨hden, _⟩ := roundToFloat64_lower neg p q hp hq
  have h := roundToFloat64_upper neg p q hp hq
  unfold Float64.val
  have hq2 : (0 : ℚ) < (q : ℚ) := by exact_mod_cast hq
  have hd2 : (0 : ℚ) < ((roundToFloat64 neg p q).den : ℚ) := by exact_mod_cast hden
  rw [div_mul_div_comm, div_le_div_iff₀ hd2 (by positivity)]
  have h2 : (((roundToFloat64 neg p q).num * q * 9007199254740992 : ℕ) : ℚ) ≤
      ((p * (roundToFloat64 neg p q).den * 9007199254740993 : ℕ) : ℚ) := by
    exact_mod_cast h
  push_cast at h2
  linarith

theorem trunc_le (f : Float64) (hneg : f.neg = false) (hden : 0 < f.den) (k : Nat)
    (hk : f.val ≤ (k : ℚ)) : f.trunc ≤ (k : Int) := by
  unfold Float64.trunc
  rw [hneg]
  simp only [Bool.false_eq_true, if_false]
  have hd2 : (0 : ℚ) < (f.den : ℚ) := by exact_mod_cast hden
  unfold Float64.val at hk
  rw [div_le_iff₀ hd2] at hk
  have h2 : f.num ≤ k * f.den := by exact_mod_cast hk
  have h3 : f.num / f.den ≤ k := Nat.div_le_of_le_mul (by rw [Nat.mul_comm]; exact h2)
  exact_mod_cast h3

theorem trunc_nonneg (f : Float64) (hneg : f.neg = false) : 0 ≤ f.trunc := by
  unfold Float64.trunc
  rw [hneg]
  simp only [Bool.false_eq_true, if_false]
  exact Int.ofNat_nonneg _

theorem ofInt_upper (n : Int) (hn : 0 < n) :
    (Float64.ofInt n).val ≤ (n : ℚ) * (9007199254740993 / 9007199254740992) := by
  have hpos : 0 < n.natAbs := Int.natAbs_pos.2 (by omega)
  have hcast : ((n.natAbs : ℕ) : ℚ) = (n : ℚ) := natAbs_cast_rat n (by omega)
  unfold Float64.ofInt
  have h := roundToFloat64_val_upper (decide (n < 0)) n.natAbs 1 hpos (by decide)
  rw [hcast] at h
  simpa using h

/-- The product or quotient of `float64(n)`, for `n > 0`, with a constant
`a / b`: the integer part lies between `lo` and `hi` whenever the constant,
with the error of the two roundings, keeps `n` between them. -/
theorem scaled_bounds (n : Int) (hn : 0 < n) (a b : Nat) (ha : 0 < a) (hb : 0 < b)
    (lo hi : Nat)
    (hlo : (lo : ℚ) ≤ (n : ℚ) * (9007199254740991 / 9007199254740992) * ((a : ℚ) / (b : ℚ)) *
      (9007199254740991 / 9007199254740992))
    (hhi : (n : ℚ) * (9007199254740993 / 9007199254740992) * ((a : ℚ) / (b : ℚ)) *
      (9007199254740993 / 9007199254740992) ≤ (hi : ℚ)) :
    (lo : Int) ≤ (roundToFloat64 false ((Float64.ofInt n).num * a)
      ((Float64.ofInt n).den * b)).trunc ∧
    (roundToFloat64 false ((Float64.ofInt n).num * a)
      ((Float64.ofInt n).den * b)).trunc ≤ (hi : Int) := by
  obtain ⟨an, ad, av⟩ := ofInt_lower n hn
  have au := ofInt_upper n hn
  have hnq : (0 : ℚ) < (n : ℚ) := by exact_mod_cast hn
  have hnum : 0 < (Float64.ofInt n).num := num_pos_of_val _ (by
    have : (0 : ℚ) < (n : ℚ) * (9007199254740991 / 9007199254740992) := by positivity
    linarith)
  have hp : 0 < (Float64.ofInt n).num * a := Nat.mul_pos hnum ha
  have hq : 0 < (Float64.ofInt n).den * b := Nat.mul_pos ad hb
  have hv := roundToFloat64_val_lower false _ _ hp hq
  have hw := roundToFloat64_val_upper false _ _ hp hq
  obtain ⟨hden, _⟩ := roundToFloat64_lower false _ _ hp hq
  have hadq : (0 : ℚ) < ((Float64.ofInt n).den : ℚ) := by exact_mod_cast ad
  have haq : (0 : ℚ) < (a : ℚ) := by exact_mod_cast ha
  have hbq : (0 : ℚ) < (b : ℚ) := by exact_mod_cast hb
  have e : (((Float64.ofInt n).num * a : ℕ) : ℚ) / (((Float64.ofInt n).den * b : ℕ) : ℚ) =
      (Float64.ofInt n).val * ((a : ℚ) / (b : ℚ)) := by
    unfold Float64.val
    push_cast
    field_simp
  rw [e] at hv hw
  have hab : (0 : ℚ) < (a : ℚ) / (b : ℚ) := by positivity
  constructor
  · apply trunc_ge _ (roundToFloat64_neg _ _ _) hden lo
    refine le_trans hlo (le_trans ?_ hv)
    gcongr
  · apply trunc_le _ (roundToFloat64_neg _ _ _) hden hi
    refine le_trans hw (le_trans ?_ hhi)
    gcongr

theorem f64_0_9_eq : f64_0_9 = ⟨false, 8106479329266893, 9007199254740992⟩ := by
  decide

/-! ## The sizes that `NewImage` and `moveDown` compute -/

theorem mul_1_2_eq (F : Int) (hF : 0 < F) :
    (Float64.ofInt F).mul f64_1_2 =
      roundToFloat64 false ((Float64.ofInt F).num * 5404319552844595)
        ((Float64.ofInt F).den * 4503599627370496) := by
  obtain ⟨an, _, _⟩ := ofInt_lower F hF
  unfold Float64.mul
  rw [f64_1_2_eq, an]
  rfl

theorem div_1_2_eq (n : Int) (hn : 0 < n) :
    (Float64.ofInt n).div f64_1_2 =
      roundToFloat64 false ((Float64.ofInt n).num * 4503599627370496)
        ((Float64.ofInt n).den * 5404319552844595) := by
  obtain ⟨an, _, _⟩ := ofInt_lower n hn
  unfold Float64.div
  rw [f64_1_2_eq, an]
  rfl

theorem mul_0_75_eq (n : Int) (hn : 0 < n) :
    f64_0_75.mul (Float64.ofInt n) =
      roundToFloat64 false ((Float64.ofInt n).num * 6755399441055744)
        ((Float64.ofInt n).den * 9007199254740992) := by
  obtain ⟨an, _, _⟩ := ofInt_lower n hn
  unfold Float64.mul
  rw [f64_0_75_eq, an]
  simp only [Bool.xor_false, Nat.mul_comm]

/-- The cell height of a font size from 1 to `2 ^ 62 - 1` lies between the font
size and its double. -/
theorem cellHeight_bounds (F : Int) (hF : 0 < F) (hlt : F < 4611686018427387904) :
    F ≤ ((Float64.ofInt F).mul f64_1_2).toInt ∧
      ((Float64.ofInt F).mul f64_1_2).toInt ≤ 2 * F := by
  obtain ⟨n, rfl⟩ : ∃ n : Nat, F = (n : Int) := ⟨F.natAbs, (Int.natAbs_of_nonneg (by omega)).symm⟩
  have hnq : (0 : ℚ) < ((n : Int) : ℚ) := by exact_mod_cast hF
  have h := scaled_bounds (n : Int) hF 5404319552844595 4503599627370496 (by decide) (by decide)
    n (2 * n)
    (by
      have : (1 : ℚ) ≤ 9007199254740991 / 9007199254740992 *
          (((5404319552844595 : ℕ) : ℚ) / ((4503599627370496 : ℕ) : ℚ)) *
          (9007199254740991 / 9007199254740992) := by norm_num
      push_cast at this ⊢
      nlinarith)
    (by
      have : (9007199254740993 / 9007199254740992 : ℚ) *
          (((5404319552844595 : ℕ) : ℚ) / ((4503599627370496 : ℕ) : ℚ)) *
          (9007199254740993 / 9007199254740992) ≤ 2 := by norm_num
      push_cast at this ⊢
      nlinarith)
  rw [← mul_1_2_eq (n : Int) hF] at h
  have hfit : IsInt ((Float64.ofInt (n : Int)).mul f64_1_2).trunc := by
    unfold IsInt
    obtain ⟨h1, h2⟩ := h
    push_cast at h2
    omega
  rw [toInt_of_fits _ hfit]
  obtain ⟨h1, h2⟩ := h
  push_cast at h2
  exact ⟨h1, h2⟩

/-- The canvas height for a positive `int` product `n` of grid height and cell
height is at most `n`, and at least half of `n` rounded down. -/
theorem imageHeight_bounds (n : Int) (hn : 0 < n) (hlt : n < 9223372036854775808) :
    n / 2 ≤ ((Float64.ofInt n).div f64_1_2).toInt ∧
      ((Float64.ofInt n).div f64_1_2).toInt ≤ n := by
  obtain ⟨m, rfl⟩ : ∃ m : Nat, n = (m : Int) := ⟨n.natAbs, (Int.natAbs_of_nonneg (by omega)).symm⟩
  have hnq : (0 : ℚ) < (m : ℚ) := by exact_mod_cast hn
  have hhalf : ((m / 2 : ℕ) : ℚ) ≤ (m : ℚ) / 2 := by
    have : (m / 2) * 2 ≤ m := Nat.div_mul_le_self m 2
    have h2 : (((m / 2) * 2 : ℕ) : ℚ) ≤ (m : ℚ) := by exact_mod_cast this
    push_cast at h2 ⊢
    linarith
  have h := scaled_bounds (m : Int) hn 4503599627370496 5404319552844595 (by decide) (by decide)
    (m / 2) m
    (by
      have : (1 / 2 : ℚ) ≤ 9007199254740991 / 9007199254740992 *
          (((4503599627370496 : ℕ) : ℚ) / ((5404319552844595 : ℕ) : ℚ)) *
          (9007199254740991 / 9007199254740992) := by norm_num
      push_cast at this ⊢
      have h3 := mul_le_mul_of_nonneg_left this hnq.le
      linarith)
    (by
      have : (9007199254740993 / 9007199254740992 : ℚ) *
          (((4503599627370496 : ℕ) : ℚ) / ((5404319552844595 : ℕ) : ℚ)) *
          (9007199254740993 / 9007199254740992) ≤ 1 := by norm_num
      push_cast at this ⊢
      have h3 := mul_le_mul_of_nonneg_left this hnq.le
      linarith)
  rw [← div_1_2_eq (m : Int) hn] at h
  obtain ⟨h1, h2⟩ := h
  have hfit : IsInt ((Float64.ofInt (m : Int)).div f64_1_2).trunc := by
    unfold IsInt
    omega
  rw [toInt_of_fits _ hfit]
  refine ⟨?_, h2⟩
  have : ((m / 2 : ℕ) : Int) = (m : Int) / 2 := by push_cast; rfl
  omega

/-- The line pitch of a cell height that is a non-negative `int` is not
negative and at most the cell height. -/
theorem linePitch_bounds (ch : Int) (h0 : 0 ≤ ch) (hlt : ch < 9223372036854775808) :
    0 ≤ linePitch ch ∧ linePitch ch ≤ ch := by
  unfold linePitch
  by_cases hz : ch = 0
  · subst hz
    decide
  · have hpos : 0 < ch := by omega
    obtain ⟨n, rfl⟩ : ∃ n : Nat, ch = (n : Int) :=
      ⟨ch.natAbs, (Int.natAbs_of_nonneg h0).symm⟩
    have hnq : (0 : ℚ) < ((n : Int) : ℚ) := by exact_mod_cast hpos
    have h := scaled_bounds (n : Int) hpos 6755399441055744 9007199254740992 (by decide)
      (by decide) 0 n
      (by
        push_cast
        positivity)
      (by
        have : (9007199254740993 / 9007199254740992 : ℚ) *
            (((6755399441055744 : ℕ) : ℚ) / ((9007199254740992 : ℕ) : ℚ)) *
            (9007199254740993 / 9007199254740992) ≤ 1 := by norm_num
        push_cast at this ⊢
        nlinarith)
    rw [← mul_0_75_eq (n : Int) hpos] at h
    obtain ⟨h1, h2⟩ := h
    have hfit : IsInt (f64_0_75.mul (Float64.ofInt (n : Int))).trunc := by
      unfold IsInt
      push_cast at h1
      omega
    rw [toInt_of_fits _ hfit]
    push_cast at h1
    exact ⟨h1, h2⟩

/-- Below `2 ^ 51` the line pitch is three quarters of the cell height, rounded
down. -/
theorem linePitch_exact (ch : Int) (h0 : 0 ≤ ch) (hlt : ch < 2251799813685248) :
    linePitch ch = 3 * ch / 4 := by
  have h := pitch_exact ch h0 hlt
  unfold linePitch
  rw [toInt_of_fits, h]
  rw [h]
  unfold IsInt
  omega

theorem mem_intRange (lo hi v : Int) : v ∈ intRange lo hi ↔ lo ≤ v ∧ v < hi := by
  unfold intRange
  simp only [List.mem_map, List.mem_range]
  constructor
  · rintro ⟨k, hk, rfl⟩
    omega
  · rintro ⟨h1, h2⟩
    exact ⟨(v - lo).toNat, by omega, by omega⟩

theorem Set_Rect (m : Canvas) (x y : Int) (c : Color) : (m.Set x y c).Rect = m.Rect := by
  unfold Canvas.Set
  split <;> rfl

theorem Set_Pix (m : Canvas) (x y : Int) (c : Color) (a b : Int) :
    (m.Set x y c).Pix a b =
      if a = x ∧ b = y ∧ Point.In ⟨x, y⟩ m.Rect = true then c else m.Pix a b := by
  unfold Canvas.Set
  by_cases h : Point.In ⟨x, y⟩ m.Rect = true
  · by_cases h1 : a = x ∧ b = y
    · simp [h, h1]
    · simp [h, h1]
  · simp [h]

/-- The inner `for y` loop writes the column `x` on the rows of `ys`. -/
theorem column_fold (x : Int) (c : Color) (ys : List Int) (m : Canvas) :
    (ys.foldl (fun m y => m.Set x y c) m).Rect = m.Rect ∧
    ∀ a b, (ys.foldl (fun m y => m.Set x y c) m).Pix a b =
      if a = x ∧ b ∈ ys ∧ Point.In ⟨a, b⟩ m.Rect = true then c else m.Pix a b := by
  induction ys generalizing m with
  | nil => simp
  | cons y ys ih =>
    simp only [List.foldl_cons]
    obtain ⟨h1, h2⟩ := ih (m.Set x y c)
    refine ⟨by rw [h1, Set_Rect], fun a b => ?_⟩
    rw [h2, Set_Rect, Set_Pix]
    by_cases ha : a = x
    · subst ha
      by_cases hb : b = y
      · subst hb
        by_cases hin : Point.In ⟨a, b⟩ m.Rect = true <;> simp [hin]
      · simp [hb]
    · simp [ha]

/-- The nested loop writes exactly the pixels of the rectangle that are in bounds. -/
theorem grid_fold (c : Color) (ys : List Int) (xs : List Int) (m : Canvas) :
    (xs.foldl (fun m x => ys.foldl (fun m y => m.Set x y c) m) m).Rect = m.Rect ∧
    ∀ a b, (xs.foldl (fun m x => ys.foldl (fun m y => m.Set x y c) m) m).Pix a b =
      if a ∈ xs ∧ b ∈ ys ∧ Point.In ⟨a, b⟩ m.Rect = true then c else m.Pix a b := by
  induction xs generalizing m with
  | nil => simp
  | cons x xs ih =>
    simp only [List.foldl_cons]
    obtain ⟨h1, h2⟩ := ih (ys.foldl (fun m y => m.Set x y c) m)
    obtain ⟨k1, k2⟩ := column_fold x c ys m
    refine ⟨by rw [h1, k1], fun a b => ?_⟩
    rw [h2, k1, k2]
    by_cases ha : a = x
    · subst ha
      by_cases hb : b ∈ ys ∧ Point.In ⟨a, b⟩ m.Rect = true
      · simp [hb]
      · have hb2 : ¬ (b ∈ ys ∧ Point.In ⟨a, b⟩ m.Rect = true) := hb
        by_cases hx : a ∈ xs <;> simp [hx, hb2]
    · simp [ha]

theorem fillLoop_Rect (m : Canvas) (x0 x1 y0 y1 : Int) (c : Color) :
    (fillLoop m x0 x1 y0 y1 c).Rect = m.Rect :=
  (grid_fold c (intRange y0 y1) (intRange x0 x1) m).1

theorem fillLoop_Pix (m : Canvas) (x0 x1 y0 y1 : Int) (c : Color) (a b : Int) :
    (fillLoop m x0 x1 y0 y1 c).Pix a b =
      if (x0 ≤ a ∧ a < x1) ∧ (y0 ≤ b ∧ b < y1) ∧ Point.In ⟨a, b⟩ m.Rect = true then c
      else m.Pix a b := by
  have h := (grid_fold c (intRange y0 y1) (intRange x0 x1) m).2 a b
  simp only [mem_intRange] at h
  exact h

theorem fillLoop_At (m : Canvas) (x0 x1 y0 y1 : Int) (c : Color) (a b : Int) :
    (fillLoop m x0 x1 y0 y1 c).At a b =
      if (x0 ≤ a ∧ a < x1) ∧ (y0 ≤ b ∧ b < y1) ∧ Point.In ⟨a, b⟩ m.Rect = true then c
      else m.At a b := by
  unfold Canvas.At
  rw [fillLoop_Rect, fillLoop_Pix]
  by_cases hin : Point.In ⟨a, b⟩ m.Rect = true
  · simp [hin]
  · simp [hin]

/-! ## Frame lemmas of the elementary operations -/

theorem bgRunes_resetPosition (env : Env) (rs : List Char) (i : Image) :
    (bgRunes env rs i).resetPosition = i.resetPosition := by
  induction rs generalizing i with
  | nil => rfl
  | cons r rs ih =>
    unfold bgRunes
    split
    · rw [ih]; rfl
    · rw [ih]; rfl

theorem bgRunes_image (env : Env) (rs : List Char) (i : Image) :
    (bgRunes env rs i).image = i.image := by
  have h := congrArg Image.image (bgRunes_resetPosition env rs i)
  exact h

theorem bgRunes_backgroundColor (env : Env) (rs : List Char) (i : Image) :
    (bgRunes env rs i).backgroundColor = i.backgroundColor := by
  have h := congrArg Image.backgroundColor (bgRunes_resetPosition env rs i)
  exact h

theorem bgRunes_foregroundColor (env : Env) (rs : List Char) (i : Image) :
    (bgRunes env rs i).foregroundColor = i.foregroundColor := by
  have h := congrArg Image.foregroundColor (bgRunes_resetPosition env rs i)
  exact h

theorem bgRunes_charWidth (env : Env) (rs : List Char) (i : Image) :
    (bgRunes env rs i).charWidth = i.charWidth := by
  have h := congrArg Image.charWidth (bgRunes_resetPosition env rs i)
  exact h

theorem bgRunes_charHeight (env : Env) (rs : List Char) (i : Image) :
    (bgRunes env rs i).charHeight = i.charHeight := by
  have h := congrArg Image.charHeight (bgRunes_resetPosition env rs i)
  exact h

theorem Rect_Min_of_nonneg (w h : Int) (hw : 0 ≤ w) (hh : 0 ≤ h) :
    Rect 0 0 w h = ⟨⟨0, 0⟩, ⟨w, h⟩⟩ := by
  unfold Rect
  have h1 : ¬ (0 : Int) > w := by omega
  have h2 : ¬ (0 : Int) > h := by omega
  simp [h1, h2]

theorem In_iff (x y : Int) (r : Rectangle) :
    Point.In ⟨x, y⟩ r = true ↔ (r.Min.X ≤ x ∧ x < r.Max.X) ∧ (r.Min.Y ≤ y ∧ y < r.Max.Y) := by
  unfold Point.In
  simp only [Bool.and_eq_true, decide_eq_true_eq]
  tauto

/-! ## The whole-canvas fill and text-only streams -/

theorem drawBackground_Painted (env : Env) (c : Color) (i : Image) (s : List Char)
    (h : Painted c i) : Painted c (i.drawBackground env s) := by
  obtain ⟨hb, hp⟩ := h
  refine ⟨hb, fun x y hin => ?_⟩
  show (fillLoop _ _ _ _ _ _).Pix x y = c
  have hin2 : Point.In ⟨x, y⟩ i.image.Rect = true := by
    have : (i.drawBackground env s).image.Rect = i.image.Rect := fillLoop_Rect _ _ _ _ _ _
    rw [← this]; exact hin
  rw [fillLoop_Pix]
  split
  · exact hb
  · exact hp x y hin2

theorem bgToken_Painted (env : Env) (c : Color) (i : Image) (t : Token)
    (ht : t.Kind ≠ .KindColor) (h : Painted c i) : Painted c (bgToken env i t) := by
  unfold bgToken
  split
  · rename_i hk; exact absurd hk ht
  · have h2 := drawBackground_Painted env c i t.Text h
    unfold Painted
    rw [bgRunes_backgroundColor, bgRunes_image]
    exact h2
  · exact h

theorem backgroundPass_Painted (env : Env) (c : Color) (tokens : Tokens) (i : Image)
    (ht : ∀ t ∈ tokens, t.Kind ≠ .KindColor) (h : Painted c i) :
    Painted c (backgroundPass env tokens i) := by
  unfold backgroundPass
  induction tokens generalizing i with
  | nil => exact h
  | cons t ts ih =>
    simp only [List.foldl_cons]
    exact ih _ (fun u hu => ht u (List.mem_cons_of_mem _ hu))
      (bgToken_Painted env c i t (ht t (List.mem_cons_self _ _)) h)

theorem drawBackgroundAll_Painted (i : Image) (hmin : i.image.Bounds.Min = ⟨0, 0⟩)
    (hc : i.backgroundColor = i.defaultBackgroundColor) :
    Painted i.defaultBackgroundColor i.drawBackgroundAll := by
  refine ⟨hc, fun x y hin => ?_⟩
  show (fillLoop _ _ _ _ _ _).Pix x y = _
  have hr : i.drawBackgroundAll.image.Rect = i.image.Rect := fillLoop_Rect _ _ _ _ _ _
  rw [hr] at hin
  rw [fillLoop_Pix]
  have h2 := (In_iff x y i.image.Rect).1 hin
  have hX : i.image.Rect.Min.X = 0 := congrArg Point.X hmin
  have hY : i.image.Rect.Min.Y = 0 := congrArg Point.Y hmin
  rw [hX, hY] at h2
  have : (0 ≤ x ∧ x < i.image.Bounds.Max.X) ∧ (0 ≤ y ∧ y < i.image.Bounds.Max.Y) ∧
      Point.In ⟨x, y⟩ i.image.Rect = true := ⟨h2.1, h2.2, hin⟩
  rw [if_pos this]

theorem NewImage_fields (p : ImageParam) (i : Image) (h : NewImage p = some i) :
    i.x = 0 ∧ i.y = 0 ∧ i.lineCount = 0 ∧
    i.foregroundColor = p.ForegroundColor ∧ i.backgroundColor = p.BackgroundColor ∧
    i.defaultForegroundColor = p.ForegroundColor ∧
    i.defaultBackgroundColor = p.BackgroundColor ∧
    i.animationImages = [] ∧ i.useAnimation = p.UseAnimation ∧
    i.resizeWidth = p.ResizeWidth ∧ i.resizeHeight = p.ResizeHeight := by
  unfold NewImage at h
  simp only [Option.bind_eq_some, Option.map_eq_some'] at h
  obtain ⟨a, _, m, _, rfl⟩ := h
  simp

theorem built_spec (p : ImageParam) (h : (NewImage p).isSome = true) :
    NewImage p = some (built p h) := by
  unfold built
  simp

set_option maxRecDepth 100000 in
/-- C1, as stated, fails: for a grid of width -1 and height 1 with font size 2,
`image.Rect(0, 0, -1, 1)` is the rectangle from (-1, 0) to (0, 1), the loops of
`drawBackgroundAll` run over no column at all, and the pixel (-1, 0) of the
canvas keeps the zero color instead of the default background (opaque black). -/
theorem text_only_fill_fails_on_negative_width :
    ¬ TextOnlyFill demoEnv (demoParam (-1) 1 2) [textToken [(Char.ofNat 72), (Char.ofNat 105)]] := by
  intro h
  have h1 := h (built (demoParam (-1) 1 2) (by decide)) (built_spec _ _) (by decide) (-1) 0
    (by decide)
  revert h1
  decide

/-- C1, amended: for every image built by `NewImage` whose canvas bounds start
at the origin (non-negative canvas width and height), and every token stream
without color directive, after the whole-canvas fill and the background pass
every pixel of the canvas equals the configured default background color. -/
theorem text_only_fill (env : Env) (p : ImageParam) (i : Image) (tokens : Tokens)
    (hnew : NewImage p = some i) (hmin : i.image.Bounds.Min = ⟨0, 0⟩)
    (htext : ∀ t ∈ tokens, t.Kind ≠ .KindColor) (x y : Int)
    (hin : Point.In ⟨x, y⟩ (backgroundPass env tokens i.drawBackgroundAll).image.Bounds = true) :
    (backgroundPass env tokens i.drawBackgroundAll).image.At x y = p.BackgroundColor := by
  obtain ⟨_, _, _, _, hb, _, hd, _⟩ := NewImage_fields p i hnew
  have h0 : Painted i.defaultBackgroundColor i.drawBackgroundAll :=
    drawBackgroundAll_Painted i hmin (by rw [hb, hd])
  have h1 := backgroundPass_Painted env _ tokens _ htext h0
  unfold Canvas.At
  have hin2 : Point.In ⟨x, y⟩ (backgroundPass env tokens i.drawBackgroundAll).image.Rect = true := hin
  rw [if_pos hin2, h1.2 x y hin2, hd]

set_option maxRecDepth 100000 in
/-- The amended C1 on a grid of 2 by 1 cells with font size 2 and the text "Hi":
the pixel (1, 0) is opaque black. -/
theorem text_only_fill_witness :
    (backgroundPass demoEnv [textToken [(Char.ofNat 72), (Char.ofNat 105)]]
      (built (demoParam 2 1 2) (by decide)).drawBackgroundAll).image.At 1 0 = black :=
  text_only_fill demoEnv (demoParam 2 1 2) _ _ (built_spec _ _) (by decide) (by decide) 1 0
    (by decide)


/-! ## Glyph drawing touches the canvas only -/

theorem drawEmoji_ok_eq (env : Env) (i i1 : Image) (r : Char) (path : String)
    (h : i.drawEmoji env r path = .ok i1) : i1 = { i with image := i1.image } := by
  unfold Image.drawEmoji at h
  split at h
  · cases h
  · split at h
    · cases h
    · dsimp only at h
      split at h
      · cases h
      · cases h
        rfl

theorem draw_ok_eq (env : Env) (i i1 : Image) (r : Char) (h : i.draw env r = .ok i1) :
    i1 = { i with image := i1.image } := by
  unfold Image.draw at h
  split at h
  · split at h
    · cases h; rfl
    · exact drawEmoji_ok_eq env i i1 r _ h
  · cases h; rfl

/-! ## Properties kept by every step of `Draw` -/

theorem PassStable.bgRunes {env : Env} {P : Image → Prop} (hs : PassStable env P) (rs : List Char)
    (i : Image) (h : P i) : P (bgRunes env rs i) := by
  induction rs generalizing i with
  | nil => exact h
  | cons r rs ih =>
    unfold Textimg.bgRunes
    split
    · exact ih _ (hs.moveDown _ h)
    · exact ih _ (hs.moveRight _ _ h)

theorem PassStable.backgroundPass {env : Env} {P : Image → Prop} (hs : PassStable env P)
    (tokens : Tokens) (i : Image) (h : P i) : P (backgroundPass env tokens i) := by
  unfold Textimg.backgroundPass
  induction tokens generalizing i with
  | nil => exact h
  | cons t ts ih =>
    simp only [List.foldl_cons]
    apply ih
    unfold bgToken
    split
    · exact hs.updateColor _ _ _ h
    · exact hs.bgRunes _ _ (hs.setImage _ _ h)
    · exact h

theorem PassStable.draw {env : Env} {P : Image → Prop} (hs : PassStable env P) (i i1 : Image)
    (r : Char) (hd : i.draw env r = .ok i1) (h : P i) : P i1 := by
  rw [draw_ok_eq env i i1 r hd]
  exact hs.setImage _ _ h

theorem PassStable.fgRunes {env : Env} {P : Image → Prop} (hs : PassStable env P) (rs : List Char)
    (i : Image) (h : P i) : P (fgRunes env rs i).1 := by
  induction rs generalizing i with
  | nil => exact h
  | cons r rs ih =>
    unfold Textimg.fgRunes
    split
    · exact ih _ (hs.moveDown _ h)
    · split
      · exact h
      · rename_i i1 hd
        exact ih _ (hs.moveRight _ _ (hs.draw i i1 r hd h))

theorem PassStable.foregroundPass {env : Env} {P : Image → Prop} (hs : PassStable env P)
    (tokens : Tokens) (i : Image) (h : P i) : P (foregroundPass env tokens i).1 := by
  induction tokens generalizing i with
  | nil => exact h
  | cons t ts ih =>
    unfold Textimg.foregroundPass
    have ht : P (fgToken env i t).1 := by
      unfold fgToken
      split
      · exact hs.updateColor _ _ _ h
      · exact hs.fgRunes _ _ h
      · exact h
    split
    · rename_i i1 e he
      rw [he] at ht
      exact ht
    · rename_i i1 he
      rw [he] at ht
      exact ih _ ht

theorem Stable.flamesLoop {env : Env} {P : Image → Prop} (hs : Stable env P) (w h : Int)
    (rcs : List Int) (i : Image) (hp : P i) : P (flamesLoop env w h rcs i).1 := by
  induction rcs generalizing i with
  | nil => exact hp
  | cons rc rest ih =>
    unfold Textimg.flamesLoop
    dsimp only
    split
    · exact hp
    · split
      · exact hp
      · exact ih _ (hs.setFlames _ _ hp)

theorem Stable.setAnimationFlames {env : Env} {P : Image → Prop} (hs : Stable env P)
    (i : Image) (hp : P i) : P (i.setAnimationFlames env).1 := by
  unfold Image.setAnimationFlames
  dsimp only
  split
  · split
    · exact hp
    · exact hs.flamesLoop _ _ _ _ hp
  · exact hp

theorem Stable.scale {env : Env} {P : Image → Prop} (hs : Stable env P)
    (i j : Image) (h : i.scale env = some j) (hp : P i) : P j := by
  unfold Image.scale at h
  split at h
  · cases h
    exact hp
  · split at h
    · cases h
    · simp only [Option.map_eq_some'] at h
      obtain ⟨l, _, rfl⟩ := h
      exact hs.setFlames _ _ (hs.setImage _ _ hp)

theorem PassStable.afterBackground {env : Env} {P : Image → Prop} (hs : PassStable env P)
    (tokens : Tokens) (i : Image) (hp : P i) : P (afterBackground env tokens i) := by
  unfold Textimg.afterBackground
  apply hs.resetPosition
  apply hs.resetColor
  apply hs.backgroundPass
  exact hs.setImage _ _ hp

theorem Stable.Draw {env : Env} {P : Image → Prop} (hs : Stable env P)
    (tokens : Tokens) (i : Image) (hp : P i) : P (i.Draw env tokens).1 := by
  unfold Image.Draw
  have h1 := hs.foregroundPass tokens _ (hs.afterBackground tokens i hp)
  split
  · rename_i i1 e he
    rw [he] at h1
    exact h1
  · rename_i i1 he
    rw [he] at h1
    exact h1
  · rename_i i1 he
    rw [he] at h1
    have h2 := hs.setAnimationFlames i1 h1
    split
    · rename_i i2 e h3
      rw [h3] at h2
      exact h2
    · rename_i i2 h3
      rw [h3] at h2
      exact h2
    · rename_i i2 h3
      rw [h3] at h2
      split
      · exact h2
      · rename_i i3 h4
        exact hs.scale _ _ h4 h2

/-! ## The two passes move the cursor and the colors alike -/

theorem draw_SameCursor (env : Env) (j j1 : Image) (r : Char) (h : j.draw env r = .ok j1) :
    SameCursor j j1 := by
  have e := draw_ok_eq env j j1 r h
  exact ⟨(congrArg Image.x e).symm, (congrArg Image.y e).symm,
    (congrArg Image.lineCount e).symm, (congrArg Image.charWidth e).symm,
    (congrArg Image.charHeight e).symm⟩

theorem draw_SameColors (env : Env) (j j1 : Image) (r : Char) (h : j.draw env r = .ok j1) :
    SameColors j j1 := by
  have e := draw_ok_eq env j j1 r h
  exact ⟨(congrArg Image.foregroundColor e).symm, (congrArg Image.backgroundColor e).symm,
    (congrArg Image.defaultForegroundColor e).symm,
    (congrArg Image.defaultBackgroundColor e).symm⟩

theorem SameCursor_moveDown {i j : Image} (h : SameCursor i j) :
    SameCursor i.moveDown j.moveDown := by
  obtain ⟨h1, h2, h3, h4, h5⟩ := h
  unfold SameCursor Image.moveDown
  simp only [h2, h3, h4, h5, and_self]

theorem SameCursor_moveRight {i j : Image} (env : Env) (r : Char) (h : SameCursor i j) :
    SameCursor (i.moveRight env r) (j.moveRight env r) := by
  obtain ⟨h1, h2, h3, h4, h5⟩ := h
  unfold SameCursor Image.moveRight
  simp only [h1, h2, h3, h4, h5, and_self]

theorem SameCursor_trans {i j k : Image} (h1 : SameCursor i j) (h2 : SameCursor j k) :
    SameCursor i k :=
  ⟨h1.1.trans h2.1, h1.2.1.trans h2.2.1, h1.2.2.1.trans h2.2.2.1,
    h1.2.2.2.1.trans h2.2.2.2.1, h1.2.2.2.2.trans h2.2.2.2.2⟩

theorem SameColors_trans {i j k : Image} (h1 : SameColors i j) (h2 : SameColors j k) :
    SameColors i k :=
  ⟨h1.1.trans h2.1, h1.2.1.trans h2.2.1, h1.2.2.1.trans h2.2.2.1,
    h1.2.2.2.trans h2.2.2.2⟩

theorem SameCursor_updateColor {i j : Image} (t u : ColorType) (c d : Color)
    (h : SameCursor i j) : SameCursor (i.updateColor t c) (j.updateColor u d) := by
  cases t <;> cases u <;> exact h

theorem SameColors_updateColor {i j : Image} (t : ColorType) (c : Color)
    (h : SameColors i j) : SameColors (i.updateColor t c) (j.updateColor t c) := by
  obtain ⟨h1, h2, h3, h4⟩ := h
  cases t <;> unfold SameColors Image.updateColor <;>
    simp only [Image.resetColor, h1, h2, h3, h4, and_self]

theorem fgRunes_SameCursor (env : Env) (rs : List Char) (i j j1 : Image)
    (h : SameCursor i j) (hf : fgRunes env rs j = (j1, none)) :
    SameCursor (bgRunes env rs i) j1 := by
  induction rs generalizing i j with
  | nil =>
    unfold fgRunes at hf
    cases hf
    exact h
  | cons r rs ih =>
    unfold fgRunes at hf
    unfold bgRunes
    by_cases hl : env.isLinefeed r = true
    · rw [if_pos hl] at hf ⊢
      exact ih _ _ (SameCursor_moveDown h) hf
    · rw [if_neg hl] at hf ⊢
      split at hf
      · cases hf
      · rename_i i1 hd
        exact ih _ _ (SameCursor_moveRight env r (SameCursor_trans h (draw_SameCursor env j i1 r hd))) hf

theorem SameColors_refl (i : Image) : SameColors i i := ⟨rfl, rfl, rfl, rfl⟩

theorem SameColors_symm {i j : Image} (h : SameColors i j) : SameColors j i :=
  ⟨h.1.symm, h.2.1.symm, h.2.2.1.symm, h.2.2.2.symm⟩

theorem fgRunes_SameColors (env : Env) (rs : List Char) (j : Image) :
    SameColors j (fgRunes env rs j).1 := by
  induction rs generalizing j with
  | nil => exact SameColors_refl j
  | cons r rs ih =>
    unfold fgRunes
    split
    · exact SameColors_trans ⟨rfl, rfl, rfl, rfl⟩ (ih j.moveDown)
    · split
      · exact SameColors_refl j
      · rename_i i1 hd
        exact SameColors_trans (draw_SameColors env j i1 r hd)
          (SameColors_trans ⟨rfl, rfl, rfl, rfl⟩ (ih (i1.moveRight env r)))

theorem bgRunes_SameColors (env : Env) (rs : List Char) (i : Image) :
    SameColors i (bgRunes env rs i) := by
  have e := bgRunes_resetPosition env rs i
  exact ⟨(congrArg Image.foregroundColor e).symm, (congrArg Image.backgroundColor e).symm,
    (congrArg Image.defaultForegroundColor e).symm,
    (congrArg Image.defaultBackgroundColor e).symm⟩

theorem fgToken_SameCursor (env : Env) (t : Token) (i j j1 : Image)
    (h : SameCursor i j) (hf : fgToken env j t = (j1, none)) :
    SameCursor (bgToken env i t) j1 := by
  unfold fgToken at hf
  unfold bgToken
  revert hf
  cases t.Kind with
  | KindColor =>
    intro hf
    cases hf
    exact SameCursor_updateColor _ _ _ _ h
  | KindText =>
    intro hf
    exact fgRunes_SameCursor env t.Text _ j j1 h hf
  | KindOther n =>
    intro hf
    cases hf
    exact h

theorem fgToken_SameColors (env : Env) (t : Token) (i j : Image) (h : SameColors i j) :
    SameColors (bgToken env i t) (fgToken env j t).1 := by
  unfold fgToken bgToken
  split
  · exact SameColors_updateColor _ _ h
  · have h0 : SameColors (Image.drawBackground env i t.Text) i := ⟨rfl, rfl, rfl, rfl⟩
    exact SameColors_trans (SameColors_trans (SameColors_symm (bgRunes_SameColors env t.Text _))
      (SameColors_trans h0 h)) (fgRunes_SameColors env t.Text j)
  · exact h

theorem foregroundPass_SameCursor (env : Env) (tokens : Tokens) (i j j1 : Image)
    (h : SameCursor i j) (hf : foregroundPass env tokens j = (j1, none)) :
    SameCursor (backgroundPass env tokens i) j1 := by
  unfold backgroundPass
  induction tokens generalizing i j with
  | nil =>
    unfold foregroundPass at hf
    cases hf
    exact h
  | cons t ts ih =>
    unfold foregroundPass at hf
    simp only [List.foldl_cons]
    split at hf
    · cases hf
    · rename_i i1 he
      exact ih _ _ (fgToken_SameCursor env t i j i1 h he) hf

theorem foregroundPass_SameColors (env : Env) (tokens : Tokens) (i j j1 : Image)
    (h : SameColors i j) (hf : foregroundPass env tokens j = (j1, none)) :
    SameColors (backgroundPass env tokens i) j1 := by
  unfold backgroundPass
  induction tokens generalizing i j with
  | nil =>
    unfold foregroundPass at hf
    cases hf
    exact h
  | cons t ts ih =>
    unfold foregroundPass at hf
    simp only [List.foldl_cons]
    split at hf
    · cases hf
    · rename_i i1 he
      have h2 := fgToken_SameColors env t i j h
      rw [he] at h2
      exact ih _ _ h2 hf

theorem backgroundPass_append (env : Env) (pre post : Tokens) (i : Image) :
    backgroundPass env (pre ++ post) i = backgroundPass env post (backgroundPass env pre i) := by
  unfold backgroundPass
  rw [List.foldl_append]

theorem foregroundPass_append (env : Env) (pre post : Tokens) (i : Image) :
    foregroundPass env (pre ++ post) i =
      match foregroundPass env pre i with
      | (i1, some e) => (i1, some e)
      | (i1, none) => foregroundPass env post i1 := by
  induction pre generalizing i with
  | nil => rfl
  | cons t ts ih =>
    simp only [List.cons_append, foregroundPass]
    split
    · rfl
    · exact ih _

theorem defaults_Stable (env : Env) (a b : Color) :
    Stable env (fun j => j.defaultForegroundColor = a ∧ j.defaultBackgroundColor = b) :=
  { updateColor := fun _ t _ h => by cases t <;> exact h
    resetColor := fun _ h => h
    resetPosition := fun _ h => h
    moveDown := fun _ h => h
    moveRight := fun _ _ h => h
    setImage := fun _ _ h => h
    setFlames := fun _ _ h => h }

theorem cell_Stable (env : Env) (a b : Int) :
    Stable env (fun j => j.charWidth = a ∧ j.charHeight = b) :=
  { updateColor := fun _ t _ h => by cases t <;> exact h
    resetColor := fun _ h => h
    resetPosition := fun _ h => h
    moveDown := fun _ h => h
    moveRight := fun _ _ h => h
    setImage := fun _ _ h => h
    setFlames := fun _ _ h => h }

/-! ## C3: both passes end at the same cursor -/

/-- C3: for every token stream on which no glyph draw fails (the foreground
pass ends without error), the background pass and the foreground pass, each
started at the origin with line count 0 on states with the same cell size, end
with the same cursor position `(x, y)` and the same line count. -/
theorem passes_end_at_same_cursor (env : Env) (tokens : Tokens) (i j : Image)
    (hi : i.x = 0 ∧ i.y = 0 ∧ i.lineCount = 0) (hj : j.x = 0 ∧ j.y = 0 ∧ j.lineCount = 0)
    (hcell : i.charWidth = j.charWidth ∧ i.charHeight = j.charHeight)
    (hok : (foregroundPass env tokens j).2 = none) :
    (backgroundPass env tokens i).x = (foregroundPass env tokens j).1.x ∧
    (backgroundPass env tokens i).y = (foregroundPass env tokens j).1.y ∧
    (backgroundPass env tokens i).lineCount = (foregroundPass env tokens j).1.lineCount := by
  have h0 : SameCursor i j :=
    ⟨hi.1.trans hj.1.symm, hi.2.1.trans hj.2.1.symm, hi.2.2.trans hj.2.2.symm, hcell.1, hcell.2⟩
  have h1 := foregroundPass_SameCursor env tokens i j (foregroundPass env tokens j).1 h0
    (Prod.ext rfl hok)
  exact ⟨h1.1, h1.2.1, h1.2.2.1⟩

set_option maxRecDepth 100000 in
/-- C3 on the two passes that `Draw` runs for the text "H", line feed, "i" on a
grid of 2 by 2 cells with font size 4. -/
theorem passes_end_at_same_cursor_witness :
    (backgroundPass demoEnv [textToken [(Char.ofNat 72), (Char.ofNat 10), (Char.ofNat 105)]]
      (built (demoParam 2 2 4) (by decide)).drawBackgroundAll).x =
      (foregroundPass demoEnv [textToken [(Char.ofNat 72), (Char.ofNat 10), (Char.ofNat 105)]]
        (afterBackground demoEnv [textToken [(Char.ofNat 72), (Char.ofNat 10), (Char.ofNat 105)]]
          (built (demoParam 2 2 4) (by decide)))).1.x ∧
    (backgroundPass demoEnv [textToken [(Char.ofNat 72), (Char.ofNat 10), (Char.ofNat 105)]]
      (built (demoParam 2 2 4) (by decide)).drawBackgroundAll).y =
      (foregroundPass demoEnv [textToken [(Char.ofNat 72), (Char.ofNat 10), (Char.ofNat 105)]]
        (afterBackground demoEnv [textToken [(Char.ofNat 72), (Char.ofNat 10), (Char.ofNat 105)]]
          (built (demoParam 2 2 4) (by decide)))).1.y ∧
    (backgroundPass demoEnv [textToken [(Char.ofNat 72), (Char.ofNat 10), (Char.ofNat 105)]]
      (built (demoParam 2 2 4) (by decide)).drawBackgroundAll).lineCount =
      (foregroundPass demoEnv [textToken [(Char.ofNat 72), (Char.ofNat 10), (Char.ofNat 105)]]
        (afterBackground demoEnv [textToken [(Char.ofNat 72), (Char.ofNat 10), (Char.ofNat 105)]]
          (built (demoParam 2 2 4) (by decide)))).1.lineCount :=
  passes_end_at_same_cursor demoEnv _ _ _ (by decide) (by decide) (by decide) (by decide)

/-! ## C4: both passes see the same colors -/

/-- C4: on an image fresh from `NewImage` and a token stream `pre ++ post`,
`resetColor` between the passes restores the initial colors, the state of each
pass just before the first token of `post` is the state it reaches on `pre`,
and in that state the current foreground and background colors of the
background pass and of the foreground pass are the same. -/
theorem passes_see_same_colors (env : Env) (p : ImageParam) (i : Image) (pre post : Tokens)
    (hnew : NewImage p = some i)
    (hok : (foregroundPass env pre (afterBackground env (pre ++ post) i)).2 = none) :
    ((afterBackground env (pre ++ post) i).foregroundColor = p.ForegroundColor ∧
      (afterBackground env (pre ++ post) i).backgroundColor = p.BackgroundColor) ∧
    (backgroundPass env (pre ++ post) i.drawBackgroundAll =
        backgroundPass env post (backgroundPass env pre i.drawBackgroundAll) ∧
      foregroundPass env (pre ++ post) (afterBackground env (pre ++ post) i) =
        foregroundPass env post
          (foregroundPass env pre (afterBackground env (pre ++ post) i)).1) ∧
    (backgroundPass env pre i.drawBackgroundAll).foregroundColor =
      (foregroundPass env pre (afterBackground env (pre ++ post) i)).1.foregroundColor ∧
    (backgroundPass env pre i.drawBackgroundAll).backgroundColor =
      (foregroundPass env pre (afterBackground env (pre ++ post) i)).1.backgroundColor := by
  obtain ⟨_, _, _, hf, hb, hdf, hdb, _⟩ := NewImage_fields p i hnew
  have hd := (defaults_Stable env p.ForegroundColor p.BackgroundColor).backgroundPass
    (pre ++ post) i.drawBackgroundAll ⟨hdf, hdb⟩
  have hreset : (afterBackground env (pre ++ post) i).foregroundColor = p.ForegroundColor ∧
      (afterBackground env (pre ++ post) i).backgroundColor = p.BackgroundColor := hd
  have hd2 := (defaults_Stable env p.ForegroundColor p.BackgroundColor).afterBackground
    (pre ++ post) i ⟨hdf, hdb⟩
  have h0 : SameColors i.drawBackgroundAll (afterBackground env (pre ++ post) i) :=
    ⟨hf.trans hreset.1.symm, hb.trans hreset.2.symm, hdf.trans hd2.1.symm,
      hdb.trans hd2.2.symm⟩
  have h1 := foregroundPass_SameColors env pre _ _
    (foregroundPass env pre (afterBackground env (pre ++ post) i)).1 h0 (Prod.ext rfl hok)
  refine ⟨hreset, ⟨backgroundPass_append env pre post _, ?_⟩, h1.1, h1.2.1⟩
  rw [foregroundPass_append]
  have : foregroundPass env pre (afterBackground env (pre ++ post) i) =
      ((foregroundPass env pre (afterBackground env (pre ++ post) i)).1, none) :=
    Prod.ext rfl hok
  rw [this]

set_option maxRecDepth 100000 in
/-- C4 for the stream set-background red, "a", reverse, "b" just before the
token "b": both passes have the foreground red and the background white. -/
theorem passes_see_same_colors_witness :
    (backgroundPass demoEnv
      [colorToken .ColorTypeBackground red, textToken [(Char.ofNat 97)],
        colorToken .ColorTypeReverse Color.zero]
      (built (demoParam 2 1 2) (by decide)).drawBackgroundAll).foregroundColor = red ∧
    (foregroundPass demoEnv
      [colorToken .ColorTypeBackground red, textToken [(Char.ofNat 97)],
        colorToken .ColorTypeReverse Color.zero]
      (afterBackground demoEnv
        ([colorToken .ColorTypeBackground red, textToken [(Char.ofNat 97)],
          colorToken .ColorTypeReverse Color.zero] ++ [textToken [(Char.ofNat 98)]])
        (built (demoParam 2 1 2) (by decide)))).1.foregroundColor = red := by
  have h := passes_see_same_colors demoEnv (demoParam 2 1 2) _
    [colorToken .ColorTypeBackground red, textToken [(Char.ofNat 97)],
      colorToken .ColorTypeReverse Color.zero] [textToken [(Char.ofNat 98)]]
    (built_spec _ (by decide)) (by decide)
  exact ⟨by decide, h.2.2.1 ▸ (by decide)⟩

/-! ## C10: the default colors are fixed -/

/-- C10: for every directive kind and every color payload `updateColor` leaves
both default colors unchanged, and after `Draw` on any token stream, however
the call ends, both defaults still equal the `ForegroundColor` and the
`BackgroundColor` given to `NewImage`. -/
theorem defaults_are_fixed (env : Env) :
    (∀ (i : Image) (t : ColorType) (col : Color),
      (i.updateColor t col).defaultForegroundColor = i.defaultForegroundColor ∧
      (i.updateColor t col).defaultBackgroundColor = i.defaultBackgroundColor) ∧
    (∀ (p : ImageParam) (i : Image) (tokens : Tokens), NewImage p = some i →
      (i.Draw env tokens).1.defaultForegroundColor = p.ForegroundColor ∧
      (i.Draw env tokens).1.defaultBackgroundColor = p.BackgroundColor) := by
  refine ⟨fun i t col => ?_, fun p i tokens hnew => ?_⟩
  · cases t <;> exact ⟨rfl, rfl⟩
  · obtain ⟨_, _, _, _, _, hdf, hdb, _⟩ := NewImage_fields p i hnew
    exact (defaults_Stable env p.ForegroundColor p.BackgroundColor).Draw tokens i ⟨hdf, hdb⟩

set_option maxRecDepth 100000 in
/-- C10 on the stream set-foreground red, set-background red, "a": the
defaults are still white on black after `Draw`. -/
theorem defaults_are_fixed_witness :
    ((built (demoParam 2 1 2) (by decide)).Draw demoEnv
      [colorToken .ColorTypeForeground red, colorToken .ColorTypeBackground red,
        textToken [(Char.ofNat 97)]]).1.defaultForegroundColor = white ∧
    ((built (demoParam 2 1 2) (by decide)).Draw demoEnv
      [colorToken .ColorTypeForeground red, colorToken .ColorTypeBackground red,
        textToken [(Char.ofNat 97)]]).1.defaultBackgroundColor = black :=
  (defaults_are_fixed demoEnv).2 (demoParam 2 1 2) _ _ (built_spec _ (by decide))


/-! ## Allocation of canvases -/

theorem NewRGBA_eq (r : Rectangle) (c : Canvas) (h : NewRGBA r = some c) : c = blankCanvas r := by
  unfold NewRGBA at h
  split at h
  · cases h
  · cases h
    rfl

theorem NewRGBA_some_iff (r : Rectangle) :
    (NewRGBA r).isSome = true ↔
      0 ≤ r.Dx ∧ 0 ≤ r.Dy ∧ 4 * r.Dx * r.Dy ≤ 281474976710656 := by
  unfold NewRGBA
  split
  · rename_i h
    simp only [Option.isSome_none, Bool.false_eq_true, false_iff]
    omega
  · rename_i h
    simp only [Option.isSome_some, true_iff]
    omega

/-- A rectangle from the origin to `(w, h)`, with `w` and `h` non-negative
`int` values and a pixel buffer of at most `2 ^ 48` bytes, is allocated. -/
theorem NewRGBA_of_fits (w h : Int) (hw : 0 ≤ w) (hh : 0 ≤ h)
    (hwi : w < 9223372036854775808) (hhi : h < 9223372036854775808)
    (hfit : 4 * w * h ≤ 281474976710656) :
    NewRGBA ⟨⟨0, 0⟩, ⟨w, h⟩⟩ = some (blankCanvas ⟨⟨0, 0⟩, ⟨w, h⟩⟩) := by
  have hdx : (⟨⟨0, 0⟩, ⟨w, h⟩⟩ : Rectangle).Dx = w := by
    unfold Rectangle.Dx wrap64
    simp only
    omega
  have hdy : (⟨⟨0, 0⟩, ⟨w, h⟩⟩ : Rectangle).Dy = h := by
    unfold Rectangle.Dy wrap64
    simp only
    omega
  unfold NewRGBA
  rw [hdx, hdy]
  have hno : ¬ (w < 0 ∨ h < 0 ∨ 281474976710656 < 4 * w * h) := by omega
  rw [if_neg hno]
  rfl

theorem NewRGBA_of_huge (w h : Int) (hw : 0 ≤ w) (hh : 0 ≤ h)
    (hwi : w < 9223372036854775808) (hhi : h < 9223372036854775808)
    (hfit : 281474976710656 < 4 * w * h) :
    NewRGBA ⟨⟨0, 0⟩, ⟨w, h⟩⟩ = none := by
  have hdx : (⟨⟨0, 0⟩, ⟨w, h⟩⟩ : Rectangle).Dx = w := by
    unfold Rectangle.Dx wrap64
    simp only
    omega
  have hdy : (⟨⟨0, 0⟩, ⟨w, h⟩⟩ : Rectangle).Dy = h := by
    unfold Rectangle.Dy wrap64
    simp only
    omega
  unfold NewRGBA
  rw [hdx, hdy]
  rw [if_pos (Or.inr (Or.inr hfit))]

theorem Rect_Dx_Dy (w h : Int) (hw : 0 ≤ w) (hh : 0 ≤ h)
    (hwi : w < 9223372036854775808) (hhi : h < 9223372036854775808) :
    (Rect 0 0 w h).Dx = w ∧ (Rect 0 0 w h).Dy = h := by
  rw [Rect_Min_of_nonneg w h hw hh]
  unfold Rectangle.Dx Rectangle.Dy wrap64
  simp only
  omega

theorem scaleAll_of_newImage (env : Env) (w h : Int) (dst : Canvas)
    (hd : newImage w h = some dst) (l : List Canvas) :
    scaleAll env w h l = some (l.map (fun img => { dst with Pix := env.CatmullRom dst img })) := by
  induction l with
  | nil => rfl
  | cons img rest ih =>
    unfold scaleAll Textimg.scale
    rw [hd, ih]
    rfl

/-! ## C8 and C9: cell size, canvas size and baseline -/

theorem NewImage_cell (p : ImageParam) (i : Image) (h : NewImage p = some i) :
    i.charWidth = Int.tdiv p.FontSize 2 ∧
      i.charHeight = ((Float64.ofInt p.FontSize).mul f64_1_2).toInt ∧
      newImage (wrap64 (p.BaseWidth * i.charWidth))
        ((Float64.ofInt (wrap64 (p.BaseHeight * i.charHeight))).div f64_1_2).toInt =
          some i.image := by
  unfold NewImage at h
  simp only [Option.bind_eq_some, Option.map_eq_some'] at h
  obtain ⟨a, _, m, hm, rfl⟩ := h
  exact ⟨rfl, rfl, hm⟩

theorem newImage_Bounds (w h : Int) (m : Canvas) (hm : newImage w h = some m) :
    m.Bounds = Rect 0 0 w h := by
  unfold newImage at hm
  rw [NewRGBA_eq _ _ hm]
  rfl

set_option maxRecDepth 100000 in
/-- C8, as stated, fails: for a grid of 10 by 1 cells and font size 20 the canvas
is not 24 pixels high; `int(float64(1*24) / 1.2)` is 20. -/
theorem canvas_10x1_font20_is_not_24_high :
    ¬ BuildsGeometry (demoParam 10 1 20) 10 24 100 24 := by
  intro h
  have h1 := h (built (demoParam 10 1 20) (by decide)) (built_spec _ _)
  revert h1
  decide

set_option maxRecDepth 100000 in
/-- C8, amended: `NewImage` derives `cellWidth = fontSize / 2` (integer
division) and `cellHeight = int(float64(fontSize) * 1.2)`, which is
`6 * fontSize / 5` rounded down for every font size below 256 and lies between
`fontSize` and `2 * fontSize` for every font size from 1 to `2 ^ 62 - 1`, and
sizes the canvas as `image.Rect(0, 0, BaseWidth * cellWidth,
int(float64(BaseHeight * cellHeight) / 1.2))`, both products in 64-bit `int`
arithmetic.  For a grid that is not negative and does not overflow
(`BaseWidth * FontSize` and `2 * BaseHeight * FontSize` below `2 ^ 63`) the
canvas goes from the origin to `(BaseWidth * cellWidth, h)` with `h` at most
`BaseHeight * cellHeight`; for a grid of 10 by 1 cells and font size 20 this
gives `cellWidth = 10`, `cellHeight = 24` and a canvas 100 pixels wide and 20
pixels high. -/
theorem NewImage_geometry :
    (∀ (p : ImageParam) (i : Image), NewImage p = some i →
      i.charWidth = Int.tdiv p.FontSize 2 ∧
      i.charHeight = ((Float64.ofInt p.FontSize).mul f64_1_2).toInt ∧
      i.image.Bounds = Rect 0 0 (wrap64 (p.BaseWidth * i.charWidth))
        ((Float64.ofInt (wrap64 (p.BaseHeight * i.charHeight))).div f64_1_2).toInt) ∧
    (∀ n : Nat, n < 256 →
      ((Float64.ofInt (n : Int)).mul f64_1_2).toInt = ((6 * n / 5 : Nat) : Int)) ∧
    (∀ (p : ImageParam) (i : Image), NewImage p = some i →
      0 ≤ p.BaseWidth → 0 ≤ p.BaseHeight →
      0 < p.FontSize → p.FontSize < 4611686018427387904 →
      p.BaseWidth * p.FontSize < 9223372036854775808 →
      2 * p.BaseHeight * p.FontSize < 9223372036854775808 →
      (p.FontSize ≤ i.charHeight ∧ i.charHeight ≤ 2 * p.FontSize) ∧
      i.image.Bounds = ⟨⟨0, 0⟩, ⟨p.BaseWidth * i.charWidth,
        ((Float64.ofInt (p.BaseHeight * i.charHeight)).div f64_1_2).toInt⟩⟩ ∧
      0 ≤ i.image.Bounds.Max.Y ∧ i.image.Bounds.Max.Y ≤ p.BaseHeight * i.charHeight) ∧
    BuildsGeometry (demoParam 10 1 20) 10 24 100 20 := by
  refine ⟨fun p i hnew => ?_, by decide, fun p i hnew hBW hBH hF hFlt hW hH => ?_,
    fun i hnew => ?_⟩
  · obtain ⟨h1, h2, h3⟩ := NewImage_cell p i hnew
    exact ⟨h1, h2, newImage_Bounds _ _ _ h3⟩
  · obtain ⟨h1, h2, h3⟩ := NewImage_cell p i hnew
    have hb := newImage_Bounds _ _ _ h3
    obtain ⟨c1, c2⟩ := cellHeight_bounds p.FontSize hF hFlt
    rw [← h2] at c1 c2
    have hcw0 : 0 ≤ i.charWidth := by
      rw [h1]
      exact Int.tdiv_nonneg (by omega) (by omega)
    have hcwle : i.charWidth ≤ p.FontSize := by
      rw [h1, Int.tdiv_eq_ediv (by omega) (by omega)]
      omega
    have hWfit : IsInt (p.BaseWidth * i.charWidth) := by
      unfold IsInt
      have e1 : 0 ≤ p.BaseWidth * i.charWidth := Int.mul_nonneg hBW hcw0
      have e2 : p.BaseWidth * i.charWidth ≤ p.BaseWidth * p.FontSize :=
        Int.mul_le_mul_of_nonneg_left hcwle hBW
      omega
    have hprod0 : 0 ≤ p.BaseHeight * i.charHeight := Int.mul_nonneg hBH (by omega)
    have hprodle : p.BaseHeight * i.charHeight ≤ p.BaseHeight * (2 * p.FontSize) :=
      Int.mul_le_mul_of_nonneg_left c2 hBH
    have hprodlt : p.BaseHeight * i.charHeight < 9223372036854775808 := by
      have e : p.BaseHeight * (2 * p.FontSize) = 2 * p.BaseHeight * p.FontSize := by ring
      omega
    have hHfit : IsInt (p.BaseHeight * i.charHeight) := by
      unfold IsInt
      omega
    rw [wrap64_of_fits _ hWfit, wrap64_of_fits _ hHfit] at hb
    have hIH : 0 ≤ ((Float64.ofInt (p.BaseHeight * i.charHeight)).div f64_1_2).toInt ∧
        ((Float64.ofInt (p.BaseHeight * i.charHeight)).div f64_1_2).toInt ≤
          p.BaseHeight * i.charHeight := by
      by_cases hz : p.BaseHeight * i.charHeight = 0
      · rw [hz]
        decide
      · obtain ⟨b1, b2⟩ := imageHeight_bounds (p.BaseHeight * i.charHeight) (by omega) hprodlt
        refine ⟨?_, b2⟩
        have : 0 ≤ p.BaseHeight * i.charHeight / 2 := Int.ediv_nonneg hprod0 (by decide)
        omega
    rw [Rect_Min_of_nonneg _ _ (Int.mul_nonneg hBW hcw0) hIH.1] at hb
    refine ⟨⟨c1, c2⟩, hb, ?_, ?_⟩
    · rw [hb]
      exact hIH.1
    · rw [hb]
      exact hIH.2
  · rw [built_spec (demoParam 10 1 20) (by decide)] at hnew
    cases hnew
    decide

set_option maxRecDepth 100000 in
/-- The amended C8 on the image built for a grid of 10 by 1 cells and font size 20. -/
theorem NewImage_geometry_witness :
    (built (demoParam 10 1 20) (by decide)).charWidth = 10 ∧
    (built (demoParam 10 1 20) (by decide)).charHeight = 24 ∧
    (built (demoParam 10 1 20) (by decide)).image.Bounds.Dx = 100 ∧
    (built (demoParam 10 1 20) (by decide)).image.Bounds.Dy = 20 :=
  NewImage_geometry.2.2.2 _ (built_spec _ _)

set_option maxRecDepth 100000 in
/-- C9, as stated, fails: with `cellHeight = 24` and the cursor at the origin
the baseline is not at `y = 19`. -/
theorem baseline_of_cell24_is_not_19 :
    ¬ BaselineAt (built (demoParam 10 1 20) (by decide)) ⟨0⟩ 0 19 := by
  unfold BaselineAt
  decide

theorem Int26_6_of_fits (v : Int) (h1 : -2147483648 ≤ v) (h2 : v < 2147483648) :
    Int26_6 v = v := by
  unfold Int26_6
  omega

/-- The conversion to `int32` does not see the 64-bit wrap of its argument. -/
theorem Int26_6_wrap64 (v : Int) : Int26_6 (wrap64 v) = Int26_6 v := by
  unfold Int26_6 wrap64
  omega

theorem Int26_6_baseline (a b c : Int) :
    Int26_6 (wrap64 (wrap64 (wrap64 (a + b) - c) * 64)) = Int26_6 ((a + b - c) * 64) := by
  unfold Int26_6 wrap64
  omega

/-- C9, amended: `newDrawer` anchors the glyph baseline at
`(x, y + cellHeight - cellHeight / 5)` with integer division, where `(x, y)` is
the current cursor, whenever both coordinates times 64 fit the 32 bits of
`fixed.Int26_6`; for `cellHeight = 24` with the cursor at the row origin the
baseline is at `y = 24 - 24 / 5 = 24 - 4 = 20`. -/
theorem newDrawer_baseline (i : Image) (f : Face)
    (hx : -2147483648 ≤ i.x * 64 ∧ i.x * 64 < 2147483648)
    (hy : -2147483648 ≤ (i.y + i.charHeight - Int.tdiv i.charHeight 5) * 64 ∧
      (i.y + i.charHeight - Int.tdiv i.charHeight 5) * 64 < 2147483648) :
    BaselineAt i f i.x (i.y + i.charHeight - Int.tdiv i.charHeight 5) ∧
    (i.charHeight = 24 → i.y = 0 → BaselineAt i f i.x 20) := by
  have h : BaselineAt i f i.x (i.y + i.charHeight - Int.tdiv i.charHeight 5) := by
    unfold BaselineAt Image.newDrawer
    dsimp only
    rw [Int26_6_baseline, Int26_6_wrap64, Int26_6_of_fits _ hx.1 hx.2,
      Int26_6_of_fits _ hy.1 hy.2]
  refine ⟨h, fun h24 h0 => ?_⟩
  rw [h24, h0] at h
  exact h

set_option maxRecDepth 100000 in
/-- The amended C9 on the image built for a grid of 10 by 1 cells and font
size 20: the dot is at the pixel (0, 20). -/
theorem newDrawer_baseline_witness :
    BaselineAt (built (demoParam 10 1 20) (by decide)) ⟨0⟩ 0 20 :=
  (newDrawer_baseline (built (demoParam 10 1 20) (by decide)) ⟨0⟩ (by decide) (by decide)).2
    (by decide) (by decide)

/-! ## C7: the scaler -/

set_option maxRecDepth 100000 in
/-- C7, as stated, fails: for the target (-3, 2) the new canvas has the bounds
`image.Rect(0, 0, -3, 2)`, from (-3, 0) to (0, 2), which is 3 pixels wide and
not -3. -/
theorem scale_to_negative_width_is_not_exact :
    ¬ ScalesExactly demoEnv (built (resizeParam (-3) 2) (by decide)) := by
  intro h
  obtain ⟨j, hj, ⟨hdx, _⟩, _⟩ := h.2 (by decide)
  have h1 := congrArg (Option.map (fun k : Image => k.image.Bounds.Dx)) hj
  simp only [Option.map_some'] at h1
  rw [hdx] at h1
  revert h1
  decide

/-- C7, amended: when `resizeWidth` and `resizeHeight` are both 0, `Image.scale`
leaves the main canvas and every animation frame unchanged.  Otherwise, for a
target of `int` values with `resizeWidth ≥ 0` and `resizeHeight ≥ 0`: if the
pixel buffer `4 * resizeWidth * resizeHeight` is at most `2 ^ 48` bytes, the
main canvas is replaced by a canvas of exactly `resizeWidth` by `resizeHeight`,
every animation frame is replaced by its own rescaling, again exactly
`resizeWidth` by `resizeHeight`, and the number and order of the frames are
kept; if the pixel buffer is larger, `Image.scale` panics. -/
theorem scale_exact_of_nonneg (env : Env) (i : Image)
    (hw : 0 ≤ i.resizeWidth ∧ i.resizeWidth < 9223372036854775808)
    (hh : 0 ≤ i.resizeHeight ∧ i.resizeHeight < 9223372036854775808) :
    (4 * i.resizeWidth * i.resizeHeight ≤ 281474976710656 →
      ScalesExactly env i ∧
      (¬ (i.resizeWidth = 0 ∧ i.resizeHeight = 0) →
        i.scale env = some { i with
          image := scaledTo env i.resizeWidth i.resizeHeight i.image
          animationImages :=
            i.animationImages.map (scaledTo env i.resizeWidth i.resizeHeight) })) ∧
    (281474976710656 < 4 * i.resizeWidth * i.resizeHeight → i.scale env = none) := by
  have hr := Rect_Min_of_nonneg i.resizeWidth i.resizeHeight hw.1 hh.1
  obtain ⟨hDx, hDy⟩ := Rect_Dx_Dy i.resizeWidth i.resizeHeight hw.1 hh.1 hw.2 hh.2
  constructor
  · intro hfit
    have hnew : newImage i.resizeWidth i.resizeHeight =
        some (blankCanvas (Rect 0 0 i.resizeWidth i.resizeHeight)) := by
      unfold newImage
      rw [hr]
      exact NewRGBA_of_fits _ _ hw.1 hh.1 hw.2 hh.2 hfit
    have himg : ¬ (i.resizeWidth = 0 ∧ i.resizeHeight = 0) →
        i.scale env = some { i with
          image := scaledTo env i.resizeWidth i.resizeHeight i.image
          animationImages :=
            i.animationImages.map (scaledTo env i.resizeWidth i.resizeHeight) } := by
      intro hz
      unfold Image.scale Image.newScaledImage Textimg.scale
      rw [if_neg hz, if_neg hz, hnew]
      simp only [Option.map_some']
      rw [scaleAll_of_newImage env _ _ _ hnew]
      rfl
    refine ⟨⟨fun hz => ?_, fun hz => ?_⟩, himg⟩
    · unfold Image.scale
      rw [if_pos hz]
    · refine ⟨_, himg hz, ⟨hDx, hDy⟩, by simp, fun m hm => ?_⟩
      simp only [List.mem_map] at hm
      obtain ⟨a, _, rfl⟩ := hm
      exact ⟨hDx, hDy⟩
  · intro hbig
    have hz : ¬ (i.resizeWidth = 0 ∧ i.resizeHeight = 0) := by
      rintro ⟨h1, h2⟩
      rw [h1, h2] at hbig
      omega
    have hnew : newImage i.resizeWidth i.resizeHeight = none := by
      unfold newImage
      rw [hr]
      exact NewRGBA_of_huge _ _ hw.1 hh.1 hw.2 hh.2 hbig
    unfold Image.scale Image.newScaledImage Textimg.scale
    rw [if_neg hz, if_neg hz, hnew]
    rfl

set_option maxRecDepth 100000 in
/-- The amended C7 for the target (3, 2): the main canvas becomes 3 by 2. -/
theorem scale_exact_of_nonneg_witness :
    ∃ j, (built (resizeParam 3 2) (by decide)).scale demoEnv = some j ∧
      j.image.Bounds.Dx = 3 ∧ j.image.Bounds.Dy = 2 := by
  obtain ⟨j, h1, h2, _⟩ := (((scale_exact_of_nonneg demoEnv (built (resizeParam 3 2) (by decide))
    (by decide) (by decide)).1 (by decide)).1.2 (by decide))
  exact ⟨j, h1, h2⟩

/-! ## Steps of a pass -/

theorem fillLoop_eq (m : Canvas) (x0 x1 y0 y1 : Int) (c : Color) :
    fillLoop m x0 x1 y0 y1 c = { m with Pix := (fillLoop m x0 x1 y0 y1 c).Pix } := by
  have h := fillLoop_Rect m x0 x1 y0 y1 c
  rcases hf : fillLoop m x0 x1 y0 y1 c with ⟨R, Q⟩
  rw [hf] at h
  simp only at h
  subst h
  rfl

theorem stepStable_drawBackground {env : Env} {P : Image → Prop} (hs : StepStable env P)
    (s : List Char) (i : Image) (h : P i) : P (i.drawBackground env s) := by
  unfold Image.drawBackground
  dsimp only
  rw [fillLoop_eq]
  exact hs.setPix _ _ h

theorem stepStable_drawBackgroundAll {env : Env} {P : Image → Prop} (hs : StepStable env P)
    (i : Image) (h : P i) : P i.drawBackgroundAll := by
  unfold Image.drawBackgroundAll
  dsimp only
  rw [fillLoop_eq]
  exact hs.setPix _ _ h

theorem stepStable_bgRunes {env : Env} {P : Image → Prop} (hs : StepStable env P)
    (rs : List Char) (i : Image) (h : P i) : P (bgRunes env rs i) := by
  induction rs generalizing i with
  | nil => exact h
  | cons r rs ih =>
    unfold bgRunes
    split
    · exact ih _ (hs.moveDown _ h)
    · exact ih _ (hs.moveRight _ _ h)

theorem stepStable_backgroundPass {env : Env} {P : Image → Prop} (hs : StepStable env P)
    (tokens : Tokens) (i : Image) (h : P i) : P (backgroundPass env tokens i) := by
  unfold backgroundPass
  induction tokens generalizing i with
  | nil => exact h
  | cons t ts ih =>
    simp only [List.foldl_cons]
    apply ih
    unfold bgToken
    split
    · exact hs.updateColor _ _ _ h
    · exact stepStable_bgRunes hs _ _ (stepStable_drawBackground hs _ _ h)
    · exact h

theorem stepStable_draw {env : Env} {P : Image → Prop} (hs : StepStable env P)
    (i i1 : Image) (r : Char) (hd : i.draw env r = .ok i1) (h : P i) : P i1 := by
  unfold Image.draw at hd
  split at hd
  · split at hd
    · cases hd
      exact hs.setPix _ _ h
    · unfold Image.drawEmoji at hd
      split at hd
      · cases hd
      · split at hd
        · cases hd
        · dsimp only at hd
          split at hd
          · cases hd
          · cases hd
            exact hs.setPix _ _ h
  · cases hd
    exact hs.setPix _ _ h

theorem stepStable_fgRunes {env : Env} {P : Image → Prop} (hs : StepStable env P)
    (rs : List Char) (i : Image) (h : P i) : P (fgRunes env rs i).1 := by
  induction rs generalizing i with
  | nil => exact h
  | cons r rs ih =>
    unfold fgRunes
    split
    · exact ih _ (hs.moveDown _ h)
    · split
      · exact h
      · rename_i i1 hd
        exact ih _ (hs.moveRight _ _ (stepStable_draw hs i i1 r hd h))

theorem stepStable_foregroundPass {env : Env} {P : Image → Prop} (hs : StepStable env P)
    (tokens : Tokens) (i : Image) (h : P i) : P (foregroundPass env tokens i).1 := by
  induction tokens generalizing i with
  | nil => exact h
  | cons t ts ih =>
    unfold foregroundPass
    have ht : P (fgToken env i t).1 := by
      unfold fgToken
      split
      · exact hs.updateColor _ _ _ h
      · exact stepStable_fgRunes hs _ _ h
      · exact h
    split
    · rename_i i1 e he
      rw [he] at ht
      exact ht
    · rename_i i1 he
      rw [he] at ht
      exact ht |> ih _

/-! ## The end of `Draw` -/

theorem flamesLoop_frame (env : Env) (w h : Int) (rcs : List Int) (i : Image) :
    (flamesLoop env w h rcs i).1 =
      { i with animationImages := (flamesLoop env w h rcs i).1.animationImages } := by
  induction rcs generalizing i with
  | nil => rfl
  | cons rc rest ih =>
    unfold flamesLoop
    dsimp only
    split
    · rfl
    · split
      · rfl
      · rw [ih]

theorem setAnimationFlames_frame (env : Env) (i : Image) :
    (i.setAnimationFlames env).1 =
      { i with animationImages := (i.setAnimationFlames env).1.animationImages } := by
  unfold Image.setAnimationFlames
  dsimp only
  split
  · split
    · rfl
    · exact flamesLoop_frame env _ _ _ i
  · rfl

theorem scale_frame (env : Env) (i j : Image) (h : i.scale env = some j) :
    j = { i with image := j.image, animationImages := j.animationImages } := by
  unfold Image.scale at h
  split at h
  · cases h
    rfl
  · split at h
    · cases h
    · simp only [Option.map_eq_some'] at h
      obtain ⟨l, _, rfl⟩ := h
      rfl

/-- The state in which `Draw` ends is that of the foreground pass, but for the
canvas and the frames. -/
theorem Draw_frame (env : Env) (i : Image) (tokens : Tokens) :
    (i.Draw env tokens).1 =
      { (foregroundPass env tokens (afterBackground env tokens i)).1 with
        image := (i.Draw env tokens).1.image
        animationImages := (i.Draw env tokens).1.animationImages } := by
  unfold Image.Draw
  rcases hf : foregroundPass env tokens (afterBackground env tokens i) with ⟨j, oe⟩
  cases oe with
  | some e =>
    cases e <;> rfl
  | none =>
    simp only
    have h := setAnimationFlames_frame env j
    rcases hs : j.setAnimationFlames env with ⟨j2, o⟩
    rw [hs] at h
    simp only at h
    cases o with
    | ok =>
      simp only
      cases hsc : j2.scale env with
      | none =>
        simp only
        rw [h]
      | some j3 =>
        simp only
        rw [scale_frame env j2 j3 hsc, h]
    | err e =>
      simp only
      rw [h]
    | panic =>
      simp only
      rw [h]

theorem Draw_ok_foreground (env : Env) (i : Image) (tokens : Tokens)
    (h : (i.Draw env tokens).2 = .ok) :
    (foregroundPass env tokens (afterBackground env tokens i)).2 = none := by
  unfold Image.Draw at h
  rcases hf : foregroundPass env tokens (afterBackground env tokens i) with ⟨j, oe⟩
  rw [hf] at h
  cases oe with
  | some e => cases e <;> cases h
  | none => rfl

/-! ## C11: the color directives -/

/-- C11: `updateColor(kind, col)` changes the color state exactly as follows
and nothing else of the state (cursor, line count, defaults, canvas, frames):
set-foreground sets the current foreground to `col`, set-background sets the
current background to `col`, reset-foreground restores only the current
foreground to its default, reset-background restores only the current
background to its default, reverse swaps the two current colors, reset restores
both to their defaults, bold and every unrecognised kind leave the whole state
unchanged.  The operation is total: no kind is rejected. -/
theorem updateColor_cases (i : Image) (col : Color) :
    i.updateColor .ColorTypeForeground col = { i with foregroundColor := col } ∧
    i.updateColor .ColorTypeBackground col = { i with backgroundColor := col } ∧
    i.updateColor .ColorTypeResetForeground col =
      { i with foregroundColor := i.defaultForegroundColor } ∧
    i.updateColor .ColorTypeResetBackground col =
      { i with backgroundColor := i.defaultBackgroundColor } ∧
    i.updateColor .ColorTypeReverse col =
      { i with foregroundColor := i.backgroundColor, backgroundColor := i.foregroundColor } ∧
    i.updateColor .ColorTypeReset col =
      { i with foregroundColor := i.defaultForegroundColor,
               backgroundColor := i.defaultBackgroundColor } ∧
    i.updateColor .ColorTypeBold col = i ∧
    ∀ n, i.updateColor (.ColorTypeOther n) col = i :=
  ⟨rfl, rfl, rfl, rfl, rfl, rfl, rfl, fun _ => rfl⟩

/-! ## C17: the paths of `draw` -/

theorem draw_of_emoji (env : Env) (i : Image) (r : Char)
    (h1 : (env.isEmoji r i.emojiDir).1 = true) (h2 : i.useEmoji = false) :
    i.draw env r = i.drawEmoji env r (env.isEmoji r i.emojiDir).2 := by
  unfold Image.draw
  rcases hq : env.isEmoji r i.emojiDir with ⟨ok, path⟩
  rw [hq] at h1
  simp only at h1
  subst h1
  simp only [h2, Bool.false_eq_true, if_false]

theorem draw_of_not_emoji (env : Env) (i : Image) (r : Char)
    (h : (env.isEmoji r i.emojiDir).1 = false) :
    i.draw env r = .ok (i.drawRune env r i.fontFace) := by
  unfold Image.draw
  rcases hq : env.isEmoji r i.emojiDir with ⟨ok, path⟩
  rw [hq] at h
  simp only at h
  subst h
  rfl

/-- C17: `draw(r)` chooses its path as follows.  If `r` maps to an emoji
resource and `useEmoji` is set, `r` is drawn with the emoji font face and no
error is returned.  If `r` maps to an emoji resource and `useEmoji` is not set,
`draw` returns the error of `os.Open`, else the error of `image.Decode`; else
the decoded image is rescaled to a square of side
`int(float64(ascent + descent) * 0.9)` and composited with `draw.Over` on the
canvas, its top-left corner at the dot of the drawer moved up by the ascent,
and no error is returned (the call panics when the square cannot be
allocated).  Otherwise `r` is drawn with the primary font face and no error is
returned.  Drawing with a face is `DrawString` on the canvas with the current
foreground color and the dot of `newDrawer`.  In no case does `draw` change
anything but the canvas: cursor, line count and colors are as before. -/
theorem draw_paths (env : Env) (i : Image) (r : Char) :
    ((env.isEmoji r i.emojiDir).1 = true → i.useEmoji = true →
      i.draw env r = .ok (i.drawRune env r i.emojiFontFace)) ∧
    ((env.isEmoji r i.emojiDir).1 = true → i.useEmoji = false →
      (∀ e, env.osOpen (env.isEmoji r i.emojiDir).2 = some e →
        i.draw env r = .error (.err e)) ∧
      (∀ e, env.osOpen (env.isEmoji r i.emojiDir).2 = none →
        env.imageDecode (env.isEmoji r i.emojiDir).2 = .error e →
        i.draw env r = .error (.err e)) ∧
      (∀ m, env.osOpen (env.isEmoji r i.emojiDir).2 = none →
        env.imageDecode (env.isEmoji r i.emojiDir).2 = .ok m →
        (NewRGBA (Rect 0 0 (emojiSize env i.fontFace) (emojiSize env i.fontFace)) = none →
          i.draw env r = .error .panic) ∧
        ((NewRGBA (Rect 0 0 (emojiSize env i.fontFace) (emojiSize env i.fontFace))).isSome =
            true →
          i.draw env r = .ok { i with
            image := drawOver i.image
              ((Rect 0 0 (emojiSize env i.fontFace) (emojiSize env i.fontFace)).Add
                (emojiOrigin env i))
              { blankCanvas (Rect 0 0 (emojiSize env i.fontFace) (emojiSize env i.fontFace)) with
                Pix := env.ApproxBiLinear
                  (blankCanvas (Rect 0 0 (emojiSize env i.fontFace) (emojiSize env i.fontFace)))
                  (Rect 0 0 (emojiSize env i.fontFace) (emojiSize env i.fontFace)) m }
              ⟨0, 0⟩ }))) ∧
    ((env.isEmoji r i.emojiDir).1 = false →
      i.draw env r = .ok (i.drawRune env r i.fontFace)) ∧
    (∀ f : Face,
      i.drawRune env r f =
        { i with image := { i.image with
            Pix := env.DrawString ⟨i.image, i.foregroundColor, f, (i.newDrawer f).Dot⟩ r } }) ∧
    (∀ i1, i.draw env r = .ok i1 → i1 = { i with image := i1.image }) := by
  refine ⟨fun h1 h2 => ?_, fun h1 h2 => ?_, fun h1 => draw_of_not_emoji env i r h1,
    fun f => rfl, fun i1 h => draw_ok_eq env i i1 r h⟩
  · unfold Image.draw
    rcases hq : env.isEmoji r i.emojiDir with ⟨ok, path⟩
    rw [hq] at h1
    simp only at h1
    subst h1
    simp only [h2, if_true]
  · have hd := draw_of_emoji env i r h1 h2
    refine ⟨fun e ho => ?_, fun e ho hdec => ?_, fun m ho hdec => ⟨fun hn => ?_, fun hs => ?_⟩⟩
    · rw [hd]
      unfold Image.drawEmoji
      rw [ho]
    · rw [hd]
      unfold Image.drawEmoji
      rw [ho, hdec]
    · rw [hd]
      unfold Image.drawEmoji
      rw [ho, hdec]
      unfold emojiSize at hn
      simp only [Image.newDrawer, hn]
    · rw [hd]
      obtain ⟨c, hc⟩ := Option.isSome_iff_exists.1 hs
      have hcb := NewRGBA_eq _ _ hc
      unfold Image.drawEmoji
      rw [ho, hdec]
      unfold emojiSize at hc hcb
      simp only [Image.newDrawer, hc]
      rw [hcb]
      rfl

set_option maxRecDepth 100000 in
/-- C17 for the star, which maps to an emoji resource that decodes to one red
pixel, with `useEmoji` not set, on a fresh image of 2 by 1 cells with font size
2: `draw` returns no error, the pixel (0, 0) of the canvas is red and the pixel
(1, 0) is as before. -/
theorem draw_paths_witness :
    ∃ i1, (built (demoParam 2 1 2) (by decide)).draw emojiEnv (Char.ofNat 9733) = .ok i1 ∧
      i1.image.At 0 0 = red ∧ i1.image.At 1 0 = Color.zero :=
  ⟨_, (((draw_paths emojiEnv (built (demoParam 2 1 2) (by decide)) (Char.ofNat 9733)).2.1
    (by decide) (by decide)).2.2 _ rfl rfl).2 (by decide), by decide, by decide⟩

/-! ## C5: errors of `Draw` -/

theorem draw_failure_iff (env : Env) (i : Image) (r : Char) (f : Failure) :
    i.draw env r = .error f ↔ glyphFailure env i.emojiDir i.useEmoji i.fontFace r = some f := by
  unfold Image.draw glyphFailure Image.drawEmoji emojiSize
  rcases h : env.isEmoji r i.emojiDir with ⟨ok, path⟩
  cases ok
  · simp
  · cases hu : i.useEmoji
    · simp only [Bool.false_eq_true, if_false, and_self, if_true]
      cases env.osOpen path with
      | some e1 => simp
      | none =>
        simp only
        cases env.imageDecode path with
        | error e1 => simp
        | ok m =>
          simp only [Image.newDrawer]
          cases hn : NewRGBA (Rect 0 0
            ((Float64.ofInt (wrap64 (env.AscentFloor i.fontFace +
              env.DescentFloor i.fontFace))).mul f64_0_9).toInt
            ((Float64.ofInt (wrap64 (env.AscentFloor i.fontFace +
              env.DescentFloor i.fontFace))).mul f64_0_9).toInt) with
          | none =>
            simp only [Option.isSome_none, Bool.false_eq_true, if_false, Option.some.injEq]
            constructor
            · intro h1
              cases h1
              rfl
            · intro h1
              rw [h1]
          | some c => simp
    · simp

theorem draw_ok_of_no_failure (env : Env) (i : Image) (r : Char)
    (h : glyphFailure env i.emojiDir i.useEmoji i.fontFace r = none) :
    ∃ i1, i.draw env r = .ok i1 := by
  cases hd : i.draw env r with
  | error e =>
    rw [(draw_failure_iff env i r e).1 hd] at h
    cases h
  | ok i1 => exact ⟨i1, rfl⟩

theorem emoji_PassStable (env : Env) (d : String) (u : Bool) (f : Face) :
    PassStable env (fun j => j.emojiDir = d ∧ j.useEmoji = u ∧ j.fontFace = f) :=
  { updateColor := fun _ t _ h => by cases t <;> exact h
    resetColor := fun _ h => h
    resetPosition := fun _ h => h
    moveDown := fun _ h => h
    moveRight := fun _ _ h => h
    setImage := fun _ _ h => h }

theorem flames_PassStable (env : Env) (l : List Canvas) :
    PassStable env (fun j => j.animationImages = l) :=
  { updateColor := fun _ t _ h => by cases t <;> exact h
    resetColor := fun _ h => h
    resetPosition := fun _ h => h
    moveDown := fun _ h => h
    moveRight := fun _ _ h => h
    setImage := fun _ _ h => h }

theorem fgRunes_append (env : Env) (a b : List Char) (i : Image) :
    fgRunes env (a ++ b) i =
      match fgRunes env a i with
      | (i1, some e) => (i1, some e)
      | (i1, none) => fgRunes env b i1 := by
  induction a generalizing i with
  | nil => rfl
  | cons r rs ih =>
    simp only [List.cons_append, fgRunes]
    split
    · exact ih _
    · split
      · rfl
      · exact ih _

theorem fgRunes_failure (env : Env) (rs : List Char) (i : Image) :
    (fgRunes env rs i).2 =
      (rs.filter (fun r => !env.isLinefeed r)).findSome?
        (glyphFailure env i.emojiDir i.useEmoji i.fontFace) := by
  induction rs generalizing i with
  | nil => rfl
  | cons r rs ih =>
    unfold fgRunes
    by_cases hl : env.isLinefeed r = true
    · rw [if_pos hl, ih]
      simp only [List.filter_cons, hl, Bool.not_true, Bool.false_eq_true, if_false]
      rfl
    · rw [if_neg hl]
      have hl2 : env.isLinefeed r = false := by simpa using hl
      simp only [List.filter_cons, hl2, Bool.not_false, if_true, List.findSome?_cons]
      cases hd : i.draw env r with
      | error e =>
        rw [(draw_failure_iff env i r e).1 hd]
      | ok i1 =>
        have hnone : glyphFailure env i.emojiDir i.useEmoji i.fontFace r = none := by
          cases hg : glyphFailure env i.emojiDir i.useEmoji i.fontFace r with
          | none => rfl
          | some e =>
            rw [(draw_failure_iff env i r e).2 hg] at hd
            cases hd
        rw [hnone]
        simp only
        rw [ih]
        have e := draw_ok_eq env i i1 r hd
        have h1 : i1.emojiDir = i.emojiDir := by
          have h := congrArg Image.emojiDir e
          exact h
        have h2 : i1.useEmoji = i.useEmoji := by
          have h := congrArg Image.useEmoji e
          exact h
        have h3 : i1.fontFace = i.fontFace := by
          have h := congrArg Image.fontFace e
          exact h
        show List.findSome? (glyphFailure env i1.emojiDir i1.useEmoji i1.fontFace) _ = _
        rw [h1, h2, h3]

theorem foregroundPass_failure (env : Env) (tokens : Tokens) (i : Image) :
    (foregroundPass env tokens i).2 =
      (glyphRunes env tokens).findSome?
        (glyphFailure env i.emojiDir i.useEmoji i.fontFace) := by
  induction tokens generalizing i with
  | nil => rfl
  | cons t ts ih =>
    unfold foregroundPass glyphRunes
    rw [List.findSome?_append]
    have hst := (emoji_PassStable env i.emojiDir i.useEmoji i.fontFace)
    have htok : (fgToken env i t).2 =
        (match t.Kind with
          | .KindText => t.Text.filter (fun r => !env.isLinefeed r)
          | _ => []).findSome? (glyphFailure env i.emojiDir i.useEmoji i.fontFace) := by
      unfold fgToken
      cases t.Kind with
      | KindColor => rfl
      | KindText => exact fgRunes_failure env t.Text i
      | KindOther n => rfl
    have hcfg : (fgToken env i t).1.emojiDir = i.emojiDir ∧
        (fgToken env i t).1.useEmoji = i.useEmoji ∧
        (fgToken env i t).1.fontFace = i.fontFace := by
      unfold fgToken
      cases t.Kind with
      | KindColor => exact hst.updateColor i _ _ ⟨rfl, rfl, rfl⟩
      | KindText => exact hst.fgRunes t.Text i ⟨rfl, rfl, rfl⟩
      | KindOther n => exact ⟨rfl, rfl, rfl⟩
    rw [← htok]
    rcases hft : fgToken env i t with ⟨i1, oe⟩
    rw [hft] at hcfg
    cases oe with
    | some e => rfl
    | none =>
      simp only [Option.none_or]
      rw [ih, hcfg.1, hcfg.2.1, hcfg.2.2]

theorem intRange_cons (lo hi : Int) (h : lo < hi) :
    intRange lo hi = lo :: intRange (lo + 1) hi := by
  unfold intRange
  obtain ⟨n, hn⟩ : ∃ n : Nat, (hi - lo).toNat = n + 1 := ⟨(hi - lo).toNat - 1, by omega⟩
  have h2 : (hi - (lo + 1)).toNat = n := by omega
  rw [hn, h2, List.range_succ_eq_map]
  simp only [List.map_cons, List.map_map, Nat.cast_zero, Int.add_zero]
  congr 1
  apply List.map_congr_left
  intro k _
  simp only [Function.comp, Nat.cast_succ]
  omega

theorem intRange_nil (lo hi : Int) (h : hi ≤ lo) : intRange lo hi = [] := by
  unfold intRange
  have : (hi - lo).toNat = 0 := by omega
  rw [this]
  rfl

/-- The slicer loop over the rows `lo, lo + 1, ..., hi - 1` returns the error
`e` exactly when some crop of the sequence fails with `e`, every crop before it
succeeds, and, if it is not the first one, the frames can be allocated. -/
theorem flamesLoop_err_iff (env : Env) (w h : Int) (e : Error) (n : Nat) :
    ∀ (lo : Int) (i : Image),
      (flamesLoop env w h (intRange lo (lo + n)) i).2 = .err e ↔
        ∃ k : Nat, k < n ∧
          env.Crop i.image w h ⟨0, wrap64 ((lo + k) * h)⟩ = .error e ∧
          (∀ k2 : Nat, k2 < k →
            ∃ c, env.Crop i.image w h ⟨0, wrap64 ((lo + k2) * h)⟩ = .ok c) ∧
          (0 < k → (NewRGBA ⟨⟨0, 0⟩, ⟨w, h⟩⟩).isSome = true) := by
  induction n with
  | zero =>
    intro lo i
    rw [intRange_nil _ _ (by simp)]
    unfold flamesLoop
    simp
  | succ n ih =>
    intro lo i
    rw [intRange_cons lo (lo + (n + 1 : Nat)) (by push_cast; omega)]
    have hhi : lo + ((n + 1 : Nat) : Int) = lo + 1 + (n : Int) := by push_cast; omega
    rw [hhi]
    unfold flamesLoop
    dsimp only
    cases hc : env.Crop i.image w h ⟨0, wrap64 (lo * h)⟩ with
    | error e1 =>
      simp only
      constructor
      · intro he
        cases he
        refine ⟨0, by omega, ?_, fun k2 hk2 => by omega, fun h0 => by omega⟩
        simp only [Nat.cast_zero, Int.add_zero]
        exact hc
      · rintro ⟨k, _, hk, hbefore, _⟩
        cases k with
        | zero =>
          simp only [Nat.cast_zero, Int.add_zero] at hk
          rw [hc] at hk
          cases hk
          rfl
        | succ k =>
          obtain ⟨c, hc2⟩ := hbefore 0 (by omega)
          simp only [Nat.cast_zero, Int.add_zero] at hc2
          rw [hc] at hc2
          cases hc2
    | ok cimg =>
      simp only
      cases hn : NewRGBA ⟨⟨0, 0⟩, ⟨w, h⟩⟩ with
      | none =>
        simp only
        constructor
        · intro he
          cases he
        · rintro ⟨k, _, hk, _, halloc⟩
          cases k with
          | zero =>
            simp only [Nat.cast_zero, Int.add_zero] at hk
            rw [hc] at hk
            cases hk
          | succ k =>
            have := halloc (by omega)
            simp at this
      | some dist =>
        simp only
        rw [ih (lo + 1)]
        constructor
        · rintro ⟨k, hk1, hk2, hk3, _⟩
          refine ⟨k + 1, by omega, ?_, fun k2 hk => ?_, fun _ => rfl⟩
          · have e1 : lo + ((k + 1 : Nat) : Int) = lo + 1 + (k : Int) := by push_cast; omega
            rw [e1]
            exact hk2
          · cases k2 with
            | zero =>
              simp only [Nat.cast_zero, Int.add_zero]
              exact ⟨cimg, hc⟩
            | succ k2 =>
              have e1 : lo + ((k2 + 1 : Nat) : Int) = lo + 1 + (k2 : Int) := by
                push_cast; omega
              rw [e1]
              exact hk3 k2 (by omega)
        · rintro ⟨k, hk1, hk2, hk3, _⟩
          cases k with
          | zero =>
            simp only [Nat.cast_zero, Int.add_zero] at hk2
            rw [hc] at hk2
            cases hk2
          | succ k =>
            refine ⟨k, by omega, ?_, fun k2 hk => ?_, fun _ => by rw [hn]; rfl⟩
            · have e1 : lo + ((k + 1 : Nat) : Int) = lo + 1 + (k : Int) := by push_cast; omega
              rw [← e1]
              exact hk2
            · have e1 : lo + ((k2 + 1 : Nat) : Int) = lo + 1 + (k2 : Int) := by
                push_cast; omega
              rw [← e1]
              exact hk3 (k2 + 1) (by omega)

theorem setAnimationFlames_err_iff (env : Env) (j : Image) (e : Error) :
    (j.setAnimationFlames env).2 = .err e ↔
      j.useAnimation = true ∧ j.animationImageFlameHeight ≠ 0 ∧
      ∃ k : Nat,
        (k : Int) < wrap64 (Int.tdiv j.image.Bounds.Max.Y j.animationImageFlameHeight) ∧
        env.Crop j.image j.image.Bounds.Max.X j.animationImageFlameHeight
          ⟨0, wrap64 ((k : Int) * j.animationImageFlameHeight)⟩ = .error e ∧
        (∀ k2 : Nat, k2 < k →
          ∃ c, env.Crop j.image j.image.Bounds.Max.X j.animationImageFlameHeight
            ⟨0, wrap64 ((k2 : Int) * j.animationImageFlameHeight)⟩ = .ok c) ∧
        (0 < k →
          (NewRGBA ⟨⟨0, 0⟩, ⟨j.image.Bounds.Max.X, j.animationImageFlameHeight⟩⟩).isSome =
            true) := by
  unfold Image.setAnimationFlames goDiv
  by_cases hu : j.useAnimation = true
  · rw [if_pos hu]
    by_cases hz : j.animationImageFlameHeight = 0
    · simp only [hz, if_true]
      constructor
      · intro h
        cases h
      · rintro ⟨_, h, _⟩
        exact absurd rfl h
    · simp only [if_neg hz]
      generalize hmax : wrap64 (Int.tdiv j.image.Bounds.Max.Y j.animationImageFlameHeight) = mx
      by_cases hpos : 0 < mx
      · obtain ⟨n, rfl⟩ : ∃ n : Nat, mx = (n : Int) := ⟨mx.toNat, by omega⟩
        have h0 : ((n : Int)) = 0 + (n : Int) := by omega
        rw [h0, flamesLoop_err_iff env _ _ e n 0 j]
        simp only [Int.zero_add]
        constructor
        · rintro ⟨k, hk, h1, h2, h3⟩
          exact ⟨hu, hz, k, by omega, h1, h2, h3⟩
        · rintro ⟨_, _, k, hk, h1, h2, h3⟩
          exact ⟨k, by omega, h1, h2, h3⟩
      · rw [intRange_nil _ _ (by omega)]
        unfold flamesLoop
        constructor
        · intro h
          cases h
        · rintro ⟨_, _, k, hk, _⟩
          omega
  · rw [if_neg hu]
    constructor
    · intro h
      cases h
    · rintro ⟨h, _⟩
      exact absurd h hu

theorem afterBackground_emoji (env : Env) (tokens : Tokens) (i : Image) :
    (afterBackground env tokens i).emojiDir = i.emojiDir ∧
      (afterBackground env tokens i).useEmoji = i.useEmoji ∧
      (afterBackground env tokens i).fontFace = i.fontFace :=
  (emoji_PassStable env i.emojiDir i.useEmoji i.fontFace).afterBackground tokens i
    ⟨rfl, rfl, rfl⟩

theorem Draw_of_glyph_error (env : Env) (i : Image) (tokens : Tokens) (j : Image) (e : Error)
    (h : foregroundPass env tokens (afterBackground env tokens i) = (j, some (.err e))) :
    i.Draw env tokens = (j, .err e) := by
  unfold Image.Draw
  rw [h]

theorem Draw_of_glyph_panic (env : Env) (i : Image) (tokens : Tokens) (j : Image)
    (h : foregroundPass env tokens (afterBackground env tokens i) = (j, some .panic)) :
    i.Draw env tokens = (j, .panic) := by
  unfold Image.Draw
  rw [h]

theorem Draw_of_no_glyph_error (env : Env) (i : Image) (tokens : Tokens) (j : Image)
    (h : foregroundPass env tokens (afterBackground env tokens i) = (j, none)) (e : Error) :
    (i.Draw env tokens).2 = .err e ↔ (j.setAnimationFlames env).2 = .err e := by
  unfold Image.Draw
  rw [h]
  simp only
  rcases hs : j.setAnimationFlames env with ⟨j2, o⟩
  cases o with
  | ok =>
    simp only
    cases j2.scale env <;> simp
  | err e1 => simp
  | panic => simp

/-- C5: `Draw` returns the error `e` exactly when `e` is the error of the first
rune, in stream order, on which glyph drawing fails, or no glyph fails and
frame cropping fails with `e`.  Frame cropping fails with `e` exactly when
animation is on, the frame height is not zero, and for some `k` below the
number of frames the crop of frame `k` returns `e` while every crop before it
succeeded (and the frames before it could be allocated).  When the rune `r` of
the text run `t` is the first one to fail, the foreground pass reaches it
without error and `Draw` ends in the state of the foreground pass just before
`r`, with the error of `r`: no later rune is drawn, the list of animation
frames is as before the call, and the canvas is not rescaled. -/
theorem Draw_error_policy (env : Env) (i : Image) (tokens : Tokens) :
    (∀ e, (i.Draw env tokens).2 = .err e ↔
      ((glyphRunes env tokens).findSome? (glyphFailure env i.emojiDir i.useEmoji i.fontFace) =
          some (.err e) ∨
        ((glyphRunes env tokens).findSome? (glyphFailure env i.emojiDir i.useEmoji i.fontFace) =
            none ∧
          ((foregroundPass env tokens (afterBackground env tokens i)).1.setAnimationFlames
            env).2 = .err e))) ∧
    (∀ (j : Image) (e : Error), (j.setAnimationFlames env).2 = .err e ↔
      j.useAnimation = true ∧ j.animationImageFlameHeight ≠ 0 ∧
      ∃ k : Nat,
        (k : Int) < wrap64 (Int.tdiv j.image.Bounds.Max.Y j.animationImageFlameHeight) ∧
        env.Crop j.image j.image.Bounds.Max.X j.animationImageFlameHeight
          ⟨0, wrap64 ((k : Int) * j.animationImageFlameHeight)⟩ = .error e ∧
        (∀ k2 : Nat, k2 < k →
          ∃ c, env.Crop j.image j.image.Bounds.Max.X j.animationImageFlameHeight
            ⟨0, wrap64 ((k2 : Int) * j.animationImageFlameHeight)⟩ = .ok c) ∧
        (0 < k →
          (NewRGBA ⟨⟨0, 0⟩, ⟨j.image.Bounds.Max.X, j.animationImageFlameHeight⟩⟩).isSome =
            true)) ∧
    (∀ (pre : Tokens) (t : Token) (post : Tokens) (s1 : List Char) (r : Char)
      (s2 : List Char) (e : Error),
      tokens = pre ++ t :: post → t.Kind = .KindText → t.Text = s1 ++ r :: s2 →
      env.isLinefeed r = false →
      (∀ q ∈ glyphRunes env (pre ++ [{ t with Text := s1 }]),
        glyphFailure env i.emojiDir i.useEmoji i.fontFace q = none) →
      glyphFailure env i.emojiDir i.useEmoji i.fontFace r = some (.err e) →
      (foregroundPass env (pre ++ [{ t with Text := s1 }])
        (afterBackground env tokens i)).2 = none ∧
      i.Draw env tokens =
        ((foregroundPass env (pre ++ [{ t with Text := s1 }])
          (afterBackground env tokens i)).1, .err e) ∧
      (i.Draw env tokens).1.animationImages = i.animationImages) := by
  obtain ⟨hed, heu, hef⟩ := afterBackground_emoji env tokens i
  have herr := foregroundPass_failure env tokens (afterBackground env tokens i)
  rw [hed, heu, hef] at herr
  refine ⟨fun e => ?_, fun j e => setAnimationFlames_err_iff env j e, ?_⟩
  · rcases hfp : foregroundPass env tokens (afterBackground env tokens i) with ⟨j, oe⟩
    rw [hfp] at herr
    simp only at herr
    rw [← herr]
    cases oe with
    | some f =>
      cases f with
      | err e1 =>
        rw [Draw_of_glyph_error env i tokens j e1 hfp]
        simp
      | panic =>
        rw [Draw_of_glyph_panic env i tokens j hfp]
        simp
    | none =>
      rw [Draw_of_no_glyph_error env i tokens j hfp e]
      simp
  · intro pre t post s1 r s2 e htok hkind htext hlf hbefore hfail
    have hpre : (foregroundPass env (pre ++ [{ t with Text := s1 }])
        (afterBackground env tokens i)).2 = none := by
      rw [foregroundPass_failure, hed, heu, hef, List.findSome?_eq_none_iff]
      exact hbefore
    -- the state of the foreground pass after `pre`
    have hsplit := foregroundPass_append env pre [{ t with Text := s1 }]
      (afterBackground env tokens i)
    rcases hp : foregroundPass env pre (afterBackground env tokens i) with ⟨j1, oe⟩
    rw [hp] at hsplit
    cases oe with
    | some e1 =>
      simp only at hsplit
      rw [hsplit] at hpre
      cases hpre
    | none =>
      simp only at hsplit
      have hone : foregroundPass env [{ t with Text := s1 }] j1 = fgRunes env s1 j1 := by
        unfold foregroundPass fgToken
        simp only [hkind]
        rcases fgRunes env s1 j1 with ⟨a, b⟩
        cases b <;> rfl
      rw [hone] at hsplit
      rcases hr1 : fgRunes env s1 j1 with ⟨j2, oe2⟩
      rw [hr1] at hsplit
      rw [hsplit] at hpre
      simp only at hpre
      subst hpre
      -- the failing rune
      have hj1 : j1.emojiDir = i.emojiDir ∧ j1.useEmoji = i.useEmoji ∧
          j1.fontFace = i.fontFace := by
        have h := (emoji_PassStable env i.emojiDir i.useEmoji i.fontFace).foregroundPass pre
          (afterBackground env tokens i) ⟨hed, heu, hef⟩
        rw [hp] at h
        exact h
      have hj2 : j2.emojiDir = i.emojiDir ∧ j2.useEmoji = i.useEmoji ∧
          j2.fontFace = i.fontFace := by
        have h := (emoji_PassStable env i.emojiDir i.useEmoji i.fontFace).fgRunes s1 j1 hj1
        rw [hr1] at h
        exact h
      have hdraw : j2.draw env r = .error (.err e) := by
        rw [draw_failure_iff, hj2.1, hj2.2.1, hj2.2.2]
        exact hfail
      have hrest : fgRunes env (r :: s2) j2 = (j2, some (.err e)) := by
        unfold fgRunes
        simp only [hlf, Bool.false_eq_true, if_false, hdraw]
      have hrun : fgRunes env t.Text j1 = (j2, some (.err e)) := by
        rw [htext, fgRunes_append, hr1]
        exact hrest
      have hfull : foregroundPass env tokens (afterBackground env tokens i) =
          (j2, some (.err e)) := by
        have h1 : foregroundPass env (pre ++ t :: post) (afterBackground env tokens i) =
            (j2, some (.err e)) := by
          rw [foregroundPass_append, hp]
          simp only
          unfold foregroundPass fgToken
          simp only [hkind, hrun]
        rw [← htok] at h1
        exact h1
      have hD := Draw_of_glyph_error env i tokens j2 e hfull
      rw [hsplit]
      refine ⟨rfl, hD, ?_⟩
      rw [hD]
      have h := (flames_PassStable env i.animationImages).foregroundPass tokens
        (afterBackground env tokens i)
        ((flames_PassStable env i.animationImages).afterBackground tokens i rfl)
      rw [hfull] at h
      exact h

set_option maxRecDepth 100000 in
/-- C5 on the stream "a", then the run "b", star, "c": the star fails, `Draw`
returns its error in the state reached after "a" and "b". -/
theorem Draw_error_policy_witness :
    (built (demoParam 4 1 2) (by decide)).Draw starEnv
        [textToken [(Char.ofNat 97)],
          textToken [(Char.ofNat 98), (Char.ofNat 9733), (Char.ofNat 99)]] =
      ((foregroundPass starEnv
          ([textToken [(Char.ofNat 97)]] ++
            [{ textToken [(Char.ofNat 98), (Char.ofNat 9733), (Char.ofNat 99)] with
                Text := [(Char.ofNat 98)] }])
          (afterBackground starEnv
            [textToken [(Char.ofNat 97)],
              textToken [(Char.ofNat 98), (Char.ofNat 9733), (Char.ofNat 99)]]
            (built (demoParam 4 1 2) (by decide)))).1,
        .err ⟨"open: no such file"⟩) :=
  ((Draw_error_policy starEnv (built (demoParam 4 1 2) (by decide))
      [textToken [(Char.ofNat 97)],
        textToken [(Char.ofNat 98), (Char.ofNat 9733), (Char.ofNat 99)]]).2.2
    [textToken [(Char.ofNat 97)]]
    (textToken [(Char.ofNat 98), (Char.ofNat 9733), (Char.ofNat 99)]) []
    [(Char.ofNat 98)] (Char.ofNat 9733) [(Char.ofNat 99)] ⟨"open: no such file"⟩
    rfl rfl rfl (by decide) (by decide) (by decide)).2.1

/-! ## C6: the animation slicer -/

theorem overChannel_zero (s sa : Fin 256) : overChannel s sa 0 = s := by
  unfold overChannel
  apply Fin.ext
  have h := s.isLt
  have h1 : s.val * 257 / 256 = s.val := by omega
  simp only [Fin.ofNat, Fin.val_zero, Nat.zero_mul, Nat.zero_div, Nat.zero_add, h1]
  exact Nat.mod_eq_of_lt h

theorem over_zero (s : Color) : over s Color.zero = s := by
  unfold over Color.zero
  simp only [overChannel_zero]

theorem demoEnv_CropCopies (img : Canvas) : CropCopies demoEnv img := by
  intro w h pt _ _ h1 h2 h3 h4
  refine ⟨_, rfl, fun x y hx1 hx2 hy1 hy2 => ?_⟩
  unfold Canvas.At
  have ha : Point.In ⟨x, y⟩ ⟨pt, ⟨pt.X + w, pt.Y + h⟩⟩ = true :=
    (In_iff _ _ _).2 ⟨⟨hx1, hx2⟩, ⟨hy1, hy2⟩⟩
  have hb : Point.In ⟨x, y⟩ img.Rect = true :=
    (In_iff _ _ _).2 ⟨⟨le_trans h1 hx1, lt_of_lt_of_le hx2 h2⟩,
      ⟨le_trans h3 hy1, lt_of_lt_of_le hy2 h4⟩⟩
  rw [if_pos ha, if_pos hb]

theorem flameOf_At (w h : Int) (cimg : Canvas) (pt : Point) (x y : Int)
    (hx : 0 ≤ x ∧ x < w) (hy : 0 ≤ y ∧ y < h) :
    (flameOf w h cimg pt).At x y = cimg.At (x + pt.X) (y + pt.Y) := by
  have hin : Point.In ⟨x, y⟩ ⟨⟨0, 0⟩, ⟨w, h⟩⟩ = true := (In_iff _ _ _).2 ⟨hx, hy⟩
  unfold flameOf Canvas.At drawOver blankCanvas Canvas.Bounds
  simp only [hin, if_true, Bool.true_and, Int.sub_zero]
  split
  · rw [over_zero]
  · rfl

/-- Whatever the outcome, the slicer loop only appends frames, and each of them
has the bounds from (0, 0) to `(w, h)`. -/
theorem flamesLoop_appends (env : Env) (w h : Int) (rcs : List Int) (i : Image) :
    ∃ fs : List Canvas,
      (flamesLoop env w h rcs i).1.animationImages = i.animationImages ++ fs ∧
      ∀ f ∈ fs, f.Rect = ⟨⟨0, 0⟩, ⟨w, h⟩⟩ := by
  induction rcs generalizing i with
  | nil => exact ⟨[], by simp [flamesLoop], by simp⟩
  | cons rc rest ih =>
    unfold flamesLoop
    dsimp only
    cases env.Crop i.image w h ⟨0, wrap64 (rc * h)⟩ with
    | error e => exact ⟨[], by simp, by simp⟩
    | ok cimg =>
      simp only
      cases hn : NewRGBA ⟨⟨0, 0⟩, ⟨w, h⟩⟩ with
      | none => exact ⟨[], by simp, by simp⟩
      | some dist =>
        simp only
        obtain ⟨fs, h1, h2⟩ := ih
          { i with animationImages := i.animationImages ++
              [drawOver dist dist.Bounds cimg ⟨0, wrap64 (rc * h)⟩] }
        refine ⟨drawOver dist dist.Bounds cimg ⟨0, wrap64 (rc * h)⟩ :: fs, ?_, ?_⟩
        · rw [h1]
          simp
        · intro f hf
          rcases List.mem_cons.1 hf with rfl | hf
          · rw [NewRGBA_eq _ _ hn]
            rfl
          · exact h2 f hf

theorem flamesLoop_ok (env : Env) (W H h : Int) (hW : 0 ≤ W ∧ W < 9223372036854775808)
    (hH : H < 9223372036854775808)
    (hh : 0 < h) (hfit : 4 * W * h ≤ 281474976710656)
    (rcs : List Int) (hr : ∀ rc ∈ rcs, 0 ≤ rc * h ∧ rc * h + h ≤ H)
    (i : Image) (hcrop : CropCopies env i.image) (hb : i.image.Bounds = ⟨⟨0, 0⟩, ⟨W, H⟩⟩) :
    ∃ frames : List Canvas,
      flamesLoop env W h rcs i =
        ({ i with animationImages := i.animationImages ++ frames }, .ok) ∧
      List.Forall₂ (fun rc f => Canvas.Bounds f = ⟨⟨0, 0⟩, ⟨W, h⟩⟩ ∧
        ∀ x y, 0 ≤ x → x < W → 0 ≤ y → y < h →
          Canvas.At f x y = i.image.At x (rc * h + y)) rcs frames := by
  induction rcs generalizing i with
  | nil =>
    refine ⟨[], ?_, List.Forall₂.nil⟩
    unfold flamesLoop
    simp
  | cons rc rest ih =>
    obtain ⟨hr1, hr2⟩ := hr rc (List.mem_cons_self _ _)
    have hwrap : wrap64 (rc * h) = rc * h := wrap64_of_fits _ (by unfold IsInt; omega)
    obtain ⟨c, hc, hpix⟩ := hcrop W h ⟨0, rc * h⟩ hW.1 (le_of_lt hh)
      (by rw [hb]) (by rw [hb]; simp) (by rw [hb]; exact hr1) (by rw [hb]; exact hr2)
    simp only at hpix
    obtain ⟨frames, hf, hall⟩ := ih (fun r hm => hr r (List.mem_cons_of_mem _ hm))
      { i with animationImages := i.animationImages ++ [flameOf W h c ⟨0, rc * h⟩] } hcrop hb
    have halloc := NewRGBA_of_fits W h hW.1 (le_of_lt hh) hW.2 (by omega) hfit
    refine ⟨flameOf W h c ⟨0, rc * h⟩ :: frames, ?_, List.Forall₂.cons ⟨rfl, ?_⟩ hall⟩
    · unfold flamesLoop
      dsimp only
      rw [hwrap, hc]
      simp only [halloc]
      rw [show drawOver (blankCanvas ⟨⟨0, 0⟩, ⟨W, h⟩⟩) (blankCanvas ⟨⟨0, 0⟩, ⟨W, h⟩⟩).Bounds c
        ⟨0, rc * h⟩ = flameOf W h c ⟨0, rc * h⟩ from rfl, hf]
      simp
    · intro x y hx1 hx2 hy1 hy2
      rw [flameOf_At W h c ⟨0, rc * h⟩ x y ⟨hx1, hx2⟩ ⟨hy1, hy2⟩]
      have := hpix (x + 0) (y + rc * h) (by omega) (by omega) (by omega) (by omega)
      simp only [Int.add_zero] at this ⊢
      rw [this, Int.add_comm]

theorem intRange_length (lo hi : Int) : (intRange lo hi).length = (hi - lo).toNat := by
  unfold intRange
  simp

theorem intRange_get (lo hi : Int) (k : Nat) (hk : k < (intRange lo hi).length) :
    (intRange lo hi).get ⟨k, hk⟩ = lo + (k : Int) := by
  unfold intRange
  simp

set_option maxRecDepth 100000 in
/-- For a grid of -2 by 2 cells with font size 4 and animation with one line per
frame the canvas goes from (-4, 0) to (0, 6) and the frame height is 3. -/
theorem negative_grid_canvas :
    (built flippedAnimParam (by decide)).image.Bounds = ⟨⟨-4, 0⟩, ⟨0, 6⟩⟩ ∧
    (built flippedAnimParam (by decide)).animationImageFlameHeight = 3 ∧
    (built flippedAnimParam (by decide)).useAnimation = true := by
  decide

set_option maxRecDepth 100000 in
/-- C6, as stated, fails: for a grid of -2 by 2 cells with font size 4 and one
line per frame the canvas goes from (-4, 0) to (0, 6), so it is 4 pixels wide
and 6 high, and the frame height is 3; the slicer reads the width as
`Bounds().Max.X = 0`, and it does not end without error with two frames of 4 by
3 pixels: a frame it appends is 0 pixels wide, whatever `cutter.Crop` returns. -/
theorem slicer_on_negative_width_makes_empty_frames :
    ¬ SlicesCanvas demoEnv (built flippedAnimParam (by decide)) := by
  rintro ⟨frames, heq, hlen, hall⟩
  obtain ⟨hb, hfl, hua⟩ := negative_grid_canvas
  have hDx : (built flippedAnimParam (by decide)).image.Bounds.Dx = 4 := by
    rw [hb]
    decide
  have hDy : (built flippedAnimParam (by decide)).image.Bounds.Dy = 6 := by
    rw [hb]
    decide
  rw [hDy, hfl] at hlen
  have hne : frames ≠ [] := by
    intro h
    rw [h] at hlen
    revert hlen
    decide
  obtain ⟨f, rest, rfl⟩ := List.exists_cons_of_ne_nil hne
  have hf := (hall f (List.mem_cons_self _ _)).1
  rw [hDx] at hf
  -- the frames that the loop appends have the width that the slicer read
  have happ : ∃ fs : List Canvas,
      ((built flippedAnimParam (by decide)).setAnimationFlames
        demoEnv).1.animationImages =
        (built flippedAnimParam (by decide)).animationImages ++ fs ∧
      ∀ g ∈ fs, g.Rect = ⟨⟨0, 0⟩, ⟨0, 3⟩⟩ := by
    unfold Image.setAnimationFlames goDiv
    rw [if_pos hua, hfl]
    simp only [show ¬ ((3 : Int) = 0) by decide, if_false]
    have hX : (built flippedAnimParam (by decide)).image.Bounds.Max.X = 0 := by
      rw [hb]
    rw [hX]
    exact flamesLoop_appends demoEnv 0 3 _ _
  obtain ⟨fs, h1, h2⟩ := happ
  rw [heq] at h1
  simp only at h1
  have h3 := List.append_cancel_left h1
  have h4 := h2 f (by rw [← h3]; exact List.mem_cons_self _ _)
  have h5 : f.Bounds.Dx = 0 := by
    show f.Rect.Dx = 0
    rw [h4]
    decide
  rw [h5] at hf
  revert hf
  decide

/-- C6, amended: when animation is requested, the frame height `h` is
positive, and the canvas is one that `image.NewRGBA` allocates from the origin,
with the bounds from (0, 0) to (W, H), `0 ≤ W`, `0 ≤ H` and a pixel buffer
`4 * W * H` of at most `2 ^ 48` bytes, `setAnimationFlames` ends without error
and appends exactly `floor(H / h)` frames, top to bottom; frame `k` has the
bounds from (0, 0) to (W, h), its requested rectangle lies inside the canvas, and
its pixel `(x, y)` is the canvas pixel `(x, k * h + y)`; the rows of different
frames are disjoint and the rows below `floor(H / h) * h`, fewer than `h`, are in
no frame.  Cropping is assumed to copy every request that lies inside the
bounds of this canvas. -/
theorem setAnimationFlames_slices (env : Env) (i : Image) (hcrop : CropCopies env i.image)
    (W H : Int) (hW : 0 ≤ W) (hH : 0 ≤ H) (hb : i.image.Bounds = ⟨⟨0, 0⟩, ⟨W, H⟩⟩)
    (hWi : W < 9223372036854775808) (hHi : H < 9223372036854775808)
    (hfit : 4 * W * H ≤ 281474976710656)
    (hanim : i.useAnimation = true) (hpos : 0 < i.animationImageFlameHeight) :
    ∃ frames : List Canvas,
      i.setAnimationFlames env =
        ({ i with animationImages := i.animationImages ++ frames }, .ok) ∧
      (frames.length : Int) = H / i.animationImageFlameHeight ∧
      (∀ (k : Nat) (hk : k < frames.length),
        (frames.get ⟨k, hk⟩).Bounds = ⟨⟨0, 0⟩, ⟨W, i.animationImageFlameHeight⟩⟩ ∧
        (0 ≤ (k : Int) * i.animationImageFlameHeight ∧
          (k : Int) * i.animationImageFlameHeight + i.animationImageFlameHeight ≤ H) ∧
        ∀ x y, 0 ≤ x → x < W → 0 ≤ y → y < i.animationImageFlameHeight →
          (frames.get ⟨k, hk⟩).At x y =
            i.image.At x ((k : Int) * i.animationImageFlameHeight + y)) ∧
      (∀ (k k2 : Nat), k < k2 → ∀ y : Int, y < i.animationImageFlameHeight →
        (k : Int) * i.animationImageFlameHeight + y < (k2 : Int) * i.animationImageFlameHeight) ∧
      H - (frames.length : Int) * i.animationImageFlameHeight < i.animationImageFlameHeight := by
  have hne : i.animationImageFlameHeight ≠ 0 := by omega
  have hdiv : Int.tdiv H i.animationImageFlameHeight = H / i.animationImageFlameHeight :=
    Int.tdiv_eq_ediv hH (le_of_lt hpos)
  have hq0 : 0 ≤ H / i.animationImageFlameHeight := Int.ediv_nonneg hH (le_of_lt hpos)
  have hqle : H / i.animationImageFlameHeight * i.animationImageFlameHeight ≤ H :=
    Int.ediv_mul_le H hne
  have hqH : H / i.animationImageFlameHeight ≤ H := Int.ediv_le_self _ hH
  have hqlt : H < (H / i.animationImageFlameHeight + 1) * i.animationImageFlameHeight := by
    have := Int.lt_ediv_add_one_mul_self H hpos
    exact this
  have hrows : ∀ rc ∈ intRange 0 (H / i.animationImageFlameHeight),
      0 ≤ rc * i.animationImageFlameHeight ∧
        rc * i.animationImageFlameHeight + i.animationImageFlameHeight ≤ H := by
    intro rc hrc
    rw [mem_intRange] at hrc
    have h1 : 0 ≤ rc * i.animationImageFlameHeight := Int.mul_nonneg hrc.1 (le_of_lt hpos)
    have h2 : (rc + 1) * i.animationImageFlameHeight ≤
        H / i.animationImageFlameHeight * i.animationImageFlameHeight :=
      Int.mul_le_mul_of_nonneg_right (by omega) (le_of_lt hpos)
    have h3 : (rc + 1) * i.animationImageFlameHeight =
        rc * i.animationImageFlameHeight + i.animationImageFlameHeight := by ring
    exact ⟨h1, by omega⟩
  -- without a full frame there is nothing to allocate; with one, a frame is
  -- smaller than the canvas
  by_cases hsmall : H < i.animationImageFlameHeight
  · have hq : H / i.animationImageFlameHeight = 0 := Int.ediv_eq_zero_of_lt hH hsmall
    refine ⟨[], ?_, ?_, fun k hk => ?_, fun k k2 hkk y hy => ?_, ?_⟩
    · unfold Image.setAnimationFlames goDiv
      have hY : i.image.Bounds.Max.Y = H := by rw [hb]
      rw [if_pos hanim]
      simp only [if_neg hne, hY, hdiv, hq]
      rw [show wrap64 0 = 0 from rfl, intRange_nil _ _ (le_refl _)]
      unfold flamesLoop
      simp
    · rw [hq]
      rfl
    · simp at hk
    · have h1 : ((k : Int) + 1) * i.animationImageFlameHeight ≤
          (k2 : Int) * i.animationImageFlameHeight :=
        Int.mul_le_mul_of_nonneg_right (by omega) (le_of_lt hpos)
      have h3 : ((k : Int) + 1) * i.animationImageFlameHeight =
          (k : Int) * i.animationImageFlameHeight + i.animationImageFlameHeight := by ring
      omega
    · simp only [List.length_nil, Nat.cast_zero, Int.zero_mul, Int.sub_zero]
      exact hsmall
  have hfit2 : 4 * W * i.animationImageFlameHeight ≤ 281474976710656 := by
    have : 4 * W * i.animationImageFlameHeight ≤ 4 * W * H :=
      Int.mul_le_mul_of_nonneg_left (by omega) (by omega)
    omega
  obtain ⟨frames, hf, hall⟩ := flamesLoop_ok env W H i.animationImageFlameHeight ⟨hW, hWi⟩ hHi
    hpos hfit2 (intRange 0 (H / i.animationImageFlameHeight)) hrows i hcrop hb
  obtain ⟨hlen, hget⟩ := List.forall₂_iff_get.1 hall
  rw [intRange_length] at hlen
  have hlen2 : (frames.length : Int) = H / i.animationImageFlameHeight := by
    rw [← hlen]
    omega
  refine ⟨frames, ?_, hlen2, fun k hk => ?_, fun k k2 hkk y hy => ?_, ?_⟩
  · unfold Image.setAnimationFlames goDiv
    have hX : i.image.Bounds.Max.X = W := by rw [hb]
    have hY : i.image.Bounds.Max.Y = H := by rw [hb]
    rw [if_pos hanim]
    simp only [if_neg hne, hX, hY, hdiv]
    rw [wrap64_of_fits _ (by unfold IsInt; omega)]
    exact hf
  · have hk1 : k < (intRange 0 (H / i.animationImageFlameHeight)).length := by
      rw [intRange_length]
      omega
    have hR := hget k hk1 hk
    rw [intRange_get] at hR
    simp only [Int.zero_add] at hR
    refine ⟨hR.1, ?_, hR.2⟩
    have := hrows (0 + (k : Int)) (by rw [← intRange_get 0 _ k hk1]; exact List.get_mem _ _ _)
    simp only [Int.zero_add] at this
    exact this
  · have h1 : ((k : Int) + 1) * i.animationImageFlameHeight ≤
        (k2 : Int) * i.animationImageFlameHeight :=
      Int.mul_le_mul_of_nonneg_right (by omega) (le_of_lt hpos)
    have h3 : ((k : Int) + 1) * i.animationImageFlameHeight =
        (k : Int) * i.animationImageFlameHeight + i.animationImageFlameHeight := by ring
    omega
  · rw [hlen2]
    have h3 : (H / i.animationImageFlameHeight + 1) * i.animationImageFlameHeight =
        H / i.animationImageFlameHeight * i.animationImageFlameHeight +
          i.animationImageFlameHeight := by ring
    omega

set_option maxRecDepth 100000 in
/-- The amended C6 on a canvas of 4 by 6 pixels with frames 3 pixels high: two
frames are appended. -/
theorem setAnimationFlames_slices_witness :
    ∃ frames : List Canvas,
      (built animParam (by decide)).setAnimationFlames demoEnv =
        ({ built animParam (by decide) with
            animationImages := (built animParam (by decide)).animationImages ++ frames }, .ok) ∧
      (frames.length : Int) = 2 := by
  obtain ⟨frames, h1, h2, _⟩ := setAnimationFlames_slices demoEnv
    (built animParam (by decide)) (demoEnv_CropCopies _) 4 6 (by decide) (by decide) (by decide)
    (by decide) (by decide) (by decide) (by decide) (by decide)
  exact ⟨frames, h1, h2.trans (by decide)⟩

/-! ## The cursor without overflow -/

theorem moveRight_x (env : Env) (i : Image) (r : Char) :
    (i.moveRight env r).x = wrap64 (i.x + env.RuneWidth r * i.charWidth) := by
  show wrap64 (i.x + wrap64 _) = _
  rw [wrap64_add_wrap64]

theorem moveRight_x_of_fits (env : Env) (i : Image) (r : Char)
    (h : IsInt (i.x + env.RuneWidth r * i.charWidth)) :
    (i.moveRight env r).x = i.x + env.RuneWidth r * i.charWidth := by
  rw [moveRight_x, wrap64_of_fits _ h]

theorem moveDown_y (i : Image) : i.moveDown.y = wrap64 (i.y + linePitch i.charHeight) := rfl

theorem moveDown_y_of_fits (i : Image) (h : IsInt (i.y + linePitch i.charHeight)) :
    i.moveDown.y = i.y + linePitch i.charHeight := by
  rw [moveDown_y, wrap64_of_fits _ h]

theorem bgRunes_append (env : Env) (a b : List Char) (i : Image) :
    bgRunes env (a ++ b) i = bgRunes env b (bgRunes env a i) := by
  induction a generalizing i with
  | nil => rfl
  | cons r rs ih =>
    simp only [List.cons_append, bgRunes]
    split
    · exact ih _
    · exact ih _

theorem sum_widths_nonneg (env : Env) (hrw : ∀ r, 0 ≤ env.RuneWidth r) (s : List Char) :
    0 ≤ (s.map env.RuneWidth).sum := by
  induction s with
  | nil => simp
  | cons r rs ih =>
    simp only [List.map_cons, List.sum_cons]
    have := hrw r
    omega

theorem streamWidth_nonneg (env : Env) (hrw : ∀ r, 0 ≤ env.RuneWidth r) (tokens : Tokens) :
    0 ≤ streamWidth env tokens := by
  induction tokens with
  | nil => exact le_refl _
  | cons t ts ih =>
    unfold streamWidth
    have : 0 ≤ (match t.Kind with
      | .KindText => (t.Text.map env.RuneWidth).sum
      | _ => 0) := by
      split
      · exact sum_widths_nonneg env hrw _
      · exact le_refl _
    omega

/-- On a run without line break, from an `int` position whose final position
does not overflow, the background pass moves right by the widths of the runes
and stays on its row. -/
theorem bgRunes_on_one_line (env : Env) (hrw : ∀ r, 0 ≤ env.RuneWidth r) (s : List Char)
    (i : Image) (hcw : 0 ≤ i.charWidth)
    (hs : ∀ q ∈ s, env.isLinefeed q = false)
    (hx : -9223372036854775808 ≤ i.x)
    (hfit : i.x + (s.map env.RuneWidth).sum * i.charWidth < 9223372036854775808) :
    (bgRunes env s i).x = i.x + (s.map env.RuneWidth).sum * i.charWidth ∧
      (bgRunes env s i).y = i.y := by
  induction s generalizing i with
  | nil =>
    unfold bgRunes
    simp
  | cons r rs ih =>
    unfold bgRunes
    have hr : env.isLinefeed r = false := hs r (List.mem_cons_self _ _)
    simp only [hr, Bool.false_eq_true, if_false]
    simp only [List.map_cons, List.sum_cons] at hfit
    have h1 := Int.mul_nonneg (hrw r) hcw
    have h2 := Int.mul_nonneg (sum_widths_nonneg env hrw rs) hcw
    have e : (env.RuneWidth r + (rs.map env.RuneWidth).sum) * i.charWidth =
        env.RuneWidth r * i.charWidth + (rs.map env.RuneWidth).sum * i.charWidth := by ring
    rw [e] at hfit
    have hstep := moveRight_x_of_fits env i r (by unfold IsInt; omega)
    obtain ⟨k1, k2⟩ := ih (i.moveRight env r) hcw
      (fun q hq => hs q (List.mem_cons_of_mem _ hq)) (by rw [hstep]; omega)
      (by
        rw [hstep]
        show _ + _ * i.charWidth < _
        omega)
    rw [k1, k2, hstep]
    refine ⟨?_, rfl⟩
    show _ + _ * i.charWidth = _
    simp only [List.map_cons, List.sum_cons]
    rw [e]
    omega

theorem Room_moveRight (env : Env) (hrw : ∀ r, 0 ≤ env.RuneWidth r) (cw ch W : Int) (L : Nat)
    (hcw : 0 ≤ cw) (hW : 0 ≤ W) (r : Char) (i : Image)
    (h : Room cw ch (env.RuneWidth r + W) L i) :
    Room cw ch W L (i.moveRight env r) ∧
      (i.moveRight env r).x = i.x + env.RuneWidth r * cw ∧ (i.moveRight env r).y = i.y := by
  obtain ⟨h1, h2, h3, h4, h5, h6⟩ := h
  have e : (env.RuneWidth r + W) * cw = env.RuneWidth r * cw + W * cw := by ring
  rw [e] at h5
  have hn1 := Int.mul_nonneg (hrw r) hcw
  have hn2 := Int.mul_nonneg hW hcw
  have hstep := moveRight_x_of_fits env i r (by rw [h1]; unfold IsInt; omega)
  rw [h1] at hstep
  refine ⟨⟨h1, h2, ?_, h4, ?_, h6⟩, hstep, rfl⟩
  · rw [hstep]
    omega
  · rw [hstep]
    omega

theorem Room_moveDown (cw ch W W2 : Int) (L : Nat) (hcw : 0 ≤ cw)
    (hch : 0 ≤ ch ∧ ch < 9223372036854775808)
    (hW2 : W2 ≤ W) (i : Image) (h : Room cw ch W (L + 1) i) :
    Room cw ch W2 L i.moveDown ∧ i.moveDown.x = 0 ∧ i.moveDown.y = i.y + linePitch ch := by
  obtain ⟨h1, h2, h3, h4, h5, h6⟩ := h
  obtain ⟨hp0, hp1⟩ := linePitch_bounds ch hch.1 hch.2
  have e : ((L + 1 : Nat) : Int) * linePitch ch = (L : Int) * linePitch ch + linePitch ch := by
    push_cast
    ring
  rw [e] at h6
  have hLp := Int.mul_nonneg (Int.ofNat_nonneg L) hp0
  have hstep := moveDown_y_of_fits i (by rw [h2]; unfold IsInt; omega)
  rw [h2] at hstep
  have hWW : W2 * cw ≤ W * cw := Int.mul_le_mul_of_nonneg_right hW2 hcw
  refine ⟨⟨h1, h2, le_refl _, ?_, ?_, ?_⟩, rfl, hstep⟩
  · rw [hstep]
    omega
  · show (0 : Int) + _ < _
    omega
  · rw [hstep]
    omega

/-- Over the runes of a text run, with room for their widths and line breaks,
the background pass raises `y` by one pitch per line break and keeps the room
for what follows. -/
theorem Room_bgRunes (env : Env) (hrw : ∀ r, 0 ≤ env.RuneWidth r) (cw ch W : Int) (L : Nat)
    (hcw : 0 ≤ cw) (hch : 0 ≤ ch ∧ ch < 9223372036854775808) (hW : 0 ≤ W)
    (s : List Char) (i : Image)
    (h : Room cw ch ((s.map env.RuneWidth).sum + W) ((s.filter env.isLinefeed).length + L) i) :
    Room cw ch W L (bgRunes env s i) ∧
      (bgRunes env s i).y = i.y + ((s.filter env.isLinefeed).length : Int) * linePitch ch := by
  induction s generalizing i with
  | nil =>
    unfold bgRunes
    simp only [List.map_nil, List.sum_nil, Int.zero_add, List.filter_nil, List.length_nil,
      Nat.zero_add] at h
    simp only [List.filter_nil, List.length_nil, Nat.cast_zero, Int.zero_mul, Int.add_zero,
      and_true]
    exact h
  | cons r rs ih =>
    unfold bgRunes
    have hsum := sum_widths_nonneg env hrw rs
    by_cases hl : env.isLinefeed r = true
    · rw [if_pos hl]
      simp only [List.map_cons, List.sum_cons, List.filter_cons, hl, if_true,
        List.length_cons] at h ⊢
      have h2 : Room cw ch (env.RuneWidth r + (rs.map env.RuneWidth).sum + W)
          ((rs.filter env.isLinefeed).length + L + 1) i := by
        have e : (rs.filter env.isLinefeed).length + 1 + L =
            (rs.filter env.isLinefeed).length + L + 1 := by omega
        rw [e] at h
        exact h
      obtain ⟨k1, _, k3⟩ := Room_moveDown cw ch _ ((rs.map env.RuneWidth).sum + W) _ hcw hch
        (by have := hrw r; omega) i h2
      obtain ⟨m1, m2⟩ := ih i.moveDown k1
      refine ⟨m1, ?_⟩
      rw [m2, k3]
      push_cast
      ring
    · rw [if_neg hl]
      simp only [List.map_cons, List.sum_cons, List.filter_cons, hl, if_false,
        Bool.false_eq_true] at h ⊢
      have h2 : Room cw ch (env.RuneWidth r + ((rs.map env.RuneWidth).sum + W))
          ((rs.filter env.isLinefeed).length + L) i := by
        rw [← Int.add_assoc]
        exact h
      obtain ⟨k1, _, k3⟩ := Room_moveRight env hrw cw ch _ _ hcw (by omega) r i h2
      obtain ⟨m1, m2⟩ := ih (i.moveRight env r) k1
      refine ⟨m1, ?_⟩
      rw [m2, k3]

theorem Room_drawBackground (env : Env) (cw ch W : Int) (L : Nat) (s : List Char) (i : Image)
    (h : Room cw ch W L i) : Room cw ch W L (i.drawBackground env s) := h

theorem Room_updateColor (cw ch W : Int) (L : Nat) (t : ColorType) (c : Color) (i : Image)
    (h : Room cw ch W L i) : Room cw ch W L (i.updateColor t c) := by
  cases t <;> exact h

theorem Room_bgToken (env : Env) (hrw : ∀ r, 0 ≤ env.RuneWidth r) (cw ch W : Int) (L : Nat)
    (hcw : 0 ≤ cw) (hch : 0 ≤ ch ∧ ch < 9223372036854775808) (hW : 0 ≤ W)
    (t : Token) (i : Image)
    (h : Room cw ch (streamWidth env [t] + W) (lineBreaks env [t] + L) i) :
    Room cw ch W L (bgToken env i t) ∧
      (bgToken env i t).y = i.y + (lineBreaks env [t] : Int) * linePitch ch := by
  unfold streamWidth lineBreaks at h
  unfold lineBreaks
  unfold bgToken
  simp only [streamWidth, lineBreaks, Int.add_zero, Nat.add_zero] at h ⊢
  cases hk : t.Kind with
  | KindColor =>
    rw [hk] at h
    simp only [Int.zero_add, Nat.zero_add] at h
    simp only [Nat.cast_zero, Int.zero_mul, Int.add_zero]
    refine ⟨Room_updateColor _ _ _ _ _ _ _ h, ?_⟩
    cases t.ColorType <;> rfl
  | KindText =>
    rw [hk] at h
    simp only at h ⊢
    exact Room_bgRunes env hrw cw ch W L hcw hch hW t.Text _ h
  | KindOther n =>
    rw [hk] at h
    simp only [Int.zero_add, Nat.zero_add] at h
    simp only [Nat.cast_zero, Int.zero_mul, Int.add_zero, and_true]
    exact h

theorem streamWidth_cons (env : Env) (t : Token) (ts : Tokens) :
    streamWidth env (t :: ts) = streamWidth env [t] + streamWidth env ts := by
  simp only [streamWidth, Int.add_zero]

theorem lineBreaks_cons (env : Env) (t : Token) (ts : Tokens) :
    lineBreaks env (t :: ts) = lineBreaks env [t] + lineBreaks env ts := by
  simp only [lineBreaks, Nat.add_zero]

theorem streamWidth_append (env : Env) (a b : Tokens) :
    streamWidth env (a ++ b) = streamWidth env a + streamWidth env b := by
  induction a with
  | nil => simp [streamWidth]
  | cons t ts ih =>
    rw [List.cons_append, streamWidth_cons, ih, streamWidth_cons env t ts]
    ring

theorem lineBreaks_append (env : Env) (a b : Tokens) :
    lineBreaks env (a ++ b) = lineBreaks env a + lineBreaks env b := by
  induction a with
  | nil => simp [lineBreaks]
  | cons t ts ih =>
    rw [List.cons_append, lineBreaks_cons, ih, lineBreaks_cons env t ts]
    omega

/-- With room for the whole stream, the background pass ends `lineBreaks` pitches
lower, with the room that was left over. -/
theorem Room_backgroundPass (env : Env) (hrw : ∀ r, 0 ≤ env.RuneWidth r) (cw ch W : Int)
    (L : Nat) (hcw : 0 ≤ cw) (hch : 0 ≤ ch ∧ ch < 9223372036854775808) (hW : 0 ≤ W)
    (tokens : Tokens) (i : Image)
    (h : Room cw ch (streamWidth env tokens + W) (lineBreaks env tokens + L) i) :
    Room cw ch W L (backgroundPass env tokens i) ∧
      (backgroundPass env tokens i).y =
        i.y + (lineBreaks env tokens : Int) * linePitch ch := by
  unfold backgroundPass
  induction tokens generalizing i with
  | nil =>
    simp only [streamWidth, lineBreaks, Int.zero_add, Nat.zero_add] at h
    simp only [List.foldl_nil, lineBreaks, Nat.cast_zero, Int.zero_mul, Int.add_zero, and_true]
    exact h
  | cons t ts ih =>
    simp only [List.foldl_cons]
    rw [streamWidth_cons, lineBreaks_cons] at h
    have hsw := streamWidth_nonneg env hrw ts
    have h2 : Room cw ch (streamWidth env [t] + (streamWidth env ts + W))
        (lineBreaks env [t] + (lineBreaks env ts + L)) i := by
      rw [← Int.add_assoc, ← Nat.add_assoc]
      exact h
    obtain ⟨k1, k2⟩ := Room_bgToken env hrw cw ch _ _ hcw hch (by omega) t i h2
    obtain ⟨m1, m2⟩ := ih (bgToken env i t) k1
    refine ⟨m1, ?_⟩
    rw [m2, k2, lineBreaks_cons env t ts]
    push_cast
    ring

/-! ## C13: `moveRight` -/

set_option maxRecDepth 100000 in
/-- C13, as stated, fails: on the image built with the font size
7000000000000000000 the cells are 3500000000000000000 wide; after two runes of
width 1 the cursor is at `x = 7000000000000000000`, and the third `moveRight`
overflows the 64-bit `int`: `x` becomes -7946744073709551616, which is not
`x + 1 * cellWidth`. -/
theorem moveRight_wraps_on_third_huge_cell :
    ¬ MoveRightAdds demoEnv
      (((built hugeCellParam (by decide)).moveRight demoEnv (Char.ofNat 97)).moveRight demoEnv
        (Char.ofNat 97)) (Char.ofNat 97) := by
  unfold MoveRightAdds
  decide

/-- C13, amended: for every rune `r` and every state, `moveRight(r)` sets `x` to
`x + RuneWidth(r) * cellWidth` in 64-bit `int` arithmetic and changes nothing
else: `y`, the line count and all colors stay.  Whenever
`x + RuneWidth(r) * cellWidth` is an `int` (no overflow), `x` grows by exactly
`RuneWidth(r) * cellWidth`: by `cellWidth` for a rune of width 1 and by
`2 * cellWidth` for a rune of width 2.  With font size 20 the cell is 10 pixels
wide, and for "H" and "i" of width 1, neither a line break, the text "Hi" leaves
the cursor of the background pass at `x = 20`, `y = 0`, and so that of `Draw`
when it succeeds. -/
theorem moveRight_advance (env : Env) :
    (∀ (i : Image) (r : Char),
      i.moveRight env r = { i with x := wrap64 (i.x + env.RuneWidth r * i.charWidth) }) ∧
    (∀ (i : Image) (r : Char), IsInt (i.x + env.RuneWidth r * i.charWidth) →
      MoveRightAdds env i r) ∧
    (∀ (i : Image) (r : Char), env.RuneWidth r = 1 → IsInt (i.x + i.charWidth) →
      (i.moveRight env r).x = i.x + i.charWidth) ∧
    (∀ (i : Image) (r : Char), env.RuneWidth r = 2 → IsInt (i.x + 2 * i.charWidth) →
      (i.moveRight env r).x = i.x + 2 * i.charWidth) ∧
    (∀ (p : ImageParam) (i : Image), NewImage p = some i → p.FontSize = 20 →
      env.RuneWidth (Char.ofNat 72) = 1 → env.RuneWidth (Char.ofNat 105) = 1 →
      env.isLinefeed (Char.ofNat 72) = false → env.isLinefeed (Char.ofNat 105) = false →
      i.charWidth = 10 ∧
      (backgroundPass env [textToken [(Char.ofNat 72), (Char.ofNat 105)]]
        i.drawBackgroundAll).x = 20 ∧
      (backgroundPass env [textToken [(Char.ofNat 72), (Char.ofNat 105)]]
        i.drawBackgroundAll).y = 0 ∧
      ((i.Draw env [textToken [(Char.ofNat 72), (Char.ofNat 105)]]).2 = .ok →
        (i.Draw env [textToken [(Char.ofNat 72), (Char.ofNat 105)]]).1.x = 20 ∧
        (i.Draw env [textToken [(Char.ofNat 72), (Char.ofNat 105)]]).1.y = 0)) := by
  refine ⟨fun i r => ?_, fun i r h => moveRight_x_of_fits env i r h, fun i r h hfit => ?_,
    fun i r h hfit => ?_, ?_⟩
  · have h := moveRight_x env i r
    unfold Image.moveRight at h ⊢
    simp only at h
    rw [h]
  · rw [moveRight_x, h, Int.one_mul, wrap64_of_fits _ hfit]
  · rw [moveRight_x, h, wrap64_of_fits _ hfit]
  · intro p i hnew hfont hH hi hlH hli
    obtain ⟨hx0, hy0, hl0, _⟩ := NewImage_fields p i hnew
    obtain ⟨hcw, _, _⟩ := NewImage_cell p i hnew
    have hcw10 : i.charWidth = 10 := by
      rw [hcw, hfont]
      decide
    have hone : backgroundPass env [textToken [(Char.ofNat 72), (Char.ofNat 105)]]
        i.drawBackgroundAll =
        bgRunes env [(Char.ofNat 72), (Char.ofNat 105)]
          (i.drawBackgroundAll.drawBackground env [(Char.ofNat 72), (Char.ofNat 105)]) := rfl
    have hno : ∀ q ∈ [(Char.ofNat 72), (Char.ofNat 105)], env.isLinefeed q = false := by
      intro q hq
      simp only [List.mem_cons, List.mem_singleton, List.mem_nil_iff, or_false] at hq
      rcases hq with rfl | rfl
      · exact hlH
      · exact hli
    have hw : ∀ q ∈ [(Char.ofNat 72), (Char.ofNat 105)], env.RuneWidth q = 1 := by
      intro q hq
      simp only [List.mem_cons, List.mem_singleton, List.mem_nil_iff, or_false] at hq
      rcases hq with rfl | rfl
      · exact hH
      · exact hi
    -- the two moves, one after the other
    have e0 : (i.drawBackgroundAll.drawBackground env
        [(Char.ofNat 72), (Char.ofNat 105)]).x = 0 := hx0
    have e1 : ((i.drawBackgroundAll.drawBackground env
        [(Char.ofNat 72), (Char.ofNat 105)]).moveRight env (Char.ofNat 72)).x = 10 := by
      rw [moveRight_x, hH, e0]
      show wrap64 (0 + 1 * i.charWidth) = 10
      rw [hcw10]
      decide
    have e2 : (((i.drawBackgroundAll.drawBackground env
        [(Char.ofNat 72), (Char.ofNat 105)]).moveRight env (Char.ofNat 72)).moveRight env
          (Char.ofNat 105)).x = 20 := by
      rw [moveRight_x, hi, e1]
      show wrap64 (10 + 1 * i.charWidth) = 20
      rw [hcw10]
      decide
    have bx : (backgroundPass env [textToken [(Char.ofNat 72), (Char.ofNat 105)]]
        i.drawBackgroundAll).x = 20 := by
      rw [hone]
      unfold bgRunes
      rw [if_neg (by rw [hlH]; decide)]
      unfold bgRunes
      rw [if_neg (by rw [hli]; decide)]
      unfold bgRunes
      exact e2
    have bY : (backgroundPass env [textToken [(Char.ofNat 72), (Char.ofNat 105)]]
        i.drawBackgroundAll).y = 0 := by
      rw [hone]
      unfold bgRunes
      rw [if_neg (by rw [hlH]; decide)]
      unfold bgRunes
      rw [if_neg (by rw [hli]; decide)]
      unfold bgRunes
      exact hy0
    refine ⟨hcw10, bx, bY, fun hok => ?_⟩
    have hfg := Draw_ok_foreground env i _ hok
    have hcell := (cell_Stable env i.charWidth i.charHeight).toPassStable.afterBackground
      [textToken [(Char.ofNat 72), (Char.ofNat 105)]] i ⟨rfl, rfl⟩
    have h0 : SameCursor i.drawBackgroundAll
        (afterBackground env [textToken [(Char.ofNat 72), (Char.ofNat 105)]] i) :=
      ⟨hx0, hy0, hl0, hcell.1.symm, hcell.2.symm⟩
    have hsc := foregroundPass_SameCursor env _ _ _ _ h0 (Prod.ext rfl hfg)
    have hfr := Draw_frame env i [textToken [(Char.ofNat 72), (Char.ofNat 105)]]
    have hxx := congrArg Image.x hfr
    have hyy := congrArg Image.y hfr
    simp only at hxx hyy
    rw [hxx, hyy, ← hsc.1, ← hsc.2.1]
    exact ⟨bx, bY⟩

set_option maxRecDepth 100000 in
/-- The amended C13 on the image built for a grid of 10 by 1 cells with font size
20: after `Draw` of the text "Hi" the cursor is at (20, 0). -/
theorem moveRight_advance_witness :
    ((built (demoParam 10 1 20) (by decide)).Draw demoEnv
      [textToken [(Char.ofNat 72), (Char.ofNat 105)]]).1.x = 20 ∧
    ((built (demoParam 10 1 20) (by decide)).Draw demoEnv
      [textToken [(Char.ofNat 72), (Char.ofNat 105)]]).1.y = 0 :=
  ((moveRight_advance demoEnv).2.2.2.2 (demoParam 10 1 20) _ (built_spec _ _) rfl
    (by decide) (by decide) (by decide) (by decide)).2.2.2 (by decide)

/-! ## C14: the line break -/

set_option maxRecDepth 100000 in
/-- C14, as stated, fails: the image built with font size 7505999378950828 on an
empty grid has the cell height `2 ^ 53 + 2`, and `moveDown` adds
`int(0.75 * float64(2 ^ 53 + 2)) = 3 * 2 ^ 51 + 2` to `y`, one more than the
floor of three quarters of the cell height: the product is rounded to the
nearest `float64`. -/
theorem moveDown_is_not_floor_for_huge_cell :
    0 ≤ (built (demoParam 0 0 7505999378950828) (by decide)).charHeight ∧
    ¬ MoveDownFloor (built (demoParam 0 0 7505999378950828) (by decide)) := by
  refine ⟨by decide, fun h => ?_⟩
  have h1 := congrArg Image.y h
  revert h1
  decide

/-- C14, amended: for every state whose cell height is an `int` with
`cellHeight ≥ 0`, whatever the colors, `moveDown` sets `x` to 0, adds the pitch
`int(0.75 * float64(cellHeight))`, which lies between 0 and `cellHeight`, to
`y`, adds 1 to the line count, both in 64-bit `int` arithmetic, and changes
nothing else; whenever `y + pitch` and `lineCount + 1` are `int` values (no
overflow), `y` grows by exactly the pitch and the line count by exactly 1; for
`cellHeight < 2 ^ 51` the pitch is `floor(3 * cellHeight / 4)`. -/
theorem moveDown_effect (i : Image)
    (hch : 0 ≤ i.charHeight ∧ i.charHeight < 9223372036854775808) :
    i.moveDown =
      { i with x := 0, y := wrap64 (i.y + linePitch i.charHeight),
               lineCount := wrap64 (i.lineCount + 1) } ∧
    (0 ≤ linePitch i.charHeight ∧ linePitch i.charHeight ≤ i.charHeight) ∧
    (IsInt (i.y + linePitch i.charHeight) → IsInt (i.lineCount + 1) →
      i.moveDown =
        { i with x := 0, y := i.y + linePitch i.charHeight, lineCount := i.lineCount + 1 }) ∧
    (i.charHeight < 2251799813685248 → linePitch i.charHeight = 3 * i.charHeight / 4) ∧
    (i.charHeight < 2251799813685248 → IsInt (i.y + 3 * i.charHeight / 4) →
      IsInt (i.lineCount + 1) → MoveDownFloor i) := by
  have hfit : IsInt (i.y + linePitch i.charHeight) → IsInt (i.lineCount + 1) →
      i.moveDown =
        { i with x := 0, y := i.y + linePitch i.charHeight, lineCount := i.lineCount + 1 } := by
    intro h1 h2
    unfold Image.moveDown
    rw [show (f64_0_75.mul (Float64.ofInt i.charHeight)).toInt = linePitch i.charHeight from rfl,
      wrap64_of_fits _ h1, wrap64_of_fits _ h2]
  refine ⟨rfl, linePitch_bounds _ hch.1 hch.2, hfit,
    fun hlt => linePitch_exact _ hch.1 hlt, fun hlt h1 h2 => ?_⟩
  unfold MoveDownFloor
  rw [← linePitch_exact i.charHeight hch.1 hlt] at h1 ⊢
  exact hfit h1 h2

set_option maxRecDepth 100000 in
/-- The amended C14 on a fresh image of 2 by 2 cells with font size 4 (cell height 4). -/
theorem moveDown_effect_witness :
    MoveDownFloor (built (demoParam 2 2 4) (by decide)) :=
  (moveDown_effect (built (demoParam 2 2 4) (by decide)) (by decide)).2.2.2.2 (by decide)
    (by unfold IsInt; decide) (by unfold IsInt; decide)

/-! ## C15: the cursor does not go back -/

set_option maxRecDepth 100000 in
/-- C15, as stated, fails: on the image built with the font size
7000000000000000000 the cell is 3500000000000000000 wide and
8400000000000000000 high, both positive; the first line break puts `y` at
6300000000000000000, and the second one overflows the 64-bit `int`: `y` drops to
-5846744073709551616. -/
theorem second_huge_line_break_moves_up :
    0 ≤ (built hugeCellParam (by decide)).moveDown.charWidth ∧
    0 ≤ (built hugeCellParam (by decide)).moveDown.charHeight ∧
    (built hugeCellParam (by decide)).moveDown.moveDown.y <
      (built hugeCellParam (by decide)).moveDown.y := by
  decide

/-- C15, amended: with `cellWidth ≥ 0`, a cell height that is an `int` with
`cellHeight ≥ 0`, and rune widths that are not negative: `updateColor` keeps
`x` and `y`; `moveRight` keeps `y` and does not move `x` to the left unless
`x + RuneWidth(r) * cellWidth` overflows; `moveDown` puts `x` at 0 and does not
lower `y` unless `y + pitch` overflows.  From a cursor that is not left of or
above the origin, on a stream whose layout does not overflow
(`x + streamWidth * cellWidth` and `y + lineBreaks * pitch + cellHeight` below
`2 ^ 63`), the background pass ends exactly `lineBreaks` pitches lower, and so
does a foreground pass that draws every glyph: neither ends above where it
started.  Over runes without line break `x` grows by the sum of their widths,
whatever the canvas: `x` returns to 0 only through `moveDown`. -/
theorem cursor_never_goes_back (env : Env) (hrw : ∀ r, 0 ≤ env.RuneWidth r) (i : Image)
    (hcw : 0 ≤ i.charWidth)
    (hch : 0 ≤ i.charHeight ∧ i.charHeight < 9223372036854775808) :
    (∀ t c, (i.updateColor t c).y = i.y ∧ (i.updateColor t c).x = i.x) ∧
    (∀ r, (i.moveRight env r).y = i.y ∧
      (IsInt (i.x + env.RuneWidth r * i.charWidth) → i.x ≤ (i.moveRight env r).x)) ∧
    (i.moveDown.x = 0 ∧ (IsInt (i.y + linePitch i.charHeight) → i.y ≤ i.moveDown.y)) ∧
    (∀ tokens, 0 ≤ i.x → 0 ≤ i.y →
      i.x + streamWidth env tokens * i.charWidth < 9223372036854775808 →
      i.y + (lineBreaks env tokens : Int) * linePitch i.charHeight + i.charHeight <
        9223372036854775808 →
      ((backgroundPass env tokens i).y =
          i.y + (lineBreaks env tokens : Int) * linePitch i.charHeight ∧
        i.y ≤ (backgroundPass env tokens i).y) ∧
      ((foregroundPass env tokens i).2 = none →
        (foregroundPass env tokens i).1.y =
          i.y + (lineBreaks env tokens : Int) * linePitch i.charHeight ∧
        i.y ≤ (foregroundPass env tokens i).1.y)) ∧
    (∀ s : List Char, (∀ q ∈ s, env.isLinefeed q = false) →
      -9223372036854775808 ≤ i.x →
      i.x + (s.map env.RuneWidth).sum * i.charWidth < 9223372036854775808 →
      (bgRunes env s i).x = i.x + (s.map env.RuneWidth).sum * i.charWidth ∧
      i.x ≤ (bgRunes env s i).x ∧ (bgRunes env s i).y = i.y) := by
  obtain ⟨hp0, _⟩ := linePitch_bounds _ hch.1 hch.2
  refine ⟨fun t c => ?_, fun r => ⟨rfl, fun hfit => ?_⟩, ⟨rfl, fun hfit => ?_⟩,
    fun tokens hx hy hW hL => ?_, fun s hs hx hfit => ?_⟩
  · cases t <;> exact ⟨rfl, rfl⟩
  · rw [moveRight_x_of_fits env i r hfit]
    have := Int.mul_nonneg (hrw r) hcw
    omega
  · rw [moveDown_y_of_fits i hfit]
    omega
  · have hroom : Room i.charWidth i.charHeight (streamWidth env tokens + 0)
        (lineBreaks env tokens + 0) i := by
      refine ⟨rfl, rfl, hx, hy, ?_, ?_⟩
      · rw [Int.add_zero]
        exact hW
      · rw [Nat.add_zero]
        exact hL
    obtain ⟨_, hbg⟩ := Room_backgroundPass env hrw _ _ 0 0 hcw hch (le_refl _) tokens i hroom
    have hLp := Int.mul_nonneg (Int.ofNat_nonneg (lineBreaks env tokens)) hp0
    refine ⟨⟨hbg, by rw [hbg]; omega⟩, fun hok => ?_⟩
    have hsc := foregroundPass_SameCursor env tokens i i (foregroundPass env tokens i).1
      ⟨rfl, rfl, rfl, rfl, rfl⟩ (Prod.ext rfl hok)
    rw [← hsc.2.1, hbg]
    exact ⟨rfl, by omega⟩
  · obtain ⟨h1, h2⟩ := bgRunes_on_one_line env hrw s i hcw hs hx hfit
    refine ⟨h1, ?_, h2⟩
    rw [h1]
    have := Int.mul_nonneg (sum_widths_nonneg env hrw s) hcw
    omega

theorem demoEnv_RuneWidth_nonneg (r : Char) : 0 ≤ demoEnv.RuneWidth r := by
  show (0 : Int) ≤ if r = Char.ofNat 10 then 0 else 1
  split <;> decide

set_option maxRecDepth 100000 in
/-- The amended C15 on a fresh image of 2 by 2 cells with font size 4: a line
break puts the cursor at `x = 0`, three pixels lower. -/
theorem cursor_never_goes_back_witness :
    (built (demoParam 2 2 4) (by decide)).moveDown.x = 0 ∧
    (built (demoParam 2 2 4) (by decide)).y ≤ (built (demoParam 2 2 4) (by decide)).moveDown.y :=
  ⟨(cursor_never_goes_back demoEnv demoEnv_RuneWidth_nonneg (built (demoParam 2 2 4) (by decide))
    (by decide) (by decide)).2.2.1.1,
   (cursor_never_goes_back demoEnv demoEnv_RuneWidth_nonneg (built (demoParam 2 2 4) (by decide))
    (by decide) (by decide)).2.2.1.2 (by unfold IsInt; decide)⟩

/-! ## C16: the rectangle of a text run -/

set_option maxRecDepth 100000 in
/-- C16, as stated, fails: `NewImage` with the font size `2 ^ 62 + 2` builds
cells `2 ^ 61 + 1` wide, and with the grid width `1 - 2 ^ 61` the canvas width
`BaseWidth * cellWidth` wraps to 1 (the canvas is 1 by 853 pixels).  For the
run "abcd", of width 4, `StringWidth * cellWidth = 2 ^ 63 + 4` wraps to a
negative width, the loop of `drawBackground` runs over no column, and the pixel
(0, 0), which lies in the canvas and in the rectangle
`[0, 4 * cellWidth)` by `[0, cellHeight)`, keeps the zero color instead of the
current background, opaque black. -/
theorem drawBackground_paints_nothing_when_width_wraps :
    ¬ PaintsRectangle demoEnv (built wideCellParam (by decide))
      [Char.ofNat 97, Char.ofNat 98, Char.ofNat 99, Char.ofNat 100] := by
  intro h
  have h1 := h 0 0
  revert h1
  decide

/-- C16, amended: for every text run `s` and every state with cursor `(x, y)`,
`drawBackground(s)` keeps the bounds of the canvas, sets every in-canvas pixel
of the rectangle `[x, x1)` by `[y, y1)` to the current background color, where
`x1 = x + StringWidth(s) * cellWidth` and `y1 = y + cellHeight` in 64-bit `int`
arithmetic, leaves every other pixel as it was, and changes nothing of the
state but the canvas; whenever `x + StringWidth(s) * cellWidth` and
`y + cellHeight` are `int` values (no overflow) the rectangle is
`[x, x + StringWidth(s) * cellWidth)` by `[y, y + cellHeight)`.  The background
pass then moves the cursor over `s` as the foreground pass does, whenever that
one draws all of `s` without error from the same cursor. -/
theorem drawBackground_effect (env : Env) (i : Image) (s : List Char) :
    (i.drawBackground env s).image.Bounds = i.image.Bounds ∧
    (∀ x y, (i.drawBackground env s).image.At x y =
      if (i.x ≤ x ∧ x < wrap64 (i.x + env.StringWidth s * i.charWidth)) ∧
          (i.y ≤ y ∧ y < wrap64 (i.y + i.charHeight)) ∧
          Point.In ⟨x, y⟩ i.image.Bounds = true then
        i.backgroundColor
      else i.image.At x y) ∧
    (IsInt (i.x + env.StringWidth s * i.charWidth) → IsInt (i.y + i.charHeight) →
      PaintsRectangle env i s) ∧
    i.drawBackground env s = { i with image := (i.drawBackground env s).image } ∧
    (∀ j j1 : Image, SameCursor i j → fgRunes env s j = (j1, none) →
      SameCursor (bgRunes env s (i.drawBackground env s)) j1) := by
  have hpix : ∀ x y, (i.drawBackground env s).image.At x y =
      if (i.x ≤ x ∧ x < wrap64 (i.x + env.StringWidth s * i.charWidth)) ∧
          (i.y ≤ y ∧ y < wrap64 (i.y + i.charHeight)) ∧
          Point.In ⟨x, y⟩ i.image.Bounds = true then
        i.backgroundColor
      else i.image.At x y := by
    intro x y
    show (fillLoop _ _ _ _ _ _).At x y = _
    rw [fillLoop_At, wrap64_add_wrap64]
    rfl
  refine ⟨fillLoop_Rect _ _ _ _ _ _, hpix, fun h1 h2 x y => ?_, rfl, fun j j1 h hf => ?_⟩
  · rw [hpix, wrap64_of_fits _ h1, wrap64_of_fits _ h2]
  · exact fgRunes_SameCursor env s _ j j1 h hf

set_option maxRecDepth 100000 in
/-- The amended C16 on the run "Hi" from the origin of a fresh image of 2 by 1
cells with font size 2: the pixel (1, 0) takes the background color, opaque
black. -/
theorem drawBackground_effect_witness :
    ((built (demoParam 2 1 2) (by decide)).drawBackground demoEnv
      [(Char.ofNat 72), (Char.ofNat 105)]).image.At 1 0 = black :=
  ((drawBackground_effect demoEnv (built (demoParam 2 1 2) (by decide))
    [(Char.ofNat 72), (Char.ofNat 105)]).2.2.1 (by unfold IsInt; decide)
    (by unfold IsInt; decide) 1 0).trans (by decide)

/-! ## C2: the background under a glyph -/

theorem Passed_bgRunes (env : Env) (hrw : ∀ r, 0 ≤ env.RuneWidth r) (cw ch x y y0 W : Int)
    (L : Nat) (hcw : 0 ≤ cw) (hch : 0 ≤ ch ∧ ch < 9223372036854775808) (hW : 0 ≤ W)
    (s : List Char) (i : Image)
    (hrow : y < y0 + linePitch ch ∨ ∀ q ∈ s, env.isLinefeed q = false)
    (hroom : Room cw ch ((s.map env.RuneWidth).sum + W)
      ((s.filter env.isLinefeed).length + L) i)
    (h : Passed cw ch x y y0 i) : Passed cw ch x y y0 (bgRunes env s i) := by
  induction s generalizing i with
  | nil => exact h
  | cons r rs ih =>
    have hrow2 : y < y0 + linePitch ch ∨ ∀ q ∈ rs, env.isLinefeed q = false := by
      rcases hrow with h1 | h1
      · exact Or.inl h1
      · exact Or.inr (fun q hq => h1 q (List.mem_cons_of_mem _ hq))
    have hsum := sum_widths_nonneg env hrw rs
    obtain ⟨h1, h2, h3⟩ := h
    unfold bgRunes
    by_cases hl : env.isLinefeed r = true
    · rw [if_pos hl]
      simp only [List.map_cons, List.sum_cons, List.filter_cons, hl, if_true,
        List.length_cons] at hroom
      have hroom2 : Room cw ch (env.RuneWidth r + (rs.map env.RuneWidth).sum + W)
          ((rs.filter env.isLinefeed).length + L + 1) i := by
        have e : (rs.filter env.isLinefeed).length + 1 + L =
            (rs.filter env.isLinefeed).length + L + 1 := by omega
        rw [e] at hroom
        exact hroom
      obtain ⟨k1, _, k3⟩ := Room_moveDown cw ch _ ((rs.map env.RuneWidth).sum + W) _ hcw hch
        (by have := hrw r; omega) i hroom2
      apply ih _ hrow2 k1
      refine ⟨h1, h2, Or.inr ?_⟩
      rw [k3]
      have hp := (linePitch_bounds ch hch.1 hch.2).1
      rcases h3 with ⟨_, hy⟩ | hy
      · rcases hrow with h4 | h4
        · rw [hy]
          exact h4
        · have := h4 r (List.mem_cons_self _ _)
          rw [hl] at this
          cases this
      · omega
    · rw [if_neg hl]
      simp only [List.map_cons, List.sum_cons, List.filter_cons, hl, if_false,
        Bool.false_eq_true] at hroom
      have hroom2 : Room cw ch (env.RuneWidth r + ((rs.map env.RuneWidth).sum + W))
          ((rs.filter env.isLinefeed).length + L) i := by
        rw [← Int.add_assoc]
        exact hroom
      obtain ⟨k1, k2, k3⟩ := Room_moveRight env hrw cw ch _ _ hcw (by omega) r i hroom2
      apply ih _ hrow2 k1
      refine ⟨h1, h2, ?_⟩
      rcases h3 with ⟨hx, hy⟩ | hy
      · refine Or.inl ⟨?_, hy⟩
        rw [k2]
        have := Int.mul_nonneg (hrw r) hcw
        omega
      · exact Or.inr hy

theorem Passed_drawBackground (env : Env) (cw ch x y y0 : Int) (s : List Char) (i : Image)
    (h : Passed cw ch x y y0 i) :
    Passed cw ch x y y0 (i.drawBackground env s) ∧
      (i.drawBackground env s).image.Rect = i.image.Rect ∧
      (i.drawBackground env s).image.At x y = i.image.At x y := by
  refine ⟨h, fillLoop_Rect _ _ _ _ _ _, ?_⟩
  show (fillLoop _ _ _ _ _ _).At x y = _
  rw [fillLoop_At]
  have hno : ¬ ((i.x ≤ x ∧ x < wrap64 (i.x + wrap64 (env.StringWidth s * i.charWidth))) ∧
      (i.y ≤ y ∧ y < wrap64 (i.y + i.charHeight)) ∧ Point.In ⟨x, y⟩ i.image.Rect = true) := by
    rintro ⟨⟨hx, _⟩, ⟨hy, _⟩, _⟩
    rcases h.2.2 with ⟨h1, _⟩ | h1 <;> omega
  rw [if_neg hno]

theorem Passed_backgroundPass (env : Env) (hrw : ∀ r, 0 ≤ env.RuneWidth r)
    (cw ch x y y0 : Int) (hcw : 0 ≤ cw) (hch : 0 ≤ ch ∧ ch < 9223372036854775808)
    (post : Tokens) (i : Image)
    (hrow : y < y0 + linePitch ch ∨
      ∀ u ∈ post, u.Kind = .KindText → ∀ q ∈ u.Text, env.isLinefeed q = false)
    (hroom : Room cw ch (streamWidth env post) (lineBreaks env post) i)
    (h : Passed cw ch x y y0 i) :
    (backgroundPass env post i).image.Rect = i.image.Rect ∧
      (backgroundPass env post i).image.At x y = i.image.At x y := by
  unfold backgroundPass
  induction post generalizing i with
  | nil => exact ⟨rfl, rfl⟩
  | cons t ts ih =>
    simp only [List.foldl_cons]
    have hrow2 : y < y0 + linePitch ch ∨
        ∀ u ∈ ts, u.Kind = .KindText → ∀ q ∈ u.Text, env.isLinefeed q = false := by
      rcases hrow with h1 | h1
      · exact Or.inl h1
      · exact Or.inr (fun u hu => h1 u (List.mem_cons_of_mem _ hu))
    rw [streamWidth_cons, lineBreaks_cons] at hroom
    have hsw := streamWidth_nonneg env hrw ts
    obtain ⟨hroom2, _⟩ := Room_bgToken env hrw cw ch _ _ hcw hch hsw t i hroom
    have hstep : Passed cw ch x y y0 (bgToken env i t) ∧
        (bgToken env i t).image.Rect = i.image.Rect ∧
        (bgToken env i t).image.At x y = i.image.At x y := by
      unfold bgToken
      cases hk : t.Kind with
      | KindColor =>
        simp only
        refine ⟨?_, ?_, ?_⟩
        · cases t.ColorType <;> exact h
        · cases t.ColorType <;> rfl
        · cases t.ColorType <;> rfl
      | KindText =>
        simp only
        obtain ⟨k1, k2, k3⟩ := Passed_drawBackground env cw ch x y y0 t.Text i h
        have hrow3 : y < y0 + linePitch ch ∨ ∀ q ∈ t.Text, env.isLinefeed q = false := by
          rcases hrow with h1 | h1
          · exact Or.inl h1
          · exact Or.inr (h1 t (List.mem_cons_self _ _) hk)
        have hroom3 : Room cw ch ((t.Text.map env.RuneWidth).sum + streamWidth env ts)
            ((t.Text.filter env.isLinefeed).length + lineBreaks env ts)
            (i.drawBackground env t.Text) := by
          have hr := hroom
          simp only [streamWidth, lineBreaks, hk, Int.add_zero, Nat.add_zero] at hr
          exact hr
        refine ⟨Passed_bgRunes env hrw cw ch x y y0 _ _ hcw hch hsw t.Text _ hrow3 hroom3 k1,
          ?_, ?_⟩
        · rw [bgRunes_image]
          exact k2
        · rw [bgRunes_image]
          exact k3
      | KindOther n => exact ⟨h, rfl, rfl⟩
    obtain ⟨k1, k2, k3⟩ := hstep
    obtain ⟨m1, m2⟩ := ih _ hrow2 hroom2 k1
    exact ⟨m1.trans k2, m2.trans k3⟩

set_option maxRecDepth 100000 in
/-- C2, as stated, fails: on a grid of 2 by 2 cells with font size 4 (cells of 2
by 4 pixels, canvas of 4 by 6) take the stream set-background red, text "a"
with a line feed, set-background white, text "b".  The foreground pass draws
"a" at the cursor (0, 0), so its cell has the rows 0 to 3, but `moveDown`
advances by `int(0.75 * 4) = 3` only, and the rectangle of the run "b", painted
at (0, 3), leaves the pixel (0, 3) white, not red. -/
theorem glyph_cell_is_repainted_by_next_line :
    ¬ GlyphCellsPainted demoEnv (demoParam 2 2 4)
      [colorToken .ColorTypeBackground red, textToken [(Char.ofNat 97), (Char.ofNat 10)],
        colorToken .ColorTypeBackground white, textToken [(Char.ofNat 98)]] := by
  intro h
  have h1 := h (built (demoParam 2 2 4) (by decide)) (built_spec _ _)
    [colorToken .ColorTypeBackground red]
    (textToken [(Char.ofNat 97), (Char.ofNat 10)])
    [colorToken .ColorTypeBackground white, textToken [(Char.ofNat 98)]]
    [] (Char.ofNat 97) [(Char.ofNat 10)] _ rfl rfl rfl (by decide) rfl
    0 3 (by decide) (by decide) (by decide)
  revert h1
  decide


theorem filter_linefeed_nil (env : Env) (s : List Char)
    (hs : ∀ q ∈ s, env.isLinefeed q = false) : s.filter env.isLinefeed = [] := by
  rw [List.filter_eq_nil_iff]
  intro q hq
  rw [hs q hq]
  decide

/-- C2, amended: on a fresh image, with rune widths that are not negative, for a
text run whose string width is the sum of the widths of its runes, and a stream
whose layout does not overflow the 64-bit `int` (`streamWidth * cellWidth` and
`(lineBreaks + 1) * cellHeight` below `2 ^ 63`): once the background pass is
over, every in-canvas pixel of the cell of every rune of the run that is not a
line break and that no line break precedes in the run holds the background
color that was current when the run began, provided the pixel lies above the
origin of the next line (its row is below `y + int(0.75 * cellHeight)`) or no
line break follows the rune in the stream. -/
theorem glyph_cell_background (env : Env) (hrw : ∀ r, 0 ≤ env.RuneWidth r)
    (p : ImageParam) (i : Image) (tokens : Tokens) (hnew : NewImage p = some i)
    (pre : Tokens) (t : Token) (post : Tokens) (s1 : List Char) (r : Char) (s2 : List Char)
    (j : Image) (htok : tokens = pre ++ t :: post) (hkind : t.Kind = .KindText)
    (htext : t.Text = s1 ++ r :: s2) (hlf : env.isLinefeed r = false)
    (hs1 : ∀ q ∈ s1, env.isLinefeed q = false)
    (hsw : env.StringWidth t.Text = (t.Text.map env.RuneWidth).sum)
    (hW : streamWidth env tokens * i.charWidth < 9223372036854775808)
    (hL : ((lineBreaks env tokens : Int) + 1) * i.charHeight < 9223372036854775808)
    (hj : foregroundPass env (pre ++ [{ t with Text := s1 }]) (afterBackground env tokens i) =
      (j, none))
    (x y : Int) (hx : j.x ≤ x ∧ x < j.x + env.RuneWidth r * j.charWidth)
    (hy : j.y ≤ y ∧ y < j.y + j.charHeight)
    (hin : Point.In ⟨x, y⟩ (backgroundPass env tokens i.drawBackgroundAll).image.Bounds = true)
    (hrow : y < j.y + linePitch j.charHeight ∨
      ((∀ q ∈ s2, env.isLinefeed q = false) ∧
        ∀ u ∈ post, u.Kind = .KindText → ∀ q ∈ u.Text, env.isLinefeed q = false)) :
    (backgroundPass env tokens i.drawBackgroundAll).image.At x y =
      (backgroundPass env pre i.drawBackgroundAll).backgroundColor := by
  obtain ⟨hx0, hy0, hl0, _⟩ := NewImage_fields p i hnew
  -- the cell size is that of the fresh image
  have hcell := (cell_Stable env i.charWidth i.charHeight).toPassStable.afterBackground tokens i
    ⟨rfl, rfl⟩
  have hjcell : j.charWidth = i.charWidth ∧ j.charHeight = i.charHeight := by
    have h := (cell_Stable env i.charWidth i.charHeight).toPassStable.foregroundPass
      (pre ++ [{ t with Text := s1 }]) (afterBackground env tokens i) hcell
    rw [hj] at h
    exact h
  rw [hjcell.1] at hx
  rw [hjcell.2] at hy hrow
  generalize hcwdef : i.charWidth = cw at *
  generalize hchdef : i.charHeight = ch at *
  have hch0 : 0 < ch := by omega
  have hcw0 : 0 < cw := by
    by_contra hneg
    have : env.RuneWidth r * cw ≤ 0 :=
      Int.mul_nonpos_of_nonneg_of_nonpos (hrw r) (by omega)
    omega
  have hLB : (0 : Int) ≤ (lineBreaks env tokens : Int) := Int.ofNat_nonneg _
  have hchi : ch < 9223372036854775808 := by
    have e : ((lineBreaks env tokens : Int) + 1) * ch =
        (lineBreaks env tokens : Int) * ch + ch := by ring
    have := Int.mul_nonneg hLB (le_of_lt hch0)
    omega
  have hch : 0 ≤ ch ∧ ch < 9223372036854775808 := ⟨le_of_lt hch0, hchi⟩
  obtain ⟨hp0, hp1⟩ := linePitch_bounds ch hch.1 hch.2
  -- room for the whole stream at the start of the background pass
  have hroom0 : Room cw ch (streamWidth env tokens) (lineBreaks env tokens)
      i.drawBackgroundAll := by
    refine ⟨hcwdef, hchdef, ?_, ?_, ?_, ?_⟩
    · show 0 ≤ i.x
      omega
    · show 0 ≤ i.y
      omega
    · show i.x + _ < _
      omega
    · show i.y + _ + _ < _
      have e : ((lineBreaks env tokens : Int) + 1) * ch =
          (lineBreaks env tokens : Int) * ch + ch := by ring
      have : (lineBreaks env tokens : Int) * linePitch ch ≤ (lineBreaks env tokens : Int) * ch :=
        Int.mul_le_mul_of_nonneg_left hp1 hLB
      omega
  -- the state at the start of the run
  have hSWt : streamWidth env [t] =
      (s1.map env.RuneWidth).sum + (env.RuneWidth r + (s2.map env.RuneWidth).sum) := by
    simp only [streamWidth, hkind, Int.add_zero, htext, List.map_append, List.map_cons,
      List.sum_append, List.sum_cons]
  have hLBt : lineBreaks env [t] = (s2.filter env.isLinefeed).length := by
    simp only [lineBreaks, hkind, Nat.add_zero, htext, List.filter_append,
      filter_linefeed_nil env s1 hs1, List.nil_append, List.filter_cons, hlf,
      Bool.false_eq_true, if_false]
  have hSWpost := streamWidth_nonneg env hrw post
  have hA := sum_widths_nonneg env hrw s1
  have hC := sum_widths_nonneg env hrw s2
  have hroomσ : Room cw ch
      ((s1.map env.RuneWidth).sum +
        (env.RuneWidth r + ((s2.map env.RuneWidth).sum + streamWidth env post)))
      ((s2.filter env.isLinefeed).length + lineBreaks env post)
      (backgroundPass env pre i.drawBackgroundAll) := by
    have h0 := hroom0
    rw [htok, streamWidth_append, lineBreaks_append, streamWidth_cons env t post,
      lineBreaks_cons env t post, hSWt, hLBt] at h0
    have h1 := (Room_backgroundPass env hrw cw ch _ _ (le_of_lt hcw0) hch
      (by have := hrw r; omega) pre i.drawBackgroundAll h0).1
    have e : (s1.map env.RuneWidth).sum + (env.RuneWidth r + (s2.map env.RuneWidth).sum) +
        streamWidth env post = (s1.map env.RuneWidth).sum +
        (env.RuneWidth r + ((s2.map env.RuneWidth).sum + streamWidth env post)) := by ring
    rw [e] at h1
    exact h1
  -- the cursor of the foreground pass at the rune is that of the background pass
  have h0 : SameCursor i.drawBackgroundAll (afterBackground env tokens i) :=
    ⟨hx0, hy0, hl0, hcwdef.trans hcell.1.symm, hchdef.trans hcell.2.symm⟩
  have hsc := foregroundPass_SameCursor env _ _ _ j h0 hj
  rw [backgroundPass_append] at hsc
  have hone : backgroundPass env [{ t with Text := s1 }]
      (backgroundPass env pre i.drawBackgroundAll) =
      bgRunes env s1 ((backgroundPass env pre i.drawBackgroundAll).drawBackground env s1) := by
    unfold backgroundPass
    simp only [List.foldl_cons, List.foldl_nil]
    unfold bgToken
    simp only [hkind]
  rw [hone] at hsc
  obtain ⟨c1, c2, _, _, _⟩ := hsc
  generalize hσ : backgroundPass env pre i.drawBackgroundAll = σ at *
  obtain ⟨r1, r2, r3, r4, r5, r6⟩ := hroomσ
  have hn1 := Int.mul_nonneg hA (le_of_lt hcw0)
  have hn2 := Int.mul_nonneg (hrw r) (le_of_lt hcw0)
  have hn3 := Int.mul_nonneg hC (le_of_lt hcw0)
  have hn4 := Int.mul_nonneg hSWpost (le_of_lt hcw0)
  have hexp : ((s1.map env.RuneWidth).sum +
      (env.RuneWidth r + ((s2.map env.RuneWidth).sum + streamWidth env post))) * cw =
      (s1.map env.RuneWidth).sum * cw + env.RuneWidth r * cw +
        (s2.map env.RuneWidth).sum * cw + streamWidth env post * cw := by ring
  rw [hexp] at r5
  have hLn := Int.mul_nonneg
    (Int.ofNat_nonneg ((s2.filter env.isLinefeed).length + lineBreaks env post)) hp0
  obtain ⟨l1, l2⟩ := bgRunes_on_one_line env hrw s1 (σ.drawBackground env s1)
    (by show 0 ≤ σ.charWidth; omega) hs1 (by show _ ≤ σ.x; omega)
    (by
      show σ.x + _ * σ.charWidth < _
      rw [r1]
      omega)
  have e1 : (σ.drawBackground env s1).x = σ.x := rfl
  have e2 : (σ.drawBackground env s1).y = σ.y := rfl
  have e3 : (σ.drawBackground env s1).charWidth = σ.charWidth := rfl
  rw [e1, e3, r1] at l1
  rw [e2] at l2
  rw [l1] at c1
  rw [l2] at c2
  rw [← c1] at hx
  rw [← c2] at hy hrow
  -- the run, rune by rune, in the background pass
  have hroomτ0 : Room cw ch
      ((s1.map env.RuneWidth).sum +
        (env.RuneWidth r + ((s2.map env.RuneWidth).sum + streamWidth env post)))
      ((s1.filter env.isLinefeed).length +
        ((s2.filter env.isLinefeed).length + lineBreaks env post))
      (σ.drawBackground env t.Text) := by
    rw [filter_linefeed_nil env s1 hs1, List.length_nil, Nat.zero_add]
    refine ⟨r1, r2, r3, r4, ?_, r6⟩
    show σ.x + _ * cw < _
    rw [hexp]
    exact r5
  obtain ⟨hroomτ1, _⟩ := Room_bgRunes env hrw cw ch _ _ (le_of_lt hcw0) hch
    (by have := hrw r; omega) s1 _ hroomτ0
  obtain ⟨m1, m2⟩ := bgRunes_on_one_line env hrw s1 (σ.drawBackground env t.Text)
    (by show 0 ≤ σ.charWidth; omega) hs1 (by show _ ≤ σ.x; omega)
    (by
      show σ.x + _ * σ.charWidth < _
      rw [r1]
      omega)
  have e5 : (σ.drawBackground env t.Text).x = σ.x := rfl
  have e6 : (σ.drawBackground env t.Text).y = σ.y := rfl
  have e7 : (σ.drawBackground env t.Text).charWidth = σ.charWidth := rfl
  rw [e5, e7, r1] at m1
  rw [e6] at m2
  obtain ⟨hroomτ2, n1, n2⟩ := Room_moveRight env hrw cw ch _ _ (le_of_lt hcw0) (by omega) r _
    hroomτ1
  have hP : Passed cw ch x y σ.y
      ((bgRunes env s1 (σ.drawBackground env t.Text)).moveRight env r) := by
    refine ⟨hroomτ2.1, hroomτ2.2.1, Or.inl ⟨?_, ?_⟩⟩
    · rw [n1, m1]
      exact hx.2
    · rw [n2, m2]
  have hrow2 : y < σ.y + linePitch ch ∨ ∀ q ∈ s2, env.isLinefeed q = false := by
    rcases hrow with h1 | h1
    · exact Or.inl h1
    · exact Or.inr h1.1
  have hrow3 : y < σ.y + linePitch ch ∨
      ∀ u ∈ post, u.Kind = .KindText → ∀ q ∈ u.Text, env.isLinefeed q = false := by
    rcases hrow with h1 | h1
    · exact Or.inl h1
    · exact Or.inr h1.2
  have hP2 := Passed_bgRunes env hrw cw ch x y σ.y _ _ (le_of_lt hcw0) hch hSWpost s2 _ hrow2
    hroomτ2 hP
  obtain ⟨hroomτ3, _⟩ := Room_bgRunes env hrw cw ch _ _ (le_of_lt hcw0) hch hSWpost s2 _
    hroomτ2
  obtain ⟨q1, q2⟩ := Passed_backgroundPass env hrw cw ch x y σ.y (le_of_lt hcw0) hch post _
    hrow3 hroomτ3 hP2
  -- the whole pass, split at the run
  have hfull : backgroundPass env tokens i.drawBackgroundAll =
      backgroundPass env post
        (bgRunes env s2 ((bgRunes env s1 (σ.drawBackground env t.Text)).moveRight env r)) := by
    rw [htok, backgroundPass_append, hσ]
    unfold backgroundPass
    simp only [List.foldl_cons]
    congr 1
    unfold bgToken
    simp only [hkind]
    rw [htext, bgRunes_append]
    rw [← htext]
    conv => lhs; unfold bgRunes
    simp only [hlf, Bool.false_eq_true, if_false]
  have himg : (bgRunes env s2
      ((bgRunes env s1 (σ.drawBackground env t.Text)).moveRight env r)).image =
      (σ.drawBackground env t.Text).image := by
    rw [bgRunes_image]
    show (bgRunes env s1 (σ.drawBackground env t.Text)).image = _
    rw [bgRunes_image]
  rw [himg] at q1 q2
  have hin1 : Point.In ⟨x, y⟩ (backgroundPass env tokens i.drawBackgroundAll).image.Rect = true :=
    hin
  rw [hfull, q1] at hin1
  rw [hfull, q2]
  have hrect : (σ.drawBackground env t.Text).image.Rect = σ.image.Rect :=
    fillLoop_Rect _ _ _ _ _ _
  have hin2 : Point.In ⟨x, y⟩ σ.image.Rect = true := by
    rw [← hrect]
    exact hin1
  show (fillLoop _ _ _ _ _ _).At x y = _
  rw [fillLoop_At, wrap64_add_wrap64]
  have hwidth : env.StringWidth t.Text * σ.charWidth =
      (s1.map env.RuneWidth).sum * cw + env.RuneWidth r * cw +
        (s2.map env.RuneWidth).sum * cw := by
    rw [hsw, htext, r1]
    simp only [List.map_append, List.map_cons, List.sum_append, List.sum_cons]
    ring
  rw [hwidth, r2, wrap64_of_fits _ (by unfold IsInt; omega),
    wrap64_of_fits _ (by unfold IsInt; omega)]
  have hcond : (σ.x ≤ x ∧ x < σ.x + ((s1.map env.RuneWidth).sum * cw + env.RuneWidth r * cw +
        (s2.map env.RuneWidth).sum * cw)) ∧
      (σ.y ≤ y ∧ y < σ.y + ch) ∧ Point.In ⟨x, y⟩ σ.image.Rect = true := by
    refine ⟨⟨by omega, by omega⟩, hy, hin2⟩
  rw [if_pos hcond]

theorem demoEnv_StringWidth (s : List Char) :
    demoEnv.StringWidth s = (s.map demoEnv.RuneWidth).sum := rfl

set_option maxRecDepth 100000 in
/-- The amended C2 on a grid of 2 by 2 cells with font size 4 and the stream
set-background red, text "a", line feed, "b": the pixel (1, 2) of the cell of
"a", above the origin (0, 3) of the next line, is red after the background
pass. -/
theorem glyph_cell_background_witness :
    (backgroundPass demoEnv
      [colorToken .ColorTypeBackground red,
        textToken [(Char.ofNat 97), (Char.ofNat 10), (Char.ofNat 98)]]
      (built (demoParam 2 2 4) (by decide)).drawBackgroundAll).image.At 1 2 = red :=
  glyph_cell_background demoEnv demoEnv_RuneWidth_nonneg
    (demoParam 2 2 4) (built (demoParam 2 2 4) (by decide))
    [colorToken .ColorTypeBackground red,
      textToken [(Char.ofNat 97), (Char.ofNat 10), (Char.ofNat 98)]]
    (built_spec _ _) [colorToken .ColorTypeBackground red]
    (textToken [(Char.ofNat 97), (Char.ofNat 10), (Char.ofNat 98)]) []
    [] (Char.ofNat 97) [(Char.ofNat 10), (Char.ofNat 98)] _ rfl rfl rfl (by decide)
    (by decide) rfl (by decide) (by decide) rfl 1 2 (by decide) (by decide) (by decide)
    (Or.inl (by decide))

/-! ## C12: a colored letter and a default one -/

theorem fgRunes_single (env : Env) (i : Image) (r : Char) (hl : env.isLinefeed r = false)
    (he : (env.isEmoji r i.emojiDir).1 = false) :
    fgRunes env [r] i = ((i.drawRune env r i.fontFace).moveRight env r, none) := by
  unfold fgRunes
  simp only [hl, Bool.false_eq_true, if_false, draw_of_not_emoji env i r he]
  rfl

theorem bgRunes_single (env : Env) (i : Image) (r : Char) (hl : env.isLinefeed r = false) :
    bgRunes env [r] i = i.moveRight env r := by
  unfold bgRunes
  simp only [hl, Bool.false_eq_true, if_false]
  rfl

theorem newDrawer_Dot_congr (a b : Image) (f g : Face) (hx : a.x = b.x) (hy : a.y = b.y)
    (hch : a.charHeight = b.charHeight) : (a.newDrawer f).Dot = (b.newDrawer g).Dot := by
  unfold Image.newDrawer
  simp only [hx, hy, hch]

/-- The foreground pass on the stream `foregroundDemo c d`, from any state: set the
foreground, draw "A" and move right, reset the foreground, draw "B" and move
right. -/
theorem foregroundDemo_pass (env : Env) (S : Image) (c d : Color)
    (hA : env.isLinefeed (Char.ofNat 65) = false) (hB : env.isLinefeed (Char.ofNat 66) = false)
    (hEA : ∀ dir, (env.isEmoji (Char.ofNat 65) dir).1 = false)
    (hEB : ∀ dir, (env.isEmoji (Char.ofNat 66) dir).1 = false) :
    (foregroundPass env (foregroundDemo c d) S).2 = none ∧
    (foregroundPass env (foregroundDemo c d) S).1.image =
      { S.image with
        Pix := env.DrawString
          ⟨{ S.image with
              Pix := env.DrawString ⟨S.image, c, S.fontFace, (S.newDrawer S.fontFace).Dot⟩
                (Char.ofNat 65) },
            S.defaultForegroundColor, S.fontFace,
            ((S.moveRight env (Char.ofNat 65)).newDrawer S.fontFace).Dot⟩
          (Char.ofNat 66) } := by
  unfold foregroundDemo
  simp only [foregroundPass, fgToken, colorToken, textToken]
  rw [fgRunes_single env _ _ hA (hEA _)]
  simp only
  rw [fgRunes_single env _ _ hB (hEB _)]
  exact ⟨rfl, rfl⟩

theorem config_PassStable (env : Env) (u : Bool) (a b : Int) (f : Face) :
    PassStable env (fun j => j.useAnimation = u ∧ j.resizeWidth = a ∧ j.resizeHeight = b ∧
      j.fontFace = f) :=
  { updateColor := fun _ t _ h => by cases t <;> exact h
    resetColor := fun _ h => h
    resetPosition := fun _ h => h
    moveDown := fun _ h => h
    moveRight := fun _ _ h => h
    setImage := fun _ _ h => h }

/-- C12: for every color `c`, on a fresh image and with "A" and "B" ordinary
glyphs (neither a line break nor an emoji), the foreground pass on the stream
set-foreground `c`, "A", reset-foreground, "B" ends without error, and its
canvas is that of the background pass on which "A" was drawn by `DrawString`
with the source color `c` at the dot of the origin, and then "B" by
`DrawString` with the default foreground color at the dot of the cursor after
"A"; without animation and rescaling this is the canvas that `Draw` leaves,
without error.  The background pass paints with one color only, the default
background: after it, every pixel of the canvas is the default background or
as it was on the fresh canvas, and every in-canvas pixel that is not left of or
above the origin, so every in-canvas pixel of the rectangles of "A" and of "B",
is the default background. -/
theorem colored_A_default_B (env : Env) (p : ImageParam) (i : Image) (c d : Color)
    (hnew : NewImage p = some i)
    (hA : env.isLinefeed (Char.ofNat 65) = false) (hB : env.isLinefeed (Char.ofNat 66) = false)
    (hEA : ∀ dir, (env.isEmoji (Char.ofNat 65) dir).1 = false)
    (hEB : ∀ dir, (env.isEmoji (Char.ofNat 66) dir).1 = false) :
    (foregroundPass env (foregroundDemo c d) (afterBackground env (foregroundDemo c d) i)).2 =
      none ∧
    (foregroundPass env (foregroundDemo c d)
      (afterBackground env (foregroundDemo c d) i)).1.image =
      { (backgroundPass env (foregroundDemo c d) i.drawBackgroundAll).image with
        Pix := env.DrawString
          ⟨{ (backgroundPass env (foregroundDemo c d) i.drawBackgroundAll).image with
              Pix := env.DrawString
                ⟨(backgroundPass env (foregroundDemo c d) i.drawBackgroundAll).image, c,
                  p.FontFace, (i.newDrawer p.FontFace).Dot⟩
                (Char.ofNat 65) },
            p.ForegroundColor, p.FontFace,
            ((i.moveRight env (Char.ofNat 65)).newDrawer p.FontFace).Dot⟩
          (Char.ofNat 66) } ∧
    (p.UseAnimation = false → p.ResizeWidth = 0 → p.ResizeHeight = 0 →
      i.Draw env (foregroundDemo c d) =
        ((foregroundPass env (foregroundDemo c d)
          (afterBackground env (foregroundDemo c d) i)).1, .ok)) ∧
    (∀ x y,
      (backgroundPass env (foregroundDemo c d) i.drawBackgroundAll).image.At x y =
          p.BackgroundColor ∨
        (backgroundPass env (foregroundDemo c d) i.drawBackgroundAll).image.At x y =
          i.image.At x y) ∧
    (∀ x y, Point.In ⟨x, y⟩ i.image.Bounds = true → 0 ≤ x → 0 ≤ y →
      (backgroundPass env (foregroundDemo c d) i.drawBackgroundAll).image.At x y =
        p.BackgroundColor) := by
  obtain ⟨hx0, hy0, _, _, hb, hdf, hdb, _, hua, hrw, hrh⟩ := NewImage_fields p i hnew
  have hface : i.fontFace = p.FontFace := by
    unfold NewImage at hnew
    simp only [Option.bind_eq_some, Option.map_eq_some'] at hnew
    obtain ⟨a, _, m, _, rfl⟩ := hnew
    rfl
  obtain ⟨hfp1, hfp2⟩ := foregroundDemo_pass env (afterBackground env (foregroundDemo c d) i) c d
    hA hB hEA hEB
  have hcell := (cell_Stable env i.charWidth i.charHeight).toPassStable.afterBackground
    (foregroundDemo c d) i ⟨rfl, rfl⟩
  have hcfg := (config_PassStable env i.useAnimation i.resizeWidth i.resizeHeight
    i.fontFace).afterBackground (foregroundDemo c d) i ⟨rfl, rfl, rfl, rfl⟩
  have hd := (defaults_Stable env p.ForegroundColor p.BackgroundColor).toPassStable.afterBackground
    (foregroundDemo c d) i ⟨hdf, hdb⟩
  have hfinal : (backgroundPass env (foregroundDemo c d) i.drawBackgroundAll).image =
      fillLoop
        (fillLoop i.drawBackgroundAll.image i.x
          (wrap64 (i.x + wrap64 (env.StringWidth [Char.ofNat 65] * i.charWidth))) i.y
          (wrap64 (i.y + i.charHeight)) i.backgroundColor)
        (i.moveRight env (Char.ofNat 65)).x
        (wrap64 ((i.moveRight env (Char.ofNat 65)).x +
          wrap64 (env.StringWidth [Char.ofNat 66] * i.charWidth)))
        i.y (wrap64 (i.y + i.charHeight)) i.backgroundColor := by
    unfold foregroundDemo backgroundPass
    simp only [List.foldl_cons, List.foldl_nil, bgToken, colorToken, textToken]
    rw [bgRunes_single env _ _ hB, bgRunes_single env _ _ hA]
    rfl
  have hall : i.drawBackgroundAll.image =
      fillLoop i.image 0 i.image.Bounds.Max.X 0 i.image.Bounds.Max.Y i.defaultBackgroundColor :=
    rfl
  refine ⟨hfp1, ?_, fun h1 h2 h3 => ?_, fun x y => ?_, fun x y hin hx hy => ?_⟩
  · rw [hfp2]
    have e1 : (afterBackground env (foregroundDemo c d) i).image =
        (backgroundPass env (foregroundDemo c d) i.drawBackgroundAll).image := rfl
    have e2 : ((afterBackground env (foregroundDemo c d) i).newDrawer
        (afterBackground env (foregroundDemo c d) i).fontFace).Dot =
        (i.newDrawer p.FontFace).Dot :=
      newDrawer_Dot_congr _ _ _ _ hx0.symm hy0.symm hcell.2
    have e3 : (((afterBackground env (foregroundDemo c d) i).moveRight env
        (Char.ofNat 65)).newDrawer (afterBackground env (foregroundDemo c d) i).fontFace).Dot =
        ((i.moveRight env (Char.ofNat 65)).newDrawer p.FontFace).Dot := by
      apply newDrawer_Dot_congr
      · show wrap64 (_ + wrap64 (_ * (afterBackground env (foregroundDemo c d) i).charWidth)) =
          wrap64 (i.x + wrap64 (_ * i.charWidth))
        rw [hcell.1, hx0]
        rfl
      · exact hy0.symm
      · exact hcell.2
    rw [e1, e2, e3, hcfg.2.2.2, hface, hd.1]
  · unfold Image.Draw
    have hcfg2 := (config_PassStable env i.useAnimation i.resizeWidth i.resizeHeight
      i.fontFace).foregroundPass (foregroundDemo c d) _ hcfg
    rcases hf : foregroundPass env (foregroundDemo c d)
      (afterBackground env (foregroundDemo c d) i) with ⟨j, oe⟩
    rw [hf] at hfp1 hcfg2
    simp only at hfp1 hcfg2
    subst hfp1
    obtain ⟨k1, k2, k3, _⟩ := hcfg2
    rw [hua, h1] at k1
    rw [hrw, h2] at k2
    rw [hrh, h3] at k3
    have hsa : j.setAnimationFlames env = (j, .ok) := by
      unfold Image.setAnimationFlames
      simp [k1]
    have hsc : j.scale env = some j := by
      unfold Image.scale
      simp [k2, k3]
    simp only [hsa, hsc]
  · rw [hfinal, fillLoop_At, fillLoop_Rect, fillLoop_At, hall, fillLoop_Rect, fillLoop_At, hb,
      hdb]
    split
    · exact Or.inl rfl
    · split
      · exact Or.inl rfl
      · split
        · exact Or.inl rfl
        · exact Or.inr rfl
  · rw [hfinal, fillLoop_At, fillLoop_Rect, fillLoop_At, hall, fillLoop_Rect, fillLoop_At, hb,
      hdb]
    have hin2 := (In_iff x y i.image.Rect).1 hin
    have hcond : (0 ≤ x ∧ x < i.image.Bounds.Max.X) ∧ (0 ≤ y ∧ y < i.image.Bounds.Max.Y) ∧
        Point.In ⟨x, y⟩ i.image.Rect = true :=
      ⟨⟨hx, hin2.1.2⟩, ⟨hy, hin2.2.2⟩, hin⟩
    rw [if_pos hcond]
    split
    · rfl
    · split
      · rfl
      · rfl

set_option maxRecDepth 100000 in
/-- C12 with red on a fresh image of 2 by 1 cells with font size 2, white on
black, with glyphs that put one pixel of ink in the column of the dot: after the
foreground pass the pixel (0, 0), under "A", is red, and the pixel (1, 0), under
"B", is white. -/
theorem colored_A_default_B_witness :
    (foregroundPass inkEnv (foregroundDemo red Color.zero)
      (afterBackground inkEnv (foregroundDemo red Color.zero)
        (built (demoParam 2 1 2) (by decide)))).1.image.At 0 0 = red ∧
    (foregroundPass inkEnv (foregroundDemo red Color.zero)
      (afterBackground inkEnv (foregroundDemo red Color.zero)
        (built (demoParam 2 1 2) (by decide)))).1.image.At 1 0 = white := by
  rw [(colored_A_default_B inkEnv (demoParam 2 1 2) (built (demoParam 2 1 2) (by decide)) red
      Color.zero (built_spec _ _) (by decide) (by decide) (fun _ => rfl) (fun _ => rfl)).2.1]
  decide

/-! ## C18: no division by zero -/

theorem NewImage_animation (p : ImageParam) (i : Image) (h : NewImage p = some i)
    (hanim : p.UseAnimation = true) :
    i.useAnimation = true ∧
    ∃ n, goDiv p.BaseHeight p.AnimationLineCount = some n ∧
      goDiv ((Float64.ofInt (wrap64 (p.BaseHeight * i.charHeight))).div f64_1_2).toInt n =
        some i.animationImageFlameHeight := by
  unfold NewImage at h
  simp only [Option.bind_eq_some, Option.map_eq_some', hanim, if_true] at h
  obtain ⟨a, ⟨n, hn, ha⟩, m, _, rfl⟩ := h
  exact ⟨rfl, n, hn, ha⟩

theorem NewImage_isSome_of_flame (p : ImageParam) (a : Int)
    (h : (if p.UseAnimation = true then
      (goDiv p.BaseHeight p.AnimationLineCount).bind (fun n =>
        goDiv ((Float64.ofInt (wrap64 (p.BaseHeight *
          ((Float64.ofInt p.FontSize).mul f64_1_2).toInt))).div f64_1_2).toInt n)
      else some 0) = some a) :
    (NewImage p).isSome =
      (newImage (wrap64 (p.BaseWidth * Int.tdiv p.FontSize 2))
        ((Float64.ofInt (wrap64 (p.BaseHeight *
          ((Float64.ofInt p.FontSize).mul f64_1_2).toInt))).div f64_1_2).toInt).isSome := by
  unfold NewImage
  dsimp only
  rw [h]
  simp only [Option.some_bind, Option.isSome_map']

theorem slicing_StepStable (env : Env) (R : Rectangle) (u : Bool) (h : Int)
    (l : List Canvas) :
    StepStable env (fun j => j.image.Rect = R ∧ j.useAnimation = u ∧
      j.animationImageFlameHeight = h ∧ j.animationImages = l) :=
  { updateColor := fun _ t _ h => by cases t <;> exact h
    moveDown := fun _ h => h
    moveRight := fun _ _ h => h
    setPix := fun _ _ h => h }

/-- The state handed to the slicer has the bounds, the animation switch, the
frame height and the frames of the state that `Draw` started from. -/
theorem slicing_foregroundPass (env : Env) (i : Image) (tokens : Tokens) :
    (foregroundPass env tokens (afterBackground env tokens i)).1.image.Rect = i.image.Rect ∧
    (foregroundPass env tokens (afterBackground env tokens i)).1.useAnimation =
      i.useAnimation ∧
    (foregroundPass env tokens (afterBackground env tokens i)).1.animationImageFlameHeight =
      i.animationImageFlameHeight ∧
    (foregroundPass env tokens (afterBackground env tokens i)).1.animationImages =
      i.animationImages := by
  have hst := slicing_StepStable env i.image.Rect i.useAnimation i.animationImageFlameHeight
    i.animationImages
  have h0 : i.drawBackgroundAll.image.Rect = i.image.Rect ∧
      i.drawBackgroundAll.useAnimation = i.useAnimation ∧
      i.drawBackgroundAll.animationImageFlameHeight = i.animationImageFlameHeight ∧
      i.drawBackgroundAll.animationImages = i.animationImages :=
    ⟨fillLoop_Rect _ _ _ _ _ _, rfl, rfl, rfl⟩
  have h1 := stepStable_backgroundPass hst tokens _ h0
  have h2 : (afterBackground env tokens i).image.Rect = i.image.Rect ∧
      (afterBackground env tokens i).useAnimation = i.useAnimation ∧
      (afterBackground env tokens i).animationImageFlameHeight = i.animationImageFlameHeight ∧
      (afterBackground env tokens i).animationImages = i.animationImages := h1
  exact stepStable_foregroundPass hst tokens _ h2

theorem flamesLoop_no_panic (env : Env) (w h : Int)
    (halloc : (NewRGBA ⟨⟨0, 0⟩, ⟨w, h⟩⟩).isSome = true)
    (rcs : List Int) (i : Image) : (flamesLoop env w h rcs i).2 ≠ .panic := by
  obtain ⟨d, hd⟩ := Option.isSome_iff_exists.1 halloc
  induction rcs generalizing i with
  | nil =>
    unfold flamesLoop
    simp
  | cons rc rest ih =>
    unfold flamesLoop
    dsimp only
    rcases hc : env.Crop i.image w h ⟨0, wrap64 (rc * h)⟩ with e | cimg
    · simp
    · simp only [hd]
      exact ih _

theorem Draw_no_frames (env : Env) (i : Image) (tokens : Tokens)
    (hu : i.useAnimation = false) (hnil : i.animationImages = []) :
    (i.Draw env tokens).1.animationImages = [] := by
  obtain ⟨_, k2, _, k4⟩ := slicing_foregroundPass env i tokens
  rw [hu] at k2
  rw [hnil] at k4
  unfold Image.Draw
  rcases hf : foregroundPass env tokens (afterBackground env tokens i) with ⟨j, oe⟩
  rw [hf] at k2 k4
  simp only at k2 k4
  cases oe with
  | some e => cases e <;> exact k4
  | none =>
    simp only
    have hsa : j.setAnimationFlames env = (j, .ok) := by
      unfold Image.setAnimationFlames
      simp [k2]
    rw [hsa]
    simp only
    cases hsc : j.scale env with
    | none => exact k4
    | some j3 =>
      simp only
      unfold Image.scale at hsc
      split at hsc
      · cases hsc
        exact k4
      · split at hsc
        · cases hsc
        · simp only [Option.map_eq_some'] at hsc
          obtain ⟨l, hl, rfl⟩ := hsc
          simp only
          rw [k4] at hl
          unfold scaleAll at hl
          cases hl
          rfl

set_option maxRecDepth 100000 in
/-- C18, as stated, fails: for a grid of 1 by `2 ^ 62` cells with font size 4 and
one line per frame, the premises of the claim hold, and `NewImage` divides by
nothing that is zero, but the product of the grid height and the cell height is
`2 ^ 64`, which is 0 as an `int`: the canvas is 0 pixels high, the frame height
is `0 / 2 ^ 62 = 0`, and `setAnimationFlames` divides by zero, so that `Draw`
panics. -/
theorem frame_height_is_zero_when_height_wraps :
    wrappedAnimParam.UseAnimation = true ∧
    1 ≤ wrappedAnimParam.AnimationLineCount ∧
    wrappedAnimParam.AnimationLineCount ≤ wrappedAnimParam.BaseHeight ∧
    2 ≤ wrappedAnimParam.FontSize ∧
    (built wrappedAnimParam (by decide)).animationImageFlameHeight = 0 ∧
    goDiv (built wrappedAnimParam (by decide)).image.Bounds.Max.Y
      (built wrappedAnimParam (by decide)).animationImageFlameHeight = none ∧
    ((built wrappedAnimParam (by decide)).Draw demoEnv []).2 = .panic := by
  decide

/-- C18, amended: for every `ImageParam` with `UseAnimation` set,
`1 ≤ AnimationLineCount ≤ BaseHeight`, `FontSize ≥ 2` and
`2 * BaseHeight * FontSize < 2 ^ 63` (so that the height of the canvas does not
wrap), the two divisions of `NewImage` are defined, with a quotient
`n = BaseHeight / AnimationLineCount ≥ 1` and a frame height at least 1;
`NewImage` then fails only if the canvas cannot be allocated, and on the image
that it returns the frame height is at least 1, no color directive, cursor move
or drawing of `Draw` changes it, the division by it in `setAnimationFlames` is
defined and `setAnimationFlames` does not panic.  When `UseAnimation` is not
set, `NewImage` evaluates no division (it fails only if the canvas cannot be
allocated, whatever `AnimationLineCount` is), the frame height is 0,
`setAnimationFlames` returns at once without a division, and `Draw` leaves no
frame. -/
theorem frame_height_is_safe (p : ImageParam) :
    (p.UseAnimation = true → 1 ≤ p.AnimationLineCount →
      p.AnimationLineCount ≤ p.BaseHeight → 2 ≤ p.FontSize →
      2 * p.BaseHeight * p.FontSize < 9223372036854775808 →
      (∃ n h, goDiv p.BaseHeight p.AnimationLineCount = some n ∧ 1 ≤ n ∧
        goDiv ((Float64.ofInt (wrap64 (p.BaseHeight *
          ((Float64.ofInt p.FontSize).mul f64_1_2).toInt))).div f64_1_2).toInt n = some h ∧
        1 ≤ h) ∧
      (NewImage p).isSome =
        (newImage (wrap64 (p.BaseWidth * Int.tdiv p.FontSize 2))
          ((Float64.ofInt (wrap64 (p.BaseHeight *
            ((Float64.ofInt p.FontSize).mul f64_1_2).toInt))).div f64_1_2).toInt).isSome ∧
      ∀ i, NewImage p = some i →
        1 ≤ i.animationImageFlameHeight ∧
        ∀ (env : Env) (tokens : Tokens),
          (foregroundPass env tokens (afterBackground env tokens i)).1.animationImageFlameHeight
            = i.animationImageFlameHeight ∧
          (goDiv (foregroundPass env tokens (afterBackground env tokens i)).1.image.Bounds.Max.Y
            (foregroundPass env tokens
              (afterBackground env tokens i)).1.animationImageFlameHeight).isSome = true ∧
          ((foregroundPass env tokens
            (afterBackground env tokens i)).1.setAnimationFlames env).2 ≠ .panic) ∧
    (p.UseAnimation = false →
      (NewImage p).isSome =
        (newImage (wrap64 (p.BaseWidth * Int.tdiv p.FontSize 2))
          ((Float64.ofInt (wrap64 (p.BaseHeight *
            ((Float64.ofInt p.FontSize).mul f64_1_2).toInt))).div f64_1_2).toInt).isSome ∧
      ∀ i, NewImage p = some i →
        i.animationImageFlameHeight = 0 ∧
        ∀ (env : Env) (tokens : Tokens),
          (foregroundPass env tokens (afterBackground env tokens i)).1.setAnimationFlames env =
            ((foregroundPass env tokens (afterBackground env tokens i)).1, .ok) ∧
          (i.Draw env tokens).1.animationImages = []) := by
  constructor
  · intro hanim hA1 hA2 hF hfit
    have hBH : 0 < p.BaseHeight := by omega
    have hA0 : p.AnimationLineCount ≠ 0 := by omega
    have hF62 : p.FontSize < 4611686018427387904 := by nlinarith
    obtain ⟨hc1, hc2⟩ := cellHeight_bounds p.FontSize (by omega) hF62
    generalize hchdef : ((Float64.ofInt p.FontSize).mul f64_1_2).toInt = ch at *
    have hprod1 : p.BaseHeight * 2 ≤ p.BaseHeight * ch :=
      Int.mul_le_mul_of_nonneg_left (by omega) (by omega)
    have hprod2 : p.BaseHeight * ch ≤ p.BaseHeight * (2 * p.FontSize) :=
      Int.mul_le_mul_of_nonneg_left hc2 (by omega)
    have hprod3 : p.BaseHeight * (2 * p.FontSize) = 2 * p.BaseHeight * p.FontSize := by ring
    have hwr : wrap64 (p.BaseHeight * ch) = p.BaseHeight * ch :=
      wrap64_of_fits _ (by unfold IsInt; omega)
    obtain ⟨hi1, hi2⟩ := imageHeight_bounds (p.BaseHeight * ch) (by omega) (by omega)
    rw [← hwr] at hi1 hi2
    generalize hIHdef : ((Float64.ofInt (wrap64 (p.BaseHeight * ch))).div f64_1_2).toInt = IH at *
    rw [hwr] at hi1 hi2
    have hIH1 : p.BaseHeight ≤ IH := by omega
    have hndiv : Int.tdiv p.BaseHeight p.AnimationLineCount =
        p.BaseHeight / p.AnimationLineCount := Int.tdiv_eq_ediv (by omega) (by omega)
    have hn1 : 1 ≤ p.BaseHeight / p.AnimationLineCount := by
      rw [Int.le_ediv_iff_mul_le (by omega)]
      omega
    have hnle : p.BaseHeight / p.AnimationLineCount ≤ p.BaseHeight :=
      Int.ediv_le_self _ (by omega)
    generalize hndef : p.BaseHeight / p.AnimationLineCount = n at *
    have hgn : goDiv p.BaseHeight p.AnimationLineCount = some n := by
      unfold goDiv
      rw [if_neg hA0, hndiv, wrap64_of_fits _ (by unfold IsInt; omega)]
    have hq1 : 1 ≤ IH / n := by
      rw [Int.le_ediv_iff_mul_le (by omega)]
      omega
    have hqle : IH / n ≤ IH := Int.ediv_le_self _ (by omega)
    have hgh : goDiv IH n = some (IH / n) := by
      unfold goDiv
      rw [if_neg (by omega), Int.tdiv_eq_ediv (by omega) (by omega),
        wrap64_of_fits _ (by unfold IsInt; omega)]
    have hflame : (if p.UseAnimation = true then
        (goDiv p.BaseHeight p.AnimationLineCount).bind (fun m => goDiv IH m)
        else some 0) = some (IH / n) := by
      rw [if_pos hanim, hgn]
      exact hgh
    refine ⟨⟨n, IH / n, hgn, hn1, hgh, hq1⟩, ?_, fun i hnew => ?_⟩
    · have := NewImage_isSome_of_flame p (IH / n)
      rw [hchdef, hIHdef] at this
      exact this hflame
    · obtain ⟨hua, m, hm1, hm2⟩ := NewImage_animation p i hnew hanim
      obtain ⟨_, hc, himg⟩ := NewImage_cell p i hnew
      rw [hchdef] at hc
      rw [hc, hIHdef] at hm2 himg
      rw [hgn] at hm1
      cases hm1
      rw [hgh] at hm2
      have hfl : i.animationImageFlameHeight = IH / n := (Option.some.inj hm2).symm
      refine ⟨by omega, fun env tokens => ?_⟩
      obtain ⟨k1, k2, k3, _⟩ := slicing_foregroundPass env i tokens
      refine ⟨k3, ?_, ?_⟩
      · rw [k3]
        unfold goDiv
        rw [if_neg (by omega)]
        rfl
      · generalize foregroundPass env tokens (afterBackground env tokens i) = fg at *
        unfold Image.setAnimationFlames
        rw [k2, hua]
        simp only [if_true]
        have hg : goDiv fg.1.image.Bounds.Max.Y fg.1.animationImageFlameHeight =
            some (wrap64 (Int.tdiv fg.1.image.Bounds.Max.Y fg.1.animationImageFlameHeight)) := by
          unfold goDiv
          rw [if_neg (by omega)]
        rw [hg]
        simp only
        apply flamesLoop_no_panic
        rw [NewRGBA_some_iff]
        -- the canvas was allocated, and a frame is not larger than the canvas
        have hb : fg.1.image.Bounds = Rect 0 0 (wrap64 (p.BaseWidth * i.charWidth)) IH := by
          show fg.1.image.Rect = _
          rw [k1]
          exact newImage_Bounds _ _ _ himg
        have hal : (NewRGBA (Rect 0 0 (wrap64 (p.BaseWidth * i.charWidth)) IH)).isSome = true := by
          unfold newImage at himg
          rw [himg]
          rfl
        rw [NewRGBA_some_iff] at hal
        have hW := wrap64_isInt (p.BaseWidth * i.charWidth)
        generalize wrap64 (p.BaseWidth * i.charWidth) = W at *
        unfold IsInt at hW
        rw [hb, k3, hfl]
        by_cases hWn : 0 ≤ W
        · obtain ⟨hdx, hdy⟩ := Rect_Dx_Dy W IH hWn (by omega) hW.2 (by omega)
          rw [hdx, hdy] at hal
          rw [Rect_Min_of_nonneg W IH hWn (by omega)]
          have hmul : W * (IH / n) ≤ W * IH := Int.mul_le_mul_of_nonneg_left hqle hWn
          unfold Rectangle.Dx Rectangle.Dy
          simp only [Int.sub_zero]
          rw [wrap64_of_fits W (by unfold IsInt; omega),
            wrap64_of_fits (IH / n) (by unfold IsInt; omega)]
          refine ⟨hWn, by omega, ?_⟩
          have e1 : 4 * W * (IH / n) = 4 * (W * (IH / n)) := by ring
          have e2 : 4 * W * IH = 4 * (W * IH) := by ring
          omega
        · have hR : (Rect 0 0 W IH).Max.X = 0 := by
            unfold Rect
            have : (0 : Int) > W := by omega
            simp [this]
          rw [hR]
          unfold Rectangle.Dx Rectangle.Dy
          simp only [Int.sub_zero]
          rw [wrap64_of_fits 0 (by unfold IsInt; omega),
            wrap64_of_fits (IH / n) (by unfold IsInt; omega)]
          omega
  · intro hanim
    have hflame : (if p.UseAnimation = true then
        (goDiv p.BaseHeight p.AnimationLineCount).bind (fun m =>
          goDiv ((Float64.ofInt (wrap64 (p.BaseHeight *
            ((Float64.ofInt p.FontSize).mul f64_1_2).toInt))).div f64_1_2).toInt m)
        else some 0) = some 0 := by
      rw [hanim]
      rfl
    refine ⟨NewImage_isSome_of_flame p 0 hflame, fun i hnew => ?_⟩
    obtain ⟨_, _, _, _, _, _, _, hnil, hua, _⟩ := NewImage_fields p i hnew
    rw [hanim] at hua
    have hfl : i.animationImageFlameHeight = 0 := by
      unfold NewImage at hnew
      simp only [hanim, Bool.false_eq_true, if_false, Option.some_bind,
        Option.map_eq_some'] at hnew
      obtain ⟨m, _, rfl⟩ := hnew
      rfl
    refine ⟨hfl, fun env tokens => ⟨?_, Draw_no_frames env i tokens hua hnil⟩⟩
    obtain ⟨_, k2, _, _⟩ := slicing_foregroundPass env i tokens
    unfold Image.setAnimationFlames
    rw [k2, hua]
    rfl

set_option maxRecDepth 100000 in
/-- The amended C18 on a grid of 2 by 2 cells with font size 4 and one line per
frame: the frame height of the image that `NewImage` returns is at least 1. -/
theorem frame_height_is_safe_witness :
    1 ≤ (built animParam (by decide)).animationImageFlameHeight :=
  (((frame_height_is_safe animParam).1 rfl (by decide) (by decide) (by decide)
    (by decide)).2.2 _ (built_spec _ _)).1

/-! ## C19: the number of frames -/

theorem flamesLoop_ok_length (env : Env) (w h : Int) (rcs : List Int) (i : Image)
    (hok : (flamesLoop env w h rcs i).2 = .ok) :
    (flamesLoop env w h rcs i).1.animationImages.length =
      i.animationImages.length + rcs.length := by
  induction rcs generalizing i with
  | nil => rfl
  | cons rc rest ih =>
    unfold flamesLoop at hok ⊢
    dsimp only at hok ⊢
    rcases hc : env.Crop i.image w h ⟨0, wrap64 (rc * h)⟩ with e | cimg
    · rw [hc] at hok
      simp at hok
    · rw [hc] at hok
      simp only at hok ⊢
      cases hn : NewRGBA ⟨⟨0, 0⟩, ⟨w, h⟩⟩ with
      | none =>
        rw [hn] at hok
        cases hok
      | some dist =>
        rw [hn] at hok
        simp only at hok ⊢
        rw [ih _ hok]
        simp only [List.length_append, List.length_cons, List.length_nil]
        omega

theorem scaleAll_length (env : Env) (w h : Int) (l l2 : List Canvas)
    (hs : scaleAll env w h l = some l2) : l2.length = l.length := by
  induction l generalizing l2 with
  | nil =>
    unfold scaleAll at hs
    cases hs
    rfl
  | cons img rest ih =>
    unfold scaleAll at hs
    split at hs
    · cases hs
    · simp only [Option.map_eq_some'] at hs
      obtain ⟨l3, hl3, rfl⟩ := hs
      simp only [List.length_cons]
      rw [ih l3 hl3]

theorem scale_frames_length (env : Env) (i j : Image) (h : i.scale env = some j) :
    j.animationImages.length = i.animationImages.length := by
  unfold Image.scale at h
  split at h
  · cases h
    rfl
  · split at h
    · cases h
    · simp only [Option.map_eq_some'] at h
      obtain ⟨l, hl, rfl⟩ := h
      exact scaleAll_length env _ _ _ _ hl

theorem frames_arith (H n : Int) (hn : 1 ≤ n) (hH : n ≤ H) :
    n ≤ H / (H / n) ∧ (H % n = 0 → H / (H / n) = n) := by
  have hn0 : (0 : Int) < n := by omega
  have hq1 : 1 ≤ H / n := by
    rw [Int.le_ediv_iff_mul_le hn0]
    omega
  have hq0 : (0 : Int) < H / n := by omega
  have hmul : H / n * n ≤ H := Int.ediv_mul_le H (by omega)
  refine ⟨?_, fun hmod => ?_⟩
  · rw [Int.le_ediv_iff_mul_le hq0, Int.mul_comm]
    exact hmul
  · have hdvd : n ∣ H := Int.dvd_of_emod_eq_zero hmod
    have heq : H / n * n = H := Int.ediv_mul_cancel hdvd
    have : H / (H / n) = n * (H / n) / (H / n) := by
      rw [Int.mul_comm, heq]
    rw [this]
    exact Int.mul_ediv_cancel n (by omega)

set_option maxRecDepth 100000 in
/-- C19, as stated, fails: for a grid of 1 by -4 cells with font size 4 and -2
lines per frame, `n = -4 / -2 = 2`; the height computed by `NewImage` is
`int(-16 / 1.2) = -13`, so the canvas goes from (0, -13) to (2, 0) and is 13
pixels high, and the frame height is `-13 / 2 = -6`; the slicer reads the height
as `Bounds().Max.Y = 0`, its loop runs `0 / -6 = 0` times, and `Draw` of the
empty stream ends without error with no frame at all. -/
theorem negative_grid_height_gives_no_frames :
    ¬ FramesAtLeast demoEnv negAnimParam [] := by
  intro h
  have h1 := (h (built negAnimParam (by decide)) 2 (built_spec _ _) rfl (by decide) (by decide)
    (by decide) (by decide)).1
  revert h1
  decide

/-- C19, amended: with animation on, let `n = BaseHeight / AnimationLineCount`
(the integer division of the code) with `n ≥ 1`, and let `H` be the height of
the canvas built by `NewImage`, where the canvas starts at the row 0 (the height
that `NewImage` computed is not negative, so that `H` is `Bounds().Max.Y`, which
is what the code reads), with `H ≥ n`.  Then a `Draw` that returns no error
leaves at least `n` animation frames, and exactly `n` when `H` is a multiple of
`n`. -/
theorem frames_at_least_lines (env : Env) (p : ImageParam) (i : Image) (n : Int)
    (tokens : Tokens)
    (hnew : NewImage p = some i) (hanim : p.UseAnimation = true)
    (hdiv : goDiv p.BaseHeight p.AnimationLineCount = some n) (hn : 1 ≤ n)
    (hmin : i.image.Bounds.Min.Y = 0)
    (hH : n ≤ i.image.Bounds.Dy)
    (hok : (i.Draw env tokens).2 = .ok) :
    n ≤ ((i.Draw env tokens).1.animationImages.length : Int) ∧
    (i.image.Bounds.Dy % n = 0 →
      ((i.Draw env tokens).1.animationImages.length : Int) = n) := by
  obtain ⟨hua, m, hm1, hflame⟩ := NewImage_animation p i hnew hanim
  rw [hdiv] at hm1
  cases hm1
  obtain ⟨_, _, _, _, _, _, _, hnil, _⟩ := NewImage_fields p i hnew
  obtain ⟨_, _, himg⟩ := NewImage_cell p i hnew
  have hIHint := toInt_isInt ((Float64.ofInt (wrap64 (p.BaseHeight * i.charHeight))).div f64_1_2)
  generalize ((Float64.ofInt (wrap64 (p.BaseHeight * i.charHeight))).div f64_1_2).toInt = IH at *
  generalize wrap64 (p.BaseWidth * i.charWidth) = W at *
  unfold IsInt at hIHint
  have hb := newImage_Bounds _ _ _ himg
  -- the canvas starts at the row 0: the height that was computed is not negative
  have hIH0 : 0 ≤ IH := by
    rw [hb] at hmin
    unfold Rect at hmin
    simp only at hmin
    by_cases hneg : (0 : Int) > IH
    · rw [if_pos hneg] at hmin
      omega
    · omega
  have hmaxY : i.image.Bounds.Max.Y = IH := by
    rw [hb]
    unfold Rect
    have : ¬ (0 : Int) > IH := by omega
    simp [this]
  have hDy : i.image.Bounds.Dy = IH := by
    unfold Rectangle.Dy
    rw [hmaxY, hmin, Int.sub_zero]
    exact wrap64_of_fits _ hIHint
  rw [hDy] at hH ⊢
  obtain ⟨har1, har2⟩ := frames_arith IH n hn hH
  have hq1 : 1 ≤ IH / n := by
    rw [Int.le_ediv_iff_mul_le (by omega)]
    omega
  have hqle : IH / n ≤ IH := Int.ediv_le_self _ hIH0
  have hh : i.animationImageFlameHeight = IH / n := by
    unfold goDiv at hflame
    rw [if_neg (by omega), Int.tdiv_eq_ediv hIH0 (by omega),
      wrap64_of_fits _ (by unfold IsInt; omega)] at hflame
    exact (Option.some.inj hflame).symm
  have hcnt0 : 0 ≤ IH / (IH / n) := by omega
  have hcntle : IH / (IH / n) ≤ IH := Int.ediv_le_self _ hIH0
  obtain ⟨k1, k2, k3, k4⟩ := slicing_foregroundPass env i tokens
  have hlen : ((i.Draw env tokens).1.animationImages.length : Int) = IH / (IH / n) := by
    unfold Image.Draw at hok ⊢
    rcases hf : foregroundPass env tokens (afterBackground env tokens i) with ⟨j, oe⟩
    rw [hf] at hok k1 k2 k3 k4
    simp only at k1 k2 k3 k4
    cases oe with
    | some e => cases e <;> cases hok
    | none =>
      simp only at hok ⊢
      have hY : j.image.Bounds.Max.Y = IH := by
        show j.image.Rect.Max.Y = IH
        rw [k1]
        exact hmaxY
      have hsa : j.setAnimationFlames env =
          flamesLoop env j.image.Bounds.Max.X (IH / n) (intRange 0 (IH / (IH / n))) j := by
        unfold Image.setAnimationFlames goDiv
        rw [k2, hua]
        have hne : IH / n ≠ 0 := by omega
        simp only [if_true, k3, hh, if_neg hne, hY]
        rw [Int.tdiv_eq_ediv hIH0 (by omega), wrap64_of_fits _ (by unfold IsInt; omega)]
      rw [hsa] at hok ⊢
      have hl := flamesLoop_ok_length env j.image.Bounds.Max.X (IH / n)
        (intRange 0 (IH / (IH / n))) j
      rcases hfl : flamesLoop env j.image.Bounds.Max.X (IH / n) (intRange 0 (IH / (IH / n))) j
        with ⟨j2, o⟩
      rw [hfl] at hok hl
      cases o with
      | err e => cases hok
      | panic => cases hok
      | ok =>
        simp only at hl hok ⊢
        have hl2 := hl trivial
        rw [k4, hnil, intRange_length] at hl2
        cases hsc : j2.scale env with
        | none =>
          rw [hsc] at hok
          cases hok
        | some j3 =>
          simp only
          rw [scale_frames_length env j2 j3 hsc, hl2]
          simp only [List.length_nil, Nat.zero_add, Int.sub_zero]
          omega
  rw [hlen]
  exact ⟨har1, har2⟩

set_option maxRecDepth 100000 in
/-- The amended C19 on a grid of 2 by 2 cells with font size 4 and one line per
frame (`n = 2`, `H = 6`): `Draw` of the text "a" leaves two frames. -/
theorem frames_at_least_lines_witness :
    (((built animParam (by decide)).Draw demoEnv
      [textToken [(Char.ofNat 97)]]).1.animationImages.length : Int) = 2 :=
  (frames_at_least_lines demoEnv animParam (built animParam (by decide)) 2
    [textToken [(Char.ofNat 97)]] (built_spec _ _) rfl (by decide) (by decide) (by decide)
    (by decide) (by decide)).2 (by decide)

end Textimg
